import Mathlib

/-!
# A shallow embedding of rupypy's AST-to-bytecode compiler

This file embeds `src/rupypy/ast.py`: the AST node set and each node's
`compile(ctx)` method, together with the `CompilerContext` collaborator
(whose implementation, `rupypy/bytecode.py`, is not part of the sources;
its operations are modelled from the specification, section 4.2).
Python's in-place mutation of the context is rendered as explicit state
passing, and the two places where `compile` can index the first character
of an empty name are rendered by returning `none`.
-/

namespace Rupypy

/-- The opcode catalogue (spec section 6): the compiler's entire output
vocabulary as used by `ast.py`. -/
inductive Op where
  | DISCARD_TOP
  | LOAD_CONST
  | LOAD_SELF
  | LOAD_LOCAL
  | LOAD_CONSTANT
  | LOAD_INSTANCE_VAR
  | STORE_LOCAL
  | STORE_CONSTANT
  | STORE_INSTANCE_VAR
  | JUMP
  | JUMP_IF_FALSE
  | SEND
  | BUILD_ARRAY
  | BUILD_CLASS
  | DEFINE_FUNCTION
  | COPY_STRING
  | RETURN
  deriving DecidableEq, Repr

/-- One emitted instruction: an opcode together with the operand values the
emitting call supplied (`ctx.emit(op, *operands)`). Keeping the operand
list explicit lets the development state how many operands accompany each
opcode. -/
structure Instr where
  op : Op
  args : List Nat
  deriving DecidableEq, Repr

instance : Inhabited Instr := ⟨⟨.RETURN, []⟩⟩

/-- Runtime literal values held in a constant pool: the three singletons,
integers, strings, and assembled nested bytecode objects (instruction
sequence, constant pool, symbol pool, number of local slots). -/
inductive Const where
  | wTrue
  | wFalse
  | wNil
  | int (n : Int)
  | str (s : String)
  | code (instrs : List Instr) (consts : List Const) (symbols : List String)
      (nlocals : Nat)

/-- Modelled from the spec: the `CompilerContext` state (section 4.2) of
`rupypy/bytecode.py`, which is not among the sources. One instance per
lexical compilation unit: the growing instruction sequence, the constant
pool, the symbol pool and the local-variable table (slot = list index). -/
structure Ctx where
  instrs : List Instr
  consts : List Const
  symbols : List String
  locals : List String

/-- The fresh context `CompilerContext(space)` starts from. -/
def emptyCtx : Ctx := ⟨[], [], [], []⟩

/-- Modelled from the spec: `emit(opcode, operand?)` appends one
instruction. -/
def emitI (c : Ctx) (op : Op) (args : List Nat) : Ctx :=
  { c with instrs := c.instrs ++ [⟨op, args⟩] }

/-- Modelled from the spec: `create_const` appends a literal to the
constant pool and returns its index (the pool is kept append-only; the
spec leaves deduplication unspecified, section 9). -/
def createConst (c : Ctx) (v : Const) : Ctx × Nat :=
  ({ c with consts := c.consts ++ [v] }, c.consts.length)

/-- Modelled from the spec: `create_symbol_const` looks a name up in the
symbol pool, appending it when absent, and returns its index. -/
def createSymbolConst (c : Ctx) (s : String) : Ctx × Nat :=
  if c.symbols.contains s then (c, c.symbols.findIdx (· == s))
  else ({ c with symbols := c.symbols ++ [s] }, c.symbols.length)

/-- Modelled from the spec: `create_local` returns the name's existing
slot or allocates the next free slot. -/
def createLocal (c : Ctx) (s : String) : Ctx × Nat :=
  if c.locals.contains s then (c, c.locals.findIdx (· == s))
  else ({ c with locals := c.locals ++ [s] }, c.locals.length)

/-- Modelled from the spec: `local_defined` tests membership without
allocating. -/
def localDefined (c : Ctx) (s : String) : Bool :=
  c.locals.contains s

/-- Modelled from the spec: `get_pos` is the position of the
next-to-be-emitted instruction. -/
def getPos (c : Ctx) : Nat := c.instrs.length

/-- Modelled from the spec: `patch_jump(pos)` rewrites the operand of the
jump instruction at `pos` to the current end-of-sequence position. -/
def patchJump (c : Ctx) (pos : Nat) : Ctx :=
  { c with
    instrs := c.instrs.set pos ⟨(c.instrs.getD pos default).op, [c.instrs.length]⟩ }

/-- Modelled from the spec: `create_bytecode` snapshots the instruction
sequence and pools into an immutable bytecode object. -/
def createBytecode (c : Ctx) : Const :=
  .code c.instrs c.consts c.symbols c.locals.length

/-- The AST node set of `rupypy/ast.py`, one constructor per concrete
class. `Statement` carries its `dont_pop` flag as a field (in Python it is
an attribute set by `Statement.__init__` and flipped by `Block.__init__`);
`Block` carries the statement list it stores after construction. -/
inductive Node where
  | main (block : Node)
  | block (stmts : List Node)
  | statement (expr : Node) (dont_pop : Bool)
  | assignment (target : String) (value : Node)
  | instanceVariableAssignment (name : String) (value : Node)
  | ifNode (cond : Node) (body : Node)
  | whileNode (cond : Node) (body : Node)
  | classNode (name : String) (superclass : Option Node) (body : Node)
  | function (name : String) (args : List String) (body : Node)
  | ret (expr : Node)
  | binOp (op : String) (left : Node) (right : Node)
  | send (receiver : Node) (method : String) (args : List Node)
  | self
  | variable (name : String)
  | instanceVariable (name : String)
  | array (items : List Node)
  | constantInt (intvalue : Int)
  | constantString (strvalue : String)

/-- `Function.compile` declares one local slot per parameter name, in
declaration order, in the fresh nested context. -/
def declareLocals (args : List String) (c : Ctx) : Ctx :=
  args.foldl (fun c n => (createLocal c n).1) c

mutual

/-- Each node's `compile(ctx)`, translated method by method from
`rupypy/ast.py`. `Variable`'s final fallback `Send(Self(), name, []).compile(ctx)`
and `BinOp`'s delegation `Send(left, op, [right]).compile(ctx)` are
unfolded in place (receiver first, arguments in reverse order, then the
`SEND`), which keeps the recursion structural; `send_unfold_variable` and
`send_unfold_binop` below prove the unfoldings equal to the delegated
calls. The partial operations `target[0]` and `name[0]` on an empty string
return `none`. -/
def compile : Node → Ctx → Option Ctx
  | .main b, ctx => do
      let c1 ← compile b ctx
      let c2 := emitI c1 .DISCARD_TOP []
      let (c3, i) := createConst c2 .wTrue
      let c4 := emitI c3 .LOAD_CONST [i]
      some (emitI c4 .RETURN [])
  | .block stmts, ctx => compileList stmts ctx
  | .statement e dont_pop, ctx => do
      let c1 ← compile e ctx
      if dont_pop then some c1 else some (emitI c1 .DISCARD_TOP [])
  | .assignment target value, ctx =>
      match target.data with
      | [] => none
      | ch :: _ =>
        if ch.isUpper then do
          let c1 ← compile value ctx
          let (c2, i) := createSymbolConst c1 target
          some (emitI c2 .STORE_CONSTANT [i])
        else
          let (c0, loc) := createLocal ctx target
          do
            let c1 ← compile value c0
            some (emitI c1 .STORE_LOCAL [loc])
  | .instanceVariableAssignment name value, ctx => do
      let c1 ← compile value ctx
      let c2 := emitI c1 .LOAD_SELF []
      let (c3, i) := createSymbolConst c2 name
      some (emitI c3 .STORE_INSTANCE_VAR [i])
  | .ifNode cond body, ctx => do
      let c1 ← compile cond ctx
      let pos := getPos c1
      let c2 := emitI c1 .JUMP_IF_FALSE [0]
      let c3 ← compile body c2
      let elsePos := getPos c3
      let c4 := emitI c3 .JUMP [0]
      let c5 := patchJump c4 pos
      let (c6, i) := createConst c5 .wNil
      let c7 := emitI c6 .LOAD_CONST [i]
      some (patchJump c7 elsePos)
  | .whileNode cond body, ctx => do
      let startPos := getPos ctx
      let c1 ← compile cond ctx
      let jumpPos := getPos c1
      let c2 := emitI c1 .JUMP_IF_FALSE [0]
      let c3 ← compile body c2
      let c4 := emitI c3 .DISCARD_TOP []
      let c5 := emitI c4 .JUMP [startPos]
      let c6 := patchJump c5 jumpPos
      let (c7, i) := createConst c6 .wNil
      some (emitI c7 .LOAD_CONST [i])
  | .classNode name _superclass body, ctx => do
      let c1 := emitI ctx .LOAD_SELF []
      let (c2, si) := createSymbolConst c1 name
      let c3 := emitI c2 .LOAD_CONST [si]
      let (c4, ni) := createConst c3 .wNil
      let c5 := emitI c4 .LOAD_CONST [ni]
      let b1 ← compile body emptyCtx
      let b2 := emitI b1 .DISCARD_TOP []
      let (b3, bi) := createConst b2 .wNil
      let b4 := emitI b3 .LOAD_CONST [bi]
      let b5 := emitI b4 .RETURN []
      let (c6, ci) := createConst c5 (createBytecode b5)
      let c7 := emitI c6 .LOAD_CONST [ci]
      some (emitI c7 .BUILD_CLASS [])
  | .function name args body, ctx => do
      let f0 := declareLocals args emptyCtx
      let f1 ← compile body f0
      let f2 := emitI f1 .RETURN []
      let c1 := emitI ctx .LOAD_SELF []
      let (c2, si) := createSymbolConst c1 name
      let c3 := emitI c2 .LOAD_CONST [si]
      let (c4, ci) := createConst c3 (createBytecode f2)
      let c5 := emitI c4 .LOAD_CONST [ci]
      some (emitI c5 .DEFINE_FUNCTION [])
  | .ret e, ctx => do
      let c1 ← compile e ctx
      some (emitI c1 .RETURN [])
  | .binOp op left right, ctx => do
      let c1 ← compile left ctx
      let c2 ← compile right c1
      let (c3, si) := createSymbolConst c2 op
      some (emitI c3 .SEND [si, 1])
  | .send receiver method args, ctx => do
      let c1 ← compile receiver ctx
      let c2 ← compileRev args c1
      let (c3, si) := createSymbolConst c2 method
      some (emitI c3 .SEND [si, args.length])
  | .self, ctx => some (emitI ctx .LOAD_SELF [])
  | .variable name, ctx =>
      if name = "true" then
        let (c1, i) := createConst ctx .wTrue
        some (emitI c1 .LOAD_CONST [i])
      else if name = "false" then
        let (c1, i) := createConst ctx .wFalse
        some (emitI c1 .LOAD_CONST [i])
      else if name = "nil" then
        let (c1, i) := createConst ctx .wNil
        some (emitI c1 .LOAD_CONST [i])
      else if name = "self" then
        some (emitI ctx .LOAD_SELF [])
      else if localDefined ctx name then
        let (c1, i) := createLocal ctx name
        some (emitI c1 .LOAD_LOCAL [i])
      else
        match name.data with
        | [] => none
        | ch :: _ =>
          if ch.isUpper then
            let (c1, i) := createSymbolConst ctx name
            some (emitI c1 .LOAD_CONSTANT [i])
          else
            let c1 := emitI ctx .LOAD_SELF []
            let (c2, si) := createSymbolConst c1 name
            some (emitI c2 .SEND [si, 0])
  | .instanceVariable name, ctx => do
      let c1 := emitI ctx .LOAD_SELF []
      let (c2, si) := createSymbolConst c1 name
      some (emitI c2 .LOAD_INSTANCE_VAR [si])
  | .array items, ctx => do
      let c1 ← compileList items ctx
      some (emitI c1 .BUILD_ARRAY [items.length])
  | .constantInt n, ctx =>
      let (c1, i) := createConst ctx (.int n)
      some (emitI c1 .LOAD_CONST [i])
  | .constantString s, ctx =>
      let (c1, i) := createConst ctx (.str s)
      let c2 := emitI c1 .LOAD_CONST [i]
      some (emitI c2 .COPY_STRING [])

/-- `for stmt in stmts: stmt.compile(ctx)` — declared order, as used by
`Block.compile` and `Array.compile`. -/
def compileList : List Node → Ctx → Option Ctx
  | [], ctx => some ctx
  | s :: rest, ctx => do
      let c1 ← compile s ctx
      compileList rest c1

/-- `for i in range(len(args) - 1, -1, -1): args[i].compile(ctx)` — the
last declared argument is compiled first, as in `Send.compile`. -/
def compileRev : List Node → Ctx → Option Ctx
  | [], ctx => some ctx
  | a :: rest, ctx => do
      let c1 ← compileRev rest ctx
      compile a c1

end

/-- The fallback branch of `Variable.compile` is the in-place unfolding of
`Send(Self(), name, []).compile(ctx)`. -/
theorem send_unfold_variable (name : String) (ctx : Ctx) :
    compile (.send .self name []) ctx =
      (let c1 := emitI ctx .LOAD_SELF []
       let (c2, si) := createSymbolConst c1 name
       some (emitI c2 .SEND [si, 0])) := rfl

/-- `BinOp.compile` is the in-place unfolding of
`Send(left, op, [right]).compile(ctx)`. -/
theorem send_unfold_binop (op : String) (l r : Node) (ctx : Ctx) :
    compile (.binOp op l r) ctx = compile (.send l op [r]) ctx := by
  simp [compile, compileRev]


/-! ## List index helpers

Small facts about `getD` and `set` over appended lists, used to track
instruction positions across emission and jump patching. -/

theorem getD_append_lt {α : Type} (l₁ l₂ : List α) (i : Nat) (d : α)
    (h : i < l₁.length) : (l₁ ++ l₂).getD i d = l₁.getD i d := by
  induction l₁ generalizing i with
  | nil => simp at h
  | cons a t ih =>
    cases i with
    | zero => rfl
    | succ j => simpa using ih j (by simpa using h)

theorem getD_append_ge {α : Type} (l₁ l₂ : List α) (i : Nat) (d : α)
    (h : l₁.length ≤ i) : (l₁ ++ l₂).getD i d = l₂.getD (i - l₁.length) d := by
  induction l₁ generalizing i with
  | nil => simp
  | cons a t ih =>
    cases i with
    | zero => simp at h
    | succ j => simpa using ih j (by simpa using h)

theorem set_append_ge {α : Type} (l₁ l₂ : List α) (i : Nat) (a : α)
    (h : l₁.length ≤ i) : (l₁ ++ l₂).set i a = l₁ ++ l₂.set (i - l₁.length) a := by
  induction l₁ generalizing i with
  | nil => simp
  | cons b t ih =>
    cases i with
    | zero => simp at h
    | succ j => simpa using ih j (by simpa using h)

/-! ## A structural induction principle for `Node`

`Node` nests `List Node` under `block`, `send` and `array`, so the
development uses one hand-rolled induction principle (proved by strong
induction on `sizeOf`) giving membership hypotheses for those lists. -/

theorem Node.inductionOn (P : Node → Prop)
    (hmain : ∀ b, P b → P (.main b))
    (hblock : ∀ stmts, (∀ s ∈ stmts, P s) → P (.block stmts))
    (hstatement : ∀ e d, P e → P (.statement e d))
    (hassignment : ∀ t v, P v → P (.assignment t v))
    (hivasgn : ∀ n v, P v → P (.instanceVariableAssignment n v))
    (hif : ∀ c b, P c → P b → P (.ifNode c b))
    (hwhile : ∀ c b, P c → P b → P (.whileNode c b))
    (hclass : ∀ n sc b, P b → (∀ x, sc = some x → P x) → P (.classNode n sc b))
    (hfunction : ∀ n as b, P b → P (.function n as b))
    (hret : ∀ e, P e → P (.ret e))
    (hbinop : ∀ o l r, P l → P r → P (.binOp o l r))
    (hsend : ∀ r m as, P r → (∀ a ∈ as, P a) → P (.send r m as))
    (hself : P .self)
    (hvariable : ∀ n, P (.variable n))
    (hivar : ∀ n, P (.instanceVariable n))
    (harray : ∀ items, (∀ a ∈ items, P a) → P (.array items))
    (hint : ∀ n, P (.constantInt n))
    (hstr : ∀ s, P (.constantString s)) :
    ∀ n, P n := by
  have H : ∀ k (n : Node), sizeOf n ≤ k → P n := by
    intro k
    induction k with
    | zero => intro n hn; cases n <;> simp_arith at hn
    | succ k IH =>
      intro n hn
      cases n with
      | main b => exact hmain b (IH b (by simp_arith at hn; omega))
      | block stmts =>
        exact hblock stmts (fun s hs => IH s (by
          have := List.sizeOf_lt_of_mem hs
          simp_arith at hn; omega))
      | statement e d => exact hstatement e d (IH e (by cases d <;> simp_arith at hn <;> omega))
      | assignment t v => exact hassignment t v (IH v (by simp_arith at hn; omega))
      | instanceVariableAssignment nm v =>
        exact hivasgn nm v (IH v (by simp_arith at hn; omega))
      | ifNode c b =>
        exact hif c b (IH c (by simp_arith at hn; omega)) (IH b (by simp_arith at hn; omega))
      | whileNode c b =>
        exact hwhile c b (IH c (by simp_arith at hn; omega)) (IH b (by simp_arith at hn; omega))
      | classNode nm sc b =>
        exact hclass nm sc b
          (IH b (by cases sc <;> simp_arith at hn <;> omega))
          (fun x hx => IH x (by subst hx; simp_arith at hn; omega))
      | function nm as b => exact hfunction nm as b (IH b (by simp_arith at hn; omega))
      | ret e => exact hret e (IH e (by simp_arith at hn; omega))
      | binOp o l r =>
        exact hbinop o l r (IH l (by simp_arith at hn; omega)) (IH r (by simp_arith at hn; omega))
      | send r m as =>
        exact hsend r m as (IH r (by simp_arith at hn; omega)) (fun a ha => IH a (by
          have := List.sizeOf_lt_of_mem ha
          simp_arith at hn; omega))
      | self => exact hself
      | «variable» nm => exact hvariable nm
      | instanceVariable nm => exact hivar nm
      | array items =>
        exact harray items (fun a ha => IH a (by
          have := List.sizeOf_lt_of_mem ha
          simp_arith at hn; omega))
      | constantInt n => exact hint n
      | constantString s => exact hstr s
  exact fun n => H (sizeOf n) n le_rfl

/-! ## Compilation only grows the context

All four components of the context grow by appending: emitted
instructions, pooled constants, pooled symbols and allocated local slots
of an existing context are never removed or reordered, and `patch_jump`
only ever rewrites positions the same node emitted. -/

/-- `c'` extends `c`: every component of `c` is an initial segment of the
corresponding component of `c'`. -/
def Extends (c c' : Ctx) : Prop :=
  (∃ t, c'.instrs = c.instrs ++ t) ∧ (∃ t, c'.consts = c.consts ++ t) ∧
    (∃ t, c'.symbols = c.symbols ++ t) ∧ (∃ t, c'.locals = c.locals ++ t)

theorem Extends.rfl (c : Ctx) : Extends c c :=
  ⟨⟨[], by simp⟩, ⟨[], by simp⟩, ⟨[], by simp⟩, ⟨[], by simp⟩⟩

theorem Extends.trans {c₁ c₂ c₃ : Ctx} (h₁ : Extends c₁ c₂) (h₂ : Extends c₂ c₃) :
    Extends c₁ c₃ := by
  obtain ⟨⟨a1, e1⟩, ⟨a2, e2⟩, ⟨a3, e3⟩, ⟨a4, e4⟩⟩ := h₁
  obtain ⟨⟨b1, f1⟩, ⟨b2, f2⟩, ⟨b3, f3⟩, ⟨b4, f4⟩⟩ := h₂
  exact ⟨⟨a1 ++ b1, by simp [f1, e1]⟩, ⟨a2 ++ b2, by simp [f2, e2]⟩,
    ⟨a3 ++ b3, by simp [f3, e3]⟩, ⟨a4 ++ b4, by simp [f4, e4]⟩⟩

theorem extends_emitI (c : Ctx) (op : Op) (args : List Nat) :
    Extends c (emitI c op args) :=
  ⟨⟨[⟨op, args⟩], by simp [emitI]⟩, ⟨[], by simp [emitI]⟩,
    ⟨[], by simp [emitI]⟩, ⟨[], by simp [emitI]⟩⟩

theorem extends_createConst (c : Ctx) (v : Const) :
    Extends c (createConst c v).1 :=
  ⟨⟨[], by simp [createConst]⟩, ⟨[v], by simp [createConst]⟩,
    ⟨[], by simp [createConst]⟩, ⟨[], by simp [createConst]⟩⟩

theorem extends_createSymbolConst (c : Ctx) (s : String) :
    Extends c (createSymbolConst c s).1 := by
  unfold createSymbolConst
  by_cases h : c.symbols.contains s
  · rw [if_pos h]; exact Extends.rfl c
  · rw [if_neg h]
    exact ⟨⟨[], by simp⟩, ⟨[], by simp⟩, ⟨[s], by simp⟩, ⟨[], by simp⟩⟩

theorem extends_createLocal (c : Ctx) (s : String) :
    Extends c (createLocal c s).1 := by
  unfold createLocal
  by_cases h : c.locals.contains s
  · rw [if_pos h]; exact Extends.rfl c
  · rw [if_neg h]
    exact ⟨⟨[], by simp⟩, ⟨[], by simp⟩, ⟨[], by simp⟩, ⟨[s], by simp⟩⟩

theorem extends_declareLocals (args : List String) (c : Ctx) :
    Extends c (declareLocals args c) := by
  induction args generalizing c with
  | nil => exact Extends.rfl c
  | cons a t ih =>
    exact Extends.trans (extends_createLocal c a) (by simpa [declareLocals] using ih (createLocal c a).1)

/-- Patching a position at or past `c₀`'s instructions keeps every
component of `c₀` intact. -/
theorem extends_patchJump {c₀ c : Ctx} (pos : Nat) (h : Extends c₀ c)
    (hpos : c₀.instrs.length ≤ pos) : Extends c₀ (patchJump c pos) := by
  obtain ⟨⟨t, ht⟩, hc, hs, hl⟩ := h
  refine ⟨⟨t.set (pos - c₀.instrs.length) ⟨(c.instrs.getD pos default).op, [c.instrs.length]⟩, ?_⟩,
    hc, hs, hl⟩
  simp [patchJump, ht, set_append_ge _ _ _ _ hpos]

theorem compileList_extends (l : List Node)
    (IH : ∀ s ∈ l, ∀ c c', compile s c = some c' → Extends c c') :
    ∀ c c', compileList l c = some c' → Extends c c' := by
  induction l with
  | nil => intro c c' h; simp [compileList] at h; subst h; exact Extends.rfl c
  | cons a t ih =>
    intro c c' h
    simp only [compileList, Option.bind_eq_bind] at h
    cases ha : compile a c with
    | none => rw [ha] at h; simp at h
    | some c1 =>
      rw [ha] at h; simp at h
      exact Extends.trans (IH a (by simp) c c1 ha)
        (ih (fun s hs => IH s (by simp [hs])) c1 c' h)

theorem compileRev_extends (l : List Node)
    (IH : ∀ s ∈ l, ∀ c c', compile s c = some c' → Extends c c') :
    ∀ c c', compileRev l c = some c' → Extends c c' := by
  induction l with
  | nil => intro c c' h; simp [compileRev] at h; subst h; exact Extends.rfl c
  | cons a t ih =>
    intro c c' h
    simp only [compileRev, Option.bind_eq_bind] at h
    cases ht : compileRev t c with
    | none => rw [ht] at h; simp at h
    | some c1 =>
      rw [ht] at h; simp at h
      exact Extends.trans (ih (fun s hs => IH s (by simp [hs])) c c1 ht)
        (IH a (by simp) c1 c' h)

/-- Compiling any node only extends the context it is given: instructions,
constants, symbols and locals all grow by appending (jump patching rewrites
only positions emitted by the same node). -/
theorem compile_extends :
    ∀ n, ∀ c c', compile n c = some c' → Extends c c' := by
  intro n
  induction n using Node.inductionOn with
  | hmain b ih =>
    intro c c' h
    simp only [compile, Option.bind_eq_bind] at h
    cases hb : compile b c with
    | none => rw [hb] at h; simp at h
    | some c1 =>
      rw [hb] at h; simp at h; subst h
      exact Extends.trans (ih c c1 hb) (Extends.trans (extends_emitI ..)
        (Extends.trans (extends_createConst ..)
          (Extends.trans (extends_emitI ..) (extends_emitI ..))))
  | hblock stmts ih => exact compileList_extends stmts ih
  | hstatement e d ih =>
    intro c c' h
    simp only [compile, Option.bind_eq_bind] at h
    cases he : compile e c with
    | none => rw [he] at h; simp at h
    | some c1 =>
      rw [he] at h
      cases d with
      | true => simp at h; subst h; exact ih _ _ he
      | false => simp at h; subst h
                 exact Extends.trans (ih c c1 he) (extends_emitI ..)
  | hassignment t v ih =>
    intro c c' h
    simp only [compile] at h
    cases ht : t.data with
    | nil => rw [ht] at h; simp at h
    | cons ch rest =>
      rw [ht] at h
      by_cases hu : ch.isUpper
      · simp only [hu, if_true, Option.bind_eq_bind] at h
        cases hv : compile v c with
        | none => rw [hv] at h; simp at h
        | some c1 =>
          rw [hv] at h; simp at h; subst h
          exact Extends.trans (ih c c1 hv)
            (Extends.trans (extends_createSymbolConst ..) (extends_emitI ..))
      · simp only [hu, if_false, Option.bind_eq_bind] at h
        cases hv : compile v (createLocal c t).1 with
        | none => rw [hv] at h; simp at h
        | some c1 =>
          rw [hv] at h; simp at h; subst h
          exact Extends.trans (extends_createLocal c t)
            (Extends.trans (ih _ c1 hv) (extends_emitI ..))
  | hivasgn nm v ih =>
    intro c c' h
    simp only [compile, Option.bind_eq_bind] at h
    cases hv : compile v c with
    | none => rw [hv] at h; simp at h
    | some c1 =>
      rw [hv] at h; simp at h; subst h
      exact Extends.trans (ih c c1 hv) (Extends.trans (extends_emitI ..)
        (Extends.trans (extends_createSymbolConst ..) (extends_emitI ..)))
  | hif cnd b ihc ihb =>
    intro c c' h
    simp only [compile, Option.bind_eq_bind] at h
    cases hc : compile cnd c with
    | none => rw [hc] at h; simp at h
    | some c1 =>
      rw [hc] at h; simp at h
      cases hb : compile b (emitI c1 .JUMP_IF_FALSE [0]) with
      | none => rw [hb] at h; simp at h
      | some c3 =>
        rw [hb] at h; simp at h; subst h
        have e1 : Extends c c1 := ihc c c1 hc
        have e2 : Extends c c3 :=
          Extends.trans e1 (Extends.trans (extends_emitI ..) (ihb _ c3 hb))
        have e3 : Extends c (emitI c3 .JUMP [0]) := Extends.trans e2 (extends_emitI ..)
        have hlen : c.instrs.length ≤ (getPos c1) := by
          obtain ⟨⟨t, ht⟩, _⟩ := e1
          simp [getPos, ht]
        have e4 : Extends c (patchJump (emitI c3 .JUMP [0]) (getPos c1)) :=
          extends_patchJump _ e3 hlen
        have e5 : Extends c
            (emitI (createConst (patchJump (emitI c3 .JUMP [0]) (getPos c1)) .wNil).1
              .LOAD_CONST [(createConst (patchJump (emitI c3 .JUMP [0]) (getPos c1)) .wNil).2]) :=
          Extends.trans e4 (Extends.trans (extends_createConst _ _) (extends_emitI _ _ _))
        refine extends_patchJump _ e5 ?_
        obtain ⟨⟨t, ht⟩, _⟩ := e2
        simp [getPos, ht]
  | hwhile cnd b ihc ihb =>
    intro c c' h
    simp only [compile, Option.bind_eq_bind] at h
    cases hc : compile cnd c with
    | none => rw [hc] at h; simp at h
    | some c1 =>
      rw [hc] at h; simp at h
      cases hb : compile b (emitI c1 .JUMP_IF_FALSE [0]) with
      | none => rw [hb] at h; simp at h
      | some c3 =>
        rw [hb] at h; simp at h; subst h
        have e1 : Extends c c1 := ihc c c1 hc
        have e2 : Extends c c3 :=
          Extends.trans e1 (Extends.trans (extends_emitI ..) (ihb _ c3 hb))
        have e3 : Extends c (emitI (emitI c3 .DISCARD_TOP []) .JUMP [getPos c]) :=
          Extends.trans e2 (Extends.trans (extends_emitI _ _ _) (extends_emitI _ _ _))
        have e4 : Extends c (patchJump (emitI (emitI c3 .DISCARD_TOP []) .JUMP [getPos c]) (getPos c1)) :=
          extends_patchJump _ e3 (by
            obtain ⟨⟨t, ht⟩, _⟩ := e1
            simp [getPos, ht])
        exact Extends.trans e4 (Extends.trans (extends_createConst _ _) (extends_emitI _ _ _))
  | hclass nm sc b ih =>
    intro c c' h
    simp only [compile, Option.bind_eq_bind] at h
    cases hb : compile b emptyCtx with
    | none => rw [hb] at h; simp at h
    | some b1 =>
      rw [hb] at h; simp at h; subst h
      exact Extends.trans (extends_emitI ..) (Extends.trans (extends_createSymbolConst ..)
        (Extends.trans (extends_emitI ..) (Extends.trans (extends_createConst ..)
          (Extends.trans (extends_emitI ..) (Extends.trans (extends_createConst ..)
            (Extends.trans (extends_emitI ..) (extends_emitI ..)))))))
  | hfunction nm as b ih =>
    intro c c' h
    simp only [compile, Option.bind_eq_bind] at h
    cases hb : compile b (declareLocals as emptyCtx) with
    | none => rw [hb] at h; simp at h
    | some b1 =>
      rw [hb] at h; simp at h; subst h
      exact Extends.trans (extends_emitI ..) (Extends.trans (extends_createSymbolConst ..)
        (Extends.trans (extends_emitI ..) (Extends.trans (extends_createConst ..)
          (Extends.trans (extends_emitI ..) (extends_emitI ..)))))
  | hret e ih =>
    intro c c' h
    simp only [compile, Option.bind_eq_bind] at h
    cases he : compile e c with
    | none => rw [he] at h; simp at h
    | some c1 =>
      rw [he] at h; simp at h; subst h
      exact Extends.trans (ih c c1 he) (extends_emitI ..)
  | hbinop o l r ihl ihr =>
    intro c c' h
    simp only [compile, Option.bind_eq_bind] at h
    cases hl : compile l c with
    | none => rw [hl] at h; simp at h
    | some c1 =>
      rw [hl] at h; simp at h
      cases hr : compile r c1 with
      | none => rw [hr] at h; simp at h
      | some c2 =>
        rw [hr] at h; simp at h; subst h
        exact Extends.trans (ihl c c1 hl) (Extends.trans (ihr c1 c2 hr)
          (Extends.trans (extends_createSymbolConst ..) (extends_emitI ..)))
  | hsend r m as ihr iha =>
    intro c c' h
    simp only [compile, Option.bind_eq_bind] at h
    cases hr : compile r c with
    | none => rw [hr] at h; simp at h
    | some c1 =>
      rw [hr] at h; simp at h
      cases ha : compileRev as c1 with
      | none => rw [ha] at h; simp at h
      | some c2 =>
        rw [ha] at h; simp at h; subst h
        exact Extends.trans (ihr c c1 hr) (Extends.trans (compileRev_extends as iha c1 c2 ha)
          (Extends.trans (extends_createSymbolConst ..) (extends_emitI ..)))
  | hself =>
    intro c c' h
    simp only [compile, Option.some.injEq] at h; subst h
    exact extends_emitI ..
  | hvariable nm =>
    intro c c' h
    simp only [compile] at h
    by_cases h1 : nm = "true"
    · simp only [h1, if_true] at h ⊢
      simp at h; subst h
      exact Extends.trans (extends_createConst ..) (extends_emitI ..)
    · rw [if_neg h1] at h
      by_cases h2 : nm = "false"
      · simp only [h2, if_true] at h; simp at h; subst h
        exact Extends.trans (extends_createConst ..) (extends_emitI ..)
      · rw [if_neg h2] at h
        by_cases h3 : nm = "nil"
        · simp only [h3, if_true] at h; simp at h; subst h
          exact Extends.trans (extends_createConst ..) (extends_emitI ..)
        · rw [if_neg h3] at h
          by_cases h4 : nm = "self"
          · simp only [h4, if_true] at h; simp at h; subst h
            exact extends_emitI ..
          · rw [if_neg h4] at h
            by_cases h5 : localDefined c nm
            · simp only [h5, if_true] at h; simp at h; subst h
              exact Extends.trans (extends_createLocal ..) (extends_emitI ..)
            · rw [if_neg (by simpa using h5)] at h
              cases hd : nm.data with
              | nil => rw [hd] at h; simp at h
              | cons ch rest =>
                rw [hd] at h
                by_cases hu : ch.isUpper
                · simp only [hu, if_true] at h; simp at h; subst h
                  exact Extends.trans (extends_createSymbolConst ..) (extends_emitI ..)
                · simp only [hu, if_false] at h; simp at h; subst h
                  exact Extends.trans (extends_emitI ..)
                    (Extends.trans (extends_createSymbolConst ..) (extends_emitI ..))
  | hivar nm =>
    intro c c' h
    simp only [compile] at h; simp at h; subst h
    exact Extends.trans (extends_emitI ..)
      (Extends.trans (extends_createSymbolConst ..) (extends_emitI ..))
  | harray items ih =>
    intro c c' h
    simp only [compile, Option.bind_eq_bind] at h
    cases hi : compileList items c with
    | none => rw [hi] at h; simp at h
    | some c1 =>
      rw [hi] at h; simp at h; subst h
      exact Extends.trans (compileList_extends items ih c c1 hi) (extends_emitI ..)
  | hint n =>
    intro c c' h
    simp only [compile] at h; simp at h; subst h
    exact Extends.trans (extends_createConst ..) (extends_emitI ..)
  | hstr s =>
    intro c c' h
    simp only [compile] at h; simp at h; subst h
    exact Extends.trans (extends_createConst ..)
      (Extends.trans (extends_emitI ..) (extends_emitI ..))


/-! ## Operand counts (claim C2)

`ast.py` always passes zero or one operand to `emit` — except
`Send.compile`, which passes two (`create_symbol_const(method)` and
`len(args)`). `instrOK` is the resulting bound; `constOK` extends it
through nested bytecode objects created for functions and classes. -/

/-- At most two operands, and two only on a `SEND`. -/
def instrOK (i : Instr) : Bool :=
  decide (i.args.length ≤ 2) && (decide (i.args.length ≤ 1) || i.op == Op.SEND)

mutual

/-- Every instruction inside a nested bytecode constant satisfies `instrOK`. -/
def constOK : Const → Bool
  | .code instrs consts _ _ => instrs.all instrOK && constsOK consts
  | _ => true

def constsOK : List Const → Bool
  | [] => true
  | c :: rest => constOK c && constsOK rest

end

/-- A context whose emitted instructions and pooled constants all satisfy
the operand bound. -/
def ctxOK (c : Ctx) : Bool :=
  c.instrs.all instrOK && constsOK c.consts

theorem all_set {α : Type} (l : List α) (p : α → Bool) (i : Nat) (a : α)
    (hl : l.all p = true) (ha : p a = true) : (l.set i a).all p = true := by
  induction l generalizing i with
  | nil => exact hl
  | cons b t ih =>
    cases i with
    | zero =>
      simp only [List.set, List.all_cons, Bool.and_eq_true] at hl ⊢
      exact ⟨ha, hl.2⟩
    | succ j =>
      simp only [List.set, List.all_cons, Bool.and_eq_true] at hl ⊢
      exact ⟨hl.1, ih j hl.2⟩

theorem constsOK_append (l₁ l₂ : List Const) :
    constsOK (l₁ ++ l₂) = (constsOK l₁ && constsOK l₂) := by
  induction l₁ with
  | nil => simp [constsOK]
  | cons c t ih => simp [constsOK, ih, Bool.and_assoc]

theorem ctxOK_emitI {c : Ctx} (op : Op) (args : List Nat) (h : ctxOK c = true)
    (hi : instrOK ⟨op, args⟩ = true) : ctxOK (emitI c op args) = true := by
  simp [ctxOK, emitI] at h ⊢
  exact ⟨⟨h.1, hi⟩, h.2⟩

theorem ctxOK_createConst {c : Ctx} (v : Const) (h : ctxOK c = true)
    (hv : constOK v = true) : ctxOK (createConst c v).1 = true := by
  simp [ctxOK, createConst, constsOK_append, constsOK] at h ⊢
  exact ⟨h.1, h.2, hv⟩

theorem ctxOK_createSymbolConst {c : Ctx} (s : String) (h : ctxOK c = true) :
    ctxOK (createSymbolConst c s).1 = true := by
  unfold createSymbolConst
  by_cases hc : c.symbols.contains s
  · rwa [if_pos hc]
  · rw [if_neg hc]; simpa [ctxOK] using h

theorem ctxOK_createLocal {c : Ctx} (s : String) (h : ctxOK c = true) :
    ctxOK (createLocal c s).1 = true := by
  unfold createLocal
  by_cases hc : c.locals.contains s
  · rwa [if_pos hc]
  · rw [if_neg hc]; simpa [ctxOK] using h

theorem ctxOK_declareLocals (args : List String) {c : Ctx} (h : ctxOK c = true) :
    ctxOK (declareLocals args c) = true := by
  induction args generalizing c with
  | nil => simpa [declareLocals] using h
  | cons a t ih => simpa [declareLocals] using ih (ctxOK_createLocal a h)

theorem ctxOK_patchJump {c : Ctx} (pos : Nat) (h : ctxOK c = true) :
    ctxOK (patchJump c pos) = true := by
  unfold ctxOK at h ⊢
  unfold patchJump
  simp only [Bool.and_eq_true] at h ⊢
  exact ⟨all_set _ _ _ _ h.1 (by simp [instrOK]), h.2⟩

theorem compileList_ctxOK (l : List Node)
    (IH : ∀ s ∈ l, ∀ c c', ctxOK c = true → compile s c = some c' → ctxOK c' = true) :
    ∀ c c', ctxOK c = true → compileList l c = some c' → ctxOK c' = true := by
  induction l with
  | nil => intro c c' hok h; simp [compileList] at h; subst h; exact hok
  | cons a t ih =>
    intro c c' hok h
    simp only [compileList, Option.bind_eq_bind] at h
    cases ha : compile a c with
    | none => rw [ha] at h; simp at h
    | some c1 =>
      rw [ha] at h; simp at h
      exact ih (fun s hs => IH s (by simp [hs])) c1 c'
        (IH a (by simp) c c1 hok ha) h

theorem compileRev_ctxOK (l : List Node)
    (IH : ∀ s ∈ l, ∀ c c', ctxOK c = true → compile s c = some c' → ctxOK c' = true) :
    ∀ c c', ctxOK c = true → compileRev l c = some c' → ctxOK c' = true := by
  induction l with
  | nil => intro c c' hok h; simp [compileRev] at h; subst h; exact hok
  | cons a t ih =>
    intro c c' hok h
    simp only [compileRev, Option.bind_eq_bind] at h
    cases ht : compileRev t c with
    | none => rw [ht] at h; simp at h
    | some c1 =>
      rw [ht] at h; simp at h
      exact IH a (by simp) c1 c' (ih (fun s hs => IH s (by simp [hs])) c c1 hok ht) h

theorem compile_ctxOK :
    ∀ n, ∀ c c', ctxOK c = true → compile n c = some c' → ctxOK c' = true := by
  intro n
  induction n using Node.inductionOn with
  | hmain b ih =>
    intro c c' hok h
    simp only [compile, Option.bind_eq_bind] at h
    cases hb : compile b c with
    | none => rw [hb] at h; simp at h
    | some c1 =>
      rw [hb] at h; simp at h; subst h
      exact ctxOK_emitI _ _ (ctxOK_createConst _ (ctxOK_emitI _ _ (ih c c1 hok hb)
        (by simp [instrOK])) (by simp [constOK])) (by simp [instrOK])
        |> (ctxOK_emitI _ _ · (by simp [instrOK]))
  | hblock stmts ih => exact compileList_ctxOK stmts ih
  | hstatement e d ih =>
    intro c c' hok h
    simp only [compile, Option.bind_eq_bind] at h
    cases he : compile e c with
    | none => rw [he] at h; simp at h
    | some c1 =>
      rw [he] at h
      cases d with
      | true => simp at h; subst h; exact ih _ _ hok he
      | false =>
        simp at h; subst h
        exact ctxOK_emitI _ _ (ih c c1 hok he) (by simp [instrOK])
  | hassignment t v ih =>
    intro c c' hok h
    simp only [compile] at h
    cases ht : t.data with
    | nil => rw [ht] at h; simp at h
    | cons ch rest =>
      rw [ht] at h
      by_cases hu : ch.isUpper
      · simp only [hu, if_true, Option.bind_eq_bind] at h
        cases hv : compile v c with
        | none => rw [hv] at h; simp at h
        | some c1 =>
          rw [hv] at h; simp at h; subst h
          exact ctxOK_emitI _ _ (ctxOK_createSymbolConst _ (ih c c1 hok hv)) (by simp [instrOK])
      · simp only [hu, if_false, Option.bind_eq_bind] at h
        cases hv : compile v (createLocal c t).1 with
        | none => rw [hv] at h; simp at h
        | some c1 =>
          rw [hv] at h; simp at h; subst h
          exact ctxOK_emitI _ _ (ih _ c1 (ctxOK_createLocal _ hok) hv) (by simp [instrOK])
  | hivasgn nm v ih =>
    intro c c' hok h
    simp only [compile, Option.bind_eq_bind] at h
    cases hv : compile v c with
    | none => rw [hv] at h; simp at h
    | some c1 =>
      rw [hv] at h; simp at h; subst h
      exact ctxOK_emitI _ _ (ctxOK_createSymbolConst _
        (ctxOK_emitI _ _ (ih c c1 hok hv) (by simp [instrOK]))) (by simp [instrOK])
  | hif cnd b ihc ihb =>
    intro c c' hok h
    simp only [compile, Option.bind_eq_bind] at h
    cases hc : compile cnd c with
    | none => rw [hc] at h; simp at h
    | some c1 =>
      rw [hc] at h; simp at h
      cases hb : compile b (emitI c1 .JUMP_IF_FALSE [0]) with
      | none => rw [hb] at h; simp at h
      | some c3 =>
        rw [hb] at h; simp at h; subst h
        have o3 : ctxOK c3 = true :=
          ihb _ _ (ctxOK_emitI _ _ (ihc c c1 hok hc) (by simp [instrOK])) hb
        exact ctxOK_patchJump _ (ctxOK_emitI _ _ (ctxOK_createConst _
          (ctxOK_patchJump _ (ctxOK_emitI _ _ o3 (by simp [instrOK])))
          (by simp [constOK])) (by simp [instrOK]))
  | hwhile cnd b ihc ihb =>
    intro c c' hok h
    simp only [compile, Option.bind_eq_bind] at h
    cases hc : compile cnd c with
    | none => rw [hc] at h; simp at h
    | some c1 =>
      rw [hc] at h; simp at h
      cases hb : compile b (emitI c1 .JUMP_IF_FALSE [0]) with
      | none => rw [hb] at h; simp at h
      | some c3 =>
        rw [hb] at h; simp at h; subst h
        have o3 : ctxOK c3 = true :=
          ihb _ _ (ctxOK_emitI _ _ (ihc c c1 hok hc) (by simp [instrOK])) hb
        exact ctxOK_emitI _ _ (ctxOK_createConst _ (ctxOK_patchJump _
          (ctxOK_emitI _ _ (ctxOK_emitI _ _ o3 (by simp [instrOK])) (by simp [instrOK])))
          (by simp [constOK])) (by simp [instrOK])
  | hclass nm sc b ih =>
    intro c c' hok h
    simp only [compile, Option.bind_eq_bind] at h
    cases hb : compile b emptyCtx with
    | none => rw [hb] at h; simp at h
    | some b1 =>
      rw [hb] at h; simp at h; subst h
      have ob : ctxOK b1 = true := ih emptyCtx b1 (by simp [ctxOK, emptyCtx, constsOK]) hb
      have ob5 : ctxOK (emitI (createConst (emitI b1 .DISCARD_TOP []) .wNil).1
          .LOAD_CONST [(createConst (emitI b1 .DISCARD_TOP []) .wNil).2]) = true :=
        ctxOK_emitI _ _ (ctxOK_createConst _ (ctxOK_emitI _ _ ob (by simp [instrOK]))
          (by simp [constOK])) (by simp [instrOK])
      have ob6 := ctxOK_emitI .RETURN [] ob5 (by simp [instrOK])
      have hcode : constOK (createBytecode (emitI (emitI (createConst
          (emitI b1 .DISCARD_TOP []) .wNil).1
          .LOAD_CONST [(createConst (emitI b1 .DISCARD_TOP []) .wNil).2]) .RETURN [])) = true := by
        simp only [ctxOK, Bool.and_eq_true] at ob6
        simp [createBytecode, constOK, ob6.1, ob6.2]
      exact ctxOK_emitI _ _ (ctxOK_emitI _ _ (ctxOK_createConst _
        (ctxOK_emitI _ _ (ctxOK_createConst _ (ctxOK_emitI _ _
          (ctxOK_createSymbolConst _ (ctxOK_emitI _ _ hok (by simp [instrOK])))
          (by simp [instrOK])) (by simp [constOK])) (by simp [instrOK])) hcode)
        (by simp [instrOK])) (by simp [instrOK])
  | hfunction nm as b ih =>
    intro c c' hok h
    simp only [compile, Option.bind_eq_bind] at h
    cases hb : compile b (declareLocals as emptyCtx) with
    | none => rw [hb] at h; simp at h
    | some b1 =>
      rw [hb] at h; simp at h; subst h
      have ob : ctxOK b1 = true :=
        ih _ b1 (ctxOK_declareLocals as (by simp [ctxOK, emptyCtx, constsOK])) hb
      have ob2 := ctxOK_emitI .RETURN [] ob (by simp [instrOK])
      have hcode : constOK (createBytecode (emitI b1 .RETURN [])) = true := by
        simp only [ctxOK, Bool.and_eq_true] at ob2
        simp [createBytecode, constOK, ob2.1, ob2.2]
      exact ctxOK_emitI _ _ (ctxOK_emitI _ _ (ctxOK_createConst _
        (ctxOK_emitI _ _ (ctxOK_createSymbolConst _
          (ctxOK_emitI _ _ hok (by simp [instrOK]))) (by simp [instrOK])) hcode)
        (by simp [instrOK])) (by simp [instrOK])
  | hret e ih =>
    intro c c' hok h
    simp only [compile, Option.bind_eq_bind] at h
    cases he : compile e c with
    | none => rw [he] at h; simp at h
    | some c1 =>
      rw [he] at h; simp at h; subst h
      exact ctxOK_emitI _ _ (ih c c1 hok he) (by simp [instrOK])
  | hbinop o l r ihl ihr =>
    intro c c' hok h
    simp only [compile, Option.bind_eq_bind] at h
    cases hl : compile l c with
    | none => rw [hl] at h; simp at h
    | some c1 =>
      rw [hl] at h; simp at h
      cases hr : compile r c1 with
      | none => rw [hr] at h; simp at h
      | some c2 =>
        rw [hr] at h; simp at h; subst h
        exact ctxOK_emitI _ _ (ctxOK_createSymbolConst _ (ihr c1 c2 (ihl c c1 hok hl) hr))
          (by simp [instrOK])
  | hsend r m as ihr iha =>
    intro c c' hok h
    simp only [compile, Option.bind_eq_bind] at h
    cases hr : compile r c with
    | none => rw [hr] at h; simp at h
    | some c1 =>
      rw [hr] at h; simp at h
      cases ha : compileRev as c1 with
      | none => rw [ha] at h; simp at h
      | some c2 =>
        rw [ha] at h; simp at h; subst h
        exact ctxOK_emitI _ _ (ctxOK_createSymbolConst _
          (compileRev_ctxOK as iha c1 c2 (ihr c c1 hok hr) ha)) (by simp [instrOK])
  | hself =>
    intro c c' hok h
    simp only [compile, Option.some.injEq] at h; subst h
    exact ctxOK_emitI _ _ hok (by simp [instrOK])
  | hvariable nm =>
    intro c c' hok h
    simp only [compile] at h
    by_cases h1 : nm = "true"
    · simp only [h1, if_true] at h; simp at h; subst h
      exact ctxOK_emitI _ _ (ctxOK_createConst _ hok (by simp [constOK])) (by simp [instrOK])
    · rw [if_neg h1] at h
      by_cases h2 : nm = "false"
      · simp only [h2, if_true] at h; simp at h; subst h
        exact ctxOK_emitI _ _ (ctxOK_createConst _ hok (by simp [constOK])) (by simp [instrOK])
      · rw [if_neg h2] at h
        by_cases h3 : nm = "nil"
        · simp only [h3, if_true] at h; simp at h; subst h
          exact ctxOK_emitI _ _ (ctxOK_createConst _ hok (by simp [constOK])) (by simp [instrOK])
        · rw [if_neg h3] at h
          by_cases h4 : nm = "self"
          · simp only [h4, if_true] at h; simp at h; subst h
            exact ctxOK_emitI _ _ hok (by simp [instrOK])
          · rw [if_neg h4] at h
            by_cases h5 : localDefined c nm
            · simp only [h5, if_true] at h; simp at h; subst h
              exact ctxOK_emitI _ _ (ctxOK_createLocal _ hok) (by simp [instrOK])
            · rw [if_neg (by simpa using h5)] at h
              cases hd : nm.data with
              | nil => rw [hd] at h; simp at h
              | cons ch rest =>
                rw [hd] at h
                by_cases hu : ch.isUpper
                · simp only [hu, if_true] at h; simp at h; subst h
                  exact ctxOK_emitI _ _ (ctxOK_createSymbolConst _ hok) (by simp [instrOK])
                · simp only [hu, if_false] at h; simp at h; subst h
                  exact ctxOK_emitI _ _ (ctxOK_createSymbolConst _
                    (ctxOK_emitI _ _ hok (by simp [instrOK]))) (by simp [instrOK])
  | hivar nm =>
    intro c c' hok h
    simp only [compile] at h; simp at h; subst h
    exact ctxOK_emitI _ _ (ctxOK_createSymbolConst _
      (ctxOK_emitI _ _ hok (by simp [instrOK]))) (by simp [instrOK])
  | harray items ih =>
    intro c c' hok h
    simp only [compile, Option.bind_eq_bind] at h
    cases hi : compileList items c with
    | none => rw [hi] at h; simp at h
    | some c1 =>
      rw [hi] at h; simp at h; subst h
      exact ctxOK_emitI _ _ (compileList_ctxOK items ih c c1 hok hi) (by simp [instrOK])
  | hint n =>
    intro c c' hok h
    simp only [compile] at h; simp at h; subst h
    exact ctxOK_emitI _ _ (ctxOK_createConst _ hok (by simp [constOK])) (by simp [instrOK])
  | hstr s =>
    intro c c' hok h
    simp only [compile] at h; simp at h; subst h
    exact ctxOK_emitI _ _ (ctxOK_emitI _ _ (ctxOK_createConst _ hok (by simp [constOK]))
      (by simp [instrOK])) (by simp [instrOK])


/-- Claim C2, as stated, is false on the code: compiling
`Send(Self(), "f", [])` performs `ctx.emit(SEND, create_symbol_const("f"), len(args))`,
an emit call with two operands. -/
theorem send_two_operand_counterexample :
    compile (.send .self "f" []) emptyCtx =
      some ⟨[⟨.LOAD_SELF, []⟩, ⟨.SEND, [0, 0]⟩], [], ["f"], []⟩ ∧
    ¬ (∀ n c c', compile n c = some c' → ∀ i ∈ c'.instrs, i.args.length ≤ 1) := by
  refine ⟨rfl, fun hcl => ?_⟩
  have := hcl (.send .self "f" []) emptyCtx
    ⟨[⟨.LOAD_SELF, []⟩, ⟨.SEND, [0, 0]⟩], [], ["f"], []⟩ rfl ⟨.SEND, [0, 0]⟩ (by simp)
  simp at this

/-- Claim C2 (amended): every instruction the compiler emits — including
instructions inside nested bytecode constants, which `ctxOK` covers —
carries at most two operands, and an instruction carrying two operands is
always the SEND dispatch; every other opcode is emitted with at most one
operand. -/
theorem compile_operand_bound (n : Node) (c c' : Ctx)
    (hok : ctxOK c = true) (h : compile n c = some c') :
    ctxOK c' = true ∧
      ∀ i ∈ c'.instrs, i.args.length ≤ 2 ∧ (i.args.length = 2 → i.op = .SEND) := by
  have hc := compile_ctxOK n c c' hok h
  refine ⟨hc, fun i hi => ?_⟩
  have hik : instrOK i = true := by
    unfold ctxOK at hc
    simp only [Bool.and_eq_true, List.all_eq_true] at hc
    exact hc.1 i hi
  unfold instrOK at hik
  simp only [Bool.and_eq_true, Bool.or_eq_true, decide_eq_true_eq, beq_iff_eq] at hik
  refine ⟨hik.1, fun h2 => ?_⟩
  rcases hik.2 with h1 | hs
  · omega
  · exact hs

/-- Witness for `compile_operand_bound` at `Send(Self(), "f", [])` from an
empty context. -/
theorem compile_operand_bound_witness :
    ctxOK emptyCtx = true ∧
      (ctxOK ⟨[⟨.LOAD_SELF, []⟩, ⟨.SEND, [0, 0]⟩], [], ["f"], []⟩ = true ∧
        ∀ i ∈ (⟨[⟨.LOAD_SELF, []⟩, ⟨.SEND, [0, 0]⟩], [], ["f"], []⟩ : Ctx).instrs,
          i.args.length ≤ 2 ∧ (i.args.length = 2 → i.op = .SEND)) :=
  ⟨rfl, compile_operand_bound (.send .self "f" []) emptyCtx
    ⟨[⟨.LOAD_SELF, []⟩, ⟨.SEND, [0, 0]⟩], [], ["f"], []⟩ rfl rfl⟩

/-! ## Totality of `compile` (claim C8)

The only partial operations in `ast.py`'s compile methods are
`self.target[0]` in `Assignment.compile` and `self.name[0]` in
`Variable.compile`. `okNames` demands exactly the names those two places
index to be non-empty. -/

mutual

/-- Every `Variable` name and every `Assignment` target in the tree is
non-empty (the two fields whose first character `compile` indexes). -/
def okNames : Node → Bool
  | .main b => okNames b
  | .block stmts => okNamesList stmts
  | .statement e _ => okNames e
  | .assignment t v => (t != "") && okNames v
  | .instanceVariableAssignment _ v => okNames v
  | .ifNode c b => okNames c && okNames b
  | .whileNode c b => okNames c && okNames b
  | .classNode _ _ b => okNames b
  | .function _ _ b => okNames b
  | .ret e => okNames e
  | .binOp _ l r => okNames l && okNames r
  | .send r _ args => okNames r && okNamesList args
  | .self => true
  | .variable nm => nm != ""
  | .instanceVariable _ => true
  | .array items => okNamesList items
  | .constantInt _ => true
  | .constantString _ => true

def okNamesList : List Node → Bool
  | [] => true
  | a :: rest => okNames a && okNamesList rest

end

theorem data_ne_nil_of_ne_empty {s : String} (h : s ≠ "") : s.data ≠ [] := by
  intro hd
  apply h
  cases s with
  | mk l =>
    simp at hd
    subst hd
    rfl

theorem compileList_total (l : List Node)
    (IH : ∀ s ∈ l, ∀ c : Ctx, okNames s = true → (compile s c).isSome = true) :
    ∀ c : Ctx, okNamesList l = true → (compileList l c).isSome = true := by
  induction l with
  | nil => intro c _; simp [compileList]
  | cons a t ih =>
    intro c hok
    simp only [okNamesList, Bool.and_eq_true] at hok
    have ha := IH a (by simp) c hok.1
    obtain ⟨c1, hc1⟩ := Option.isSome_iff_exists.mp ha
    simp only [compileList, Option.bind_eq_bind, hc1, Option.some_bind]
    exact ih (fun s hs => IH s (by simp [hs])) c1 hok.2

theorem compileRev_total (l : List Node)
    (IH : ∀ s ∈ l, ∀ c : Ctx, okNames s = true → (compile s c).isSome = true) :
    ∀ c : Ctx, okNamesList l = true → (compileRev l c).isSome = true := by
  induction l with
  | nil => intro c _; simp [compileRev]
  | cons a t ih =>
    intro c hok
    simp only [okNamesList, Bool.and_eq_true] at hok
    have ht := ih (fun s hs => IH s (by simp [hs])) c hok.2
    obtain ⟨c1, hc1⟩ := Option.isSome_iff_exists.mp ht
    simp only [compileRev, Option.bind_eq_bind, hc1, Option.some_bind]
    exact IH a (by simp) c1 hok.1

theorem compile_total :
    ∀ n, ∀ c : Ctx, okNames n = true → (compile n c).isSome = true := by
  intro n
  induction n using Node.inductionOn with
  | hmain b ih =>
    intro c hok
    obtain ⟨c1, h1⟩ := Option.isSome_iff_exists.mp (ih c (by simpa [okNames] using hok))
    simp [compile, h1]
  | hblock stmts ih =>
    intro c hok
    exact compileList_total stmts ih c (by simpa [okNames] using hok)
  | hstatement e d ih =>
    intro c hok
    obtain ⟨c1, h1⟩ := Option.isSome_iff_exists.mp (ih c (by simpa [okNames] using hok))
    cases d <;> simp [compile, h1]
  | hassignment t v ih =>
    intro c hok
    simp only [okNames, Bool.and_eq_true, bne_iff_ne, ne_eq] at hok
    cases hd : t.data with
    | nil => exact absurd hd (data_ne_nil_of_ne_empty hok.1)
    | cons ch rest =>
      by_cases hu : ch.isUpper
      · obtain ⟨c1, h1⟩ := Option.isSome_iff_exists.mp (ih c hok.2)
        simp [compile, hd, hu, h1]
      · obtain ⟨c1, h1⟩ := Option.isSome_iff_exists.mp (ih (createLocal c t).1 hok.2)
        simp [compile, hd, hu, h1]
  | hivasgn nm v ih =>
    intro c hok
    obtain ⟨c1, h1⟩ := Option.isSome_iff_exists.mp (ih c (by simpa [okNames] using hok))
    simp [compile, h1]
  | hif cnd b ihc ihb =>
    intro c hok
    simp only [okNames, Bool.and_eq_true] at hok
    obtain ⟨c1, h1⟩ := Option.isSome_iff_exists.mp (ihc c hok.1)
    obtain ⟨c3, h3⟩ := Option.isSome_iff_exists.mp (ihb (emitI c1 .JUMP_IF_FALSE [0]) hok.2)
    simp [compile, h1, h3]
  | hwhile cnd b ihc ihb =>
    intro c hok
    simp only [okNames, Bool.and_eq_true] at hok
    obtain ⟨c1, h1⟩ := Option.isSome_iff_exists.mp (ihc c hok.1)
    obtain ⟨c3, h3⟩ := Option.isSome_iff_exists.mp (ihb (emitI c1 .JUMP_IF_FALSE [0]) hok.2)
    simp [compile, h1, h3]
  | hclass nm sc b ih =>
    intro c hok
    obtain ⟨b1, h1⟩ := Option.isSome_iff_exists.mp (ih emptyCtx (by simpa [okNames] using hok))
    simp [compile, h1]
  | hfunction nm as b ih =>
    intro c hok
    obtain ⟨b1, h1⟩ := Option.isSome_iff_exists.mp
      (ih (declareLocals as emptyCtx) (by simpa [okNames] using hok))
    simp [compile, h1]
  | hret e ih =>
    intro c hok
    obtain ⟨c1, h1⟩ := Option.isSome_iff_exists.mp (ih c (by simpa [okNames] using hok))
    simp [compile, h1]
  | hbinop o l r ihl ihr =>
    intro c hok
    simp only [okNames, Bool.and_eq_true] at hok
    obtain ⟨c1, h1⟩ := Option.isSome_iff_exists.mp (ihl c hok.1)
    obtain ⟨c2, h2⟩ := Option.isSome_iff_exists.mp (ihr c1 hok.2)
    simp [compile, h1, h2]
  | hsend r m as ihr iha =>
    intro c hok
    simp only [okNames, Bool.and_eq_true] at hok
    obtain ⟨c1, h1⟩ := Option.isSome_iff_exists.mp (ihr c hok.1)
    obtain ⟨c2, h2⟩ := Option.isSome_iff_exists.mp (compileRev_total as iha c1 hok.2)
    simp [compile, h1, h2]
  | hself => intro c _; simp [compile]
  | hvariable nm =>
    intro c hok
    simp only [okNames, bne_iff_ne, ne_eq] at hok
    by_cases h1 : nm = "true"
    · simp [compile, h1]
    · by_cases h2 : nm = "false"
      · simp [compile, h1, h2]
      · by_cases h3 : nm = "nil"
        · simp [compile, h1, h2, h3]
        · by_cases h4 : nm = "self"
          · simp [compile, h1, h2, h3, h4]
          · by_cases h5 : localDefined c nm
            · simp [compile, h1, h2, h3, h4, h5]
            · cases hd : nm.data with
              | nil => exact absurd hd (data_ne_nil_of_ne_empty hok)
              | cons ch rest =>
                by_cases hu : ch.isUpper <;>
                  simp [compile, h1, h2, h3, h4, h5, hd, hu]
  | hivar nm => intro c _; simp [compile]
  | harray items ih =>
    intro c hok
    obtain ⟨c1, h1⟩ := Option.isSome_iff_exists.mp
      (compileList_total items ih c (by simpa [okNames] using hok))
    simp [compile, h1]
  | hint n => intro c _; simp [compile]
  | hstr s => intro c _; simp [compile]

/-- Claim C8: `compile` is total exactly up to empty names. A `Variable`
whose name is the empty string and is not a defined local indexes the
first character of an empty string and fails; an `Assignment` whose target
is the empty string always fails (the target's first character is tested
before anything is compiled); and when every `Variable` name and
`Assignment` target in the tree is non-empty, compilation always
succeeds. -/
theorem compile_empty_name_totality :
    (∀ c : Ctx, c.locals.contains "" = false → compile (.variable "") c = none) ∧
    (∀ (v : Node) (c : Ctx), compile (.assignment "" v) c = none) ∧
    (∀ (n : Node) (c : Ctx), okNames n = true → (compile n c).isSome = true) := by
  refine ⟨fun c h => ?_, fun v c => ?_, fun n c h => compile_total n c h⟩
  · have h' : "" ∉ c.locals := by simpa using h
    simp [compile, localDefined, h']
  · rfl

/-- Witness for `compile_empty_name_totality`: the failing inputs fail and
a well-named tree compiles. -/
theorem compile_empty_name_totality_witness :
    compile (.variable "") emptyCtx = none ∧
      compile (.assignment "" (.constantInt 1)) emptyCtx = none ∧
      (compile (.variable "x") emptyCtx).isSome = true :=
  ⟨compile_empty_name_totality.1 emptyCtx rfl,
    compile_empty_name_totality.2.1 (.constantInt 1) emptyCtx,
    compile_empty_name_totality.2.2 (.variable "x") emptyCtx rfl⟩


/-! ## Shapes of the emitted instruction sequences

These lemmas compute, for the control-flow and definition nodes, the exact
instruction sequence `compile` appends, with patched jump operands made
explicit. -/

theorem patchJump_append (c : Ctx) (pre : List Instr) (i : Instr) (post : List Instr)
    (h : c.instrs = pre ++ i :: post) :
    patchJump c pre.length =
      { c with instrs := pre ++ ⟨i.op, [c.instrs.length]⟩ :: post } := by
  unfold patchJump
  have hget : c.instrs.getD pre.length default = i := by
    rw [h, getD_append_ge _ _ _ _ (Nat.le_refl _)]
    simp
  have hset : c.instrs.set pre.length ⟨i.op, [c.instrs.length]⟩ =
      pre ++ ⟨i.op, [c.instrs.length]⟩ :: post := by
    rw [h, set_append_ge _ _ _ _ (Nat.le_refl _)]
    simp
  rw [hget, hset]

theorem getD_findIdx_of_mem : ∀ (l : List String) {s : String}, s ∈ l →
    ∀ d, l.getD (l.findIdx (fun x => x == s)) d = s := by
  intro l
  induction l with
  | nil => intro s h d; simp at h
  | cons a t ih =>
    intro s h d
    by_cases ha : a == s
    · simp [List.findIdx_cons, ha, eq_of_beq ha]
    · have hst : s ∈ t := by
        rcases List.mem_cons.mp h with he | he
        · exact absurd (by simp [he]) ha
        · exact he
      simp only [List.findIdx_cons, ha, cond_false]
      simpa using ih hst d

/-- `create_symbol_const` leaves everything but the symbol pool alone and
returns an index that resolves to the interned name. -/
theorem createSymbolConst_spec (c : Ctx) (s : String) :
    (createSymbolConst c s).1.symbols.getD (createSymbolConst c s).2 "" = s ∧
    (createSymbolConst c s).1.instrs = c.instrs ∧
    (createSymbolConst c s).1.consts = c.consts ∧
    (createSymbolConst c s).1.locals = c.locals := by
  unfold createSymbolConst
  by_cases h : c.symbols.contains s
  · rw [if_pos h]
    exact ⟨getD_findIdx_of_mem _ (by simpa using h) "", rfl, rfl, rfl⟩
  · rw [if_neg h]
    refine ⟨?_, rfl, rfl, rfl⟩
    rw [getD_append_ge _ _ _ _ (Nat.le_refl _)]
    simp

/-- The exact sequence `If.compile` appends: condition, a
`JUMP_IF_FALSE` patched to the position of the nil load, body, a `JUMP`
patched to the position after the nil load, and the nil load itself. -/
theorem if_shape (cnd b : Node) (ctx ctx' : Ctx)
    (h : compile (.ifNode cnd b) ctx = some ctx') :
    ∃ c1 c3 Ic Ib,
      compile cnd ctx = some c1 ∧ c1.instrs = ctx.instrs ++ Ic ∧
      compile b (emitI c1 .JUMP_IF_FALSE [0]) = some c3 ∧
      c3.instrs = ctx.instrs ++ Ic ++ [⟨.JUMP_IF_FALSE, [0]⟩] ++ Ib ∧
      ctx'.instrs = ctx.instrs ++ Ic
        ++ [⟨.JUMP_IF_FALSE, [ctx.instrs.length + Ic.length + Ib.length + 2]⟩]
        ++ Ib ++ [⟨.JUMP, [ctx.instrs.length + Ic.length + Ib.length + 3]⟩,
                  ⟨.LOAD_CONST, [c3.consts.length]⟩] ∧
      ctx'.consts = c3.consts ++ [.wNil] ∧
      ctx'.symbols = c3.symbols ∧ ctx'.locals = c3.locals := by
  simp only [compile, Option.bind_eq_bind] at h
  cases hc : compile cnd ctx with
  | none => rw [hc] at h; simp at h
  | some c1 =>
    rw [hc] at h; simp only [Option.some_bind] at h
    cases hb : compile b (emitI c1 .JUMP_IF_FALSE [0]) with
    | none => rw [hb] at h; simp at h
    | some c3 =>
      rw [hb] at h; simp only [Option.some_bind, Option.some_inj] at h
      obtain ⟨Ic, hIc⟩ := (compile_extends cnd ctx c1 hc).1
      obtain ⟨Ib, hIb0⟩ := (compile_extends b _ c3 hb).1
      have hIb : c3.instrs = ctx.instrs ++ Ic ++ [⟨.JUMP_IF_FALSE, [0]⟩] ++ Ib := by
        rw [hIb0]
        simp [emitI, hIc]
      refine ⟨c1, c3, Ic, Ib, rfl, hIc, hb, hIb, ?_⟩
      have h4 : (emitI c3 .JUMP [0]).instrs =
          (ctx.instrs ++ Ic) ++ ⟨.JUMP_IF_FALSE, [0]⟩ :: (Ib ++ [⟨.JUMP, [0]⟩]) := by
        simp [emitI, hIb]
      have hpos1 : getPos c1 = (ctx.instrs ++ Ic).length := by
        simp [getPos, hIc]
      have hlen4 : (emitI c3 .JUMP [0]).instrs.length =
          ctx.instrs.length + Ic.length + Ib.length + 2 := by
        rw [h4]; simp; try omega
      have h5 : patchJump (emitI c3 .JUMP [0]) (getPos c1) =
          { emitI c3 .JUMP [0] with instrs := (ctx.instrs ++ Ic)
              ++ ⟨.JUMP_IF_FALSE, [ctx.instrs.length + Ic.length + Ib.length + 2]⟩
                :: (Ib ++ [⟨.JUMP, [0]⟩]) } := by
        rw [hpos1, patchJump_append _ _ _ _ h4, hlen4]
      rw [h5] at h
      have h6 : (createConst { emitI c3 .JUMP [0] with instrs := (ctx.instrs ++ Ic)
          ++ ⟨.JUMP_IF_FALSE, [ctx.instrs.length + Ic.length + Ib.length + 2]⟩
            :: (Ib ++ [⟨.JUMP, [0]⟩]) } Const.wNil).2 = c3.consts.length := by
        simp [createConst, emitI]
      rw [h6] at h
      set p := ctx.instrs.length + Ic.length + Ib.length + 2 with hp
      have h7 : (emitI (createConst { emitI c3 .JUMP [0] with instrs := (ctx.instrs ++ Ic)
          ++ ⟨.JUMP_IF_FALSE, [p]⟩ :: (Ib ++ [⟨.JUMP, [0]⟩]) } Const.wNil).1
            .LOAD_CONST [c3.consts.length]).instrs =
          ((ctx.instrs ++ Ic) ++ ⟨.JUMP_IF_FALSE, [p]⟩ :: Ib)
            ++ ⟨.JUMP, [0]⟩ :: [⟨.LOAD_CONST, [c3.consts.length]⟩] := by
        simp [emitI, createConst]
      have hpos3 : getPos c3 =
          ((ctx.instrs ++ Ic) ++ ⟨.JUMP_IF_FALSE, [p]⟩ :: Ib).length := by
        simp [getPos, hIb]; try omega
      have hlen7 : (emitI (createConst { emitI c3 .JUMP [0] with instrs := (ctx.instrs ++ Ic)
          ++ ⟨.JUMP_IF_FALSE, [p]⟩ :: (Ib ++ [⟨.JUMP, [0]⟩]) } Const.wNil).1
            .LOAD_CONST [c3.consts.length]).instrs.length =
          ctx.instrs.length + Ic.length + Ib.length + 3 := by
        rw [h7]; simp; try omega
      rw [hpos3, patchJump_append _ _ _ _ h7, hlen7] at h
      rw [← h]
      refine ⟨?_, ?_, ?_, ?_⟩
      · simp [createConst, emitI]
      · simp [createConst, emitI]
      · simp [createConst, emitI]
      · simp [createConst, emitI]

/-- The exact sequence `While.compile` appends: condition at the start
position, a `JUMP_IF_FALSE` patched to the loop-exit (the nil load), body,
a `DISCARD_TOP` of the body value, an unconditional `JUMP` back to the
start position, and the nil load. -/
theorem while_shape (cnd b : Node) (ctx ctx' : Ctx)
    (h : compile (.whileNode cnd b) ctx = some ctx') :
    ∃ c1 c3 Ic Ib,
      compile cnd ctx = some c1 ∧ c1.instrs = ctx.instrs ++ Ic ∧
      compile b (emitI c1 .JUMP_IF_FALSE [0]) = some c3 ∧
      c3.instrs = ctx.instrs ++ Ic ++ [⟨.JUMP_IF_FALSE, [0]⟩] ++ Ib ∧
      ctx'.instrs = ctx.instrs ++ Ic
        ++ [⟨.JUMP_IF_FALSE, [ctx.instrs.length + Ic.length + Ib.length + 3]⟩]
        ++ Ib ++ [⟨.DISCARD_TOP, []⟩, ⟨.JUMP, [ctx.instrs.length]⟩,
                  ⟨.LOAD_CONST, [c3.consts.length]⟩] ∧
      ctx'.consts = c3.consts ++ [.wNil] ∧
      ctx'.symbols = c3.symbols ∧ ctx'.locals = c3.locals := by
  simp only [compile, Option.bind_eq_bind] at h
  cases hc : compile cnd ctx with
  | none => rw [hc] at h; simp at h
  | some c1 =>
    rw [hc] at h; simp only [Option.some_bind] at h
    cases hb : compile b (emitI c1 .JUMP_IF_FALSE [0]) with
    | none => rw [hb] at h; simp at h
    | some c3 =>
      rw [hb] at h; simp only [Option.some_bind, Option.some_inj] at h
      obtain ⟨Ic, hIc⟩ := (compile_extends cnd ctx c1 hc).1
      obtain ⟨Ib, hIb0⟩ := (compile_extends b _ c3 hb).1
      have hIb : c3.instrs = ctx.instrs ++ Ic ++ [⟨.JUMP_IF_FALSE, [0]⟩] ++ Ib := by
        rw [hIb0]
        simp [emitI, hIc]
      refine ⟨c1, c3, Ic, Ib, rfl, hIc, hb, hIb, ?_⟩
      have h5 : (emitI (emitI c3 .DISCARD_TOP []) .JUMP [getPos ctx]).instrs =
          (ctx.instrs ++ Ic) ++ ⟨.JUMP_IF_FALSE, [0]⟩
            :: (Ib ++ [⟨.DISCARD_TOP, []⟩, ⟨.JUMP, [ctx.instrs.length]⟩]) := by
        simp [emitI, hIb, getPos]
      have hpos1 : getPos c1 = (ctx.instrs ++ Ic).length := by
        simp [getPos, hIc]
      have hlen5 : (emitI (emitI c3 .DISCARD_TOP []) .JUMP [getPos ctx]).instrs.length =
          ctx.instrs.length + Ic.length + Ib.length + 3 := by
        rw [h5]; simp; try omega
      have h6 : patchJump (emitI (emitI c3 .DISCARD_TOP []) .JUMP [getPos ctx]) (getPos c1) =
          { emitI (emitI c3 .DISCARD_TOP []) .JUMP [getPos ctx] with
              instrs := (ctx.instrs ++ Ic)
                ++ ⟨.JUMP_IF_FALSE, [ctx.instrs.length + Ic.length + Ib.length + 3]⟩
                  :: (Ib ++ [⟨.DISCARD_TOP, []⟩, ⟨.JUMP, [ctx.instrs.length]⟩]) } := by
        rw [hpos1, patchJump_append _ _ _ _ h5, hlen5]
      rw [h6] at h
      rw [← h]
      refine ⟨?_, ?_, ?_, ?_⟩
      · simp [createConst, emitI]
      · simp [createConst, emitI]
      · simp [createConst, emitI]
      · simp [createConst, emitI]

/-- `compileRev` decomposition: the emitted instructions are the
arguments' instruction blocks concatenated in reverse declared order, and
argument `j` is compiled in the state reached after compiling all
arguments with larger indices. -/
theorem compileRev_decomp : ∀ (args : List Node) (c0 c1 : Ctx),
    compileRev args c0 = some c1 →
    ∃ tails : List (List Instr), tails.length = args.length ∧
      c1.instrs = c0.instrs ++ tails.reverse.flatten ∧
      ∀ j (hj : j < args.length), ∃ cA cB,
        compileRev (args.drop (j + 1)) c0 = some cA ∧
        compile (args.get ⟨j, hj⟩) cA = some cB ∧
        compileRev (args.drop j) c0 = some cB ∧
        cB.instrs = cA.instrs ++ tails.getD j [] := by
  intro args
  induction args with
  | nil =>
    intro c0 c1 h
    simp [compileRev] at h; subst h
    exact ⟨[], rfl, by simp, fun j hj => absurd hj (by simp)⟩
  | cons a t ih =>
    intro c0 c1 h
    simp only [compileRev, Option.bind_eq_bind] at h
    cases ht : compileRev t c0 with
    | none => rw [ht] at h; simp at h
    | some cA =>
      rw [ht] at h; simp only [Option.some_bind] at h
      obtain ⟨tails, hlen, hinstr, hrec⟩ := ih c0 cA ht
      obtain ⟨ta, hta⟩ := (compile_extends a cA c1 h).1
      refine ⟨ta :: tails, by simp [hlen], ?_, ?_⟩
      · rw [hta, hinstr]
        simp [List.reverse_cons]
      · intro j hj
        cases j with
        | zero =>
          refine ⟨cA, c1, by simpa using ht, by simpa using h, ?_, by simpa using hta⟩
          simp only [List.drop_zero, compileRev, Option.bind_eq_bind, ht, Option.some_bind]
          exact h
        | succ k =>
          have hk : k < t.length := by simpa using hj
          obtain ⟨cA', cB', h1, h2, h3, h4⟩ := hrec k hk
          exact ⟨cA', cB', by simpa using h1, by simpa using h2, by simpa using h3,
            by simpa using h4⟩

/-- Claim C3: `Send.compile` emits exactly the receiver's instructions,
then each argument's instructions in reverse declared order (the last
argument first), then one SEND carrying the symbol index of the method
name and the argument count. -/
theorem send_compile_order (r : Node) (m : String) (args : List Node) (ctx ctx' : Ctx)
    (h : compile (.send r m args) ctx = some ctx') :
    ∃ c1 c2,
      compile r ctx = some c1 ∧
      (∃ Ir, c1.instrs = ctx.instrs ++ Ir) ∧
      compileRev args c1 = some c2 ∧
      ctx'.instrs = c2.instrs ++ [⟨.SEND, [(createSymbolConst c2 m).2, args.length]⟩] ∧
      ctx'.symbols.getD (createSymbolConst c2 m).2 "" = m ∧
      ctx'.consts = c2.consts ∧
      (∃ tails : List (List Instr), tails.length = args.length ∧
        c2.instrs = c1.instrs ++ tails.reverse.flatten ∧
        ∀ j (hj : j < args.length), ∃ cA cB,
          compileRev (args.drop (j + 1)) c1 = some cA ∧
          compile (args.get ⟨j, hj⟩) cA = some cB ∧
          compileRev (args.drop j) c1 = some cB ∧
          cB.instrs = cA.instrs ++ tails.getD j []) := by
  simp only [compile, Option.bind_eq_bind] at h
  cases hr : compile r ctx with
  | none => rw [hr] at h; simp at h
  | some c1 =>
    rw [hr] at h; simp only [Option.some_bind] at h
    cases ha : compileRev args c1 with
    | none => rw [ha] at h; simp at h
    | some c2 =>
      rw [ha] at h; simp only [Option.some_bind, Option.some_inj] at h
      obtain ⟨hsym, hinstr, hconsts, _⟩ := createSymbolConst_spec c2 m
      refine ⟨c1, c2, rfl, (compile_extends r ctx c1 hr).1, ha, ?_, ?_, ?_,
        compileRev_decomp args c1 c2 ha⟩
      · rw [← h]; simp [emitI, hinstr]
      · rw [← h]; simpa [emitI] using hsym
      · rw [← h]; simp [emitI, hconsts]

/-- Witness for `send_compile_order`: a two-argument send compiles its
second argument before its first (the constants are pooled in reverse
order). -/
theorem send_compile_order_witness :
    compile (.send .self "m" [.constantInt 1, .constantInt 2]) emptyCtx =
      some ⟨[⟨.LOAD_SELF, []⟩, ⟨.LOAD_CONST, [0]⟩, ⟨.LOAD_CONST, [1]⟩, ⟨.SEND, [0, 2]⟩],
        [.int 2, .int 1], ["m"], []⟩ ∧
    ∃ c1 c2 : Ctx, compile Node.self emptyCtx = some c1 ∧
      compileRev [Node.constantInt 1, Node.constantInt 2] c1 = some c2 ∧
      (⟨[⟨.LOAD_SELF, []⟩, ⟨.LOAD_CONST, [0]⟩, ⟨.LOAD_CONST, [1]⟩, ⟨.SEND, [0, 2]⟩],
        [.int 2, .int 1], ["m"], []⟩ : Ctx).instrs =
        c2.instrs ++ [⟨.SEND, [(createSymbolConst c2 "m").2, 2]⟩] := by
  obtain ⟨c1, c2, h1, _, h2, h3, _⟩ :=
    send_compile_order .self "m" [.constantInt 1, .constantInt 2] emptyCtx
      ⟨[⟨.LOAD_SELF, []⟩, ⟨.LOAD_CONST, [0]⟩, ⟨.LOAD_CONST, [1]⟩, ⟨.SEND, [0, 2]⟩],
        [.int 2, .int 1], ["m"], []⟩ rfl
  exact ⟨rfl, c1, c2, h1, h2, h3⟩

/-- Claim C4: `Variable.compile` resolves its name by the five-step
first-match-wins order: named singletons, `self`, defined local,
uppercase-initial constant, implicit zero-argument self-send. -/
theorem variable_resolution (name : String) (ctx : Ctx) :
    (name = "true" → compile (.variable name) ctx =
      some (emitI (createConst ctx .wTrue).1 .LOAD_CONST [(createConst ctx .wTrue).2])) ∧
    (name = "false" → compile (.variable name) ctx =
      some (emitI (createConst ctx .wFalse).1 .LOAD_CONST [(createConst ctx .wFalse).2])) ∧
    (name = "nil" → compile (.variable name) ctx =
      some (emitI (createConst ctx .wNil).1 .LOAD_CONST [(createConst ctx .wNil).2])) ∧
    (name = "self" → compile (.variable name) ctx = some (emitI ctx .LOAD_SELF [])) ∧
    (name ∉ (["true", "false", "nil", "self"] : List String) →
      localDefined ctx name = true →
      compile (.variable name) ctx =
        some (emitI (createLocal ctx name).1 .LOAD_LOCAL [(createLocal ctx name).2])) ∧
    (∀ ch rest, name ∉ (["true", "false", "nil", "self"] : List String) →
      localDefined ctx name = false → name.data = ch :: rest → ch.isUpper = true →
      compile (.variable name) ctx =
        some (emitI (createSymbolConst ctx name).1
          .LOAD_CONSTANT [(createSymbolConst ctx name).2])) ∧
    (∀ ch rest, name ∉ (["true", "false", "nil", "self"] : List String) →
      localDefined ctx name = false → name.data = ch :: rest → ch.isUpper = false →
      compile (.variable name) ctx = compile (.send .self name []) ctx) := by
  refine ⟨fun h => ?_, fun h => ?_, fun h => ?_, fun h => ?_,
    fun hmem hl => ?_, fun ch rest hmem hl hd hu => ?_, fun ch rest hmem hl hd hu => ?_⟩
  · subst h; simp [compile]
  · subst h; simp [compile]
  · subst h; simp [compile]
  · subst h; simp [compile]
  · simp only [List.mem_cons, List.mem_singleton, not_or] at hmem
    obtain ⟨h1, h2, h3, h4⟩ := hmem
    simp [compile, h1, h2, h3, h4, hl]
  · simp only [List.mem_cons, List.mem_singleton, not_or] at hmem
    obtain ⟨h1, h2, h3, h4⟩ := hmem
    simp [compile, h1, h2, h3, h4, hl, hd, hu]
  · simp only [List.mem_cons, List.mem_singleton, not_or] at hmem
    obtain ⟨h1, h2, h3, h4⟩ := hmem
    rw [send_unfold_variable]
    simp [compile, h1, h2, h3, h4, hl, hd, hu]

/-- Witness for `variable_resolution`: one concrete instance of each of
the five resolution steps. -/
theorem variable_resolution_witness :
    compile (.variable "true") emptyCtx =
      some (emitI (createConst emptyCtx .wTrue).1 .LOAD_CONST [(createConst emptyCtx .wTrue).2]) ∧
    compile (.variable "self") emptyCtx = some (emitI emptyCtx .LOAD_SELF []) ∧
    compile (.variable "x") ⟨[], [], [], ["x"]⟩ =
      some (emitI (createLocal ⟨[], [], [], ["x"]⟩ "x").1
        .LOAD_LOCAL [(createLocal ⟨[], [], [], ["x"]⟩ "x").2]) ∧
    compile (.variable "Konst") emptyCtx =
      some (emitI (createSymbolConst emptyCtx "Konst").1
        .LOAD_CONSTANT [(createSymbolConst emptyCtx "Konst").2]) ∧
    compile (.variable "foo") emptyCtx = compile (.send .self "foo" []) emptyCtx :=
  ⟨(variable_resolution "true" emptyCtx).1 rfl,
    (variable_resolution "self" emptyCtx).2.2.2.1 rfl,
    (variable_resolution "x" ⟨[], [], [], ["x"]⟩).2.2.2.2.1 (by decide) rfl,
    (variable_resolution "Konst" emptyCtx).2.2.2.2.2.1 'K' "onst".data (by decide) rfl rfl
      (by decide),
    (variable_resolution "foo" emptyCtx).2.2.2.2.2.2 'f' "oo".data (by decide) rfl rfl
      (by decide)⟩

/-! ## Function compilation and parameter slots (claim C5) -/

theorem createLocal_fresh (c : Ctx) (s : String) (h : s ∉ c.locals) :
    (createLocal c s).1.locals = c.locals ++ [s] ∧ (createLocal c s).2 = c.locals.length := by
  unfold createLocal
  rw [if_neg (by simpa using h)]
  exact ⟨rfl, rfl⟩

theorem declareLocals_cons (a : String) (t : List String) (c : Ctx) :
    declareLocals (a :: t) c = declareLocals t (createLocal c a).1 := rfl

/-- Declaring pairwise fresh, pairwise distinct names appends them in
order. -/
theorem declareLocals_locals : ∀ (args : List String) (c : Ctx),
    (∀ a ∈ args, a ∉ c.locals) → args.Nodup →
    (declareLocals args c).locals = c.locals ++ args := by
  intro args
  induction args with
  | nil => intro c _ _; simp [declareLocals]
  | cons a t ih =>
    intro c hfresh hnd
    have hloc : (createLocal c a).1.locals = c.locals ++ [a] :=
      (createLocal_fresh c a (hfresh a (by simp))).1
    have hrest : ∀ b ∈ t, b ∉ (createLocal c a).1.locals := by
      intro b hb
      rw [hloc]
      simp only [List.mem_append, List.mem_singleton, not_or]
      refine ⟨hfresh b (by simp [hb]), ?_⟩
      intro he
      exact (List.nodup_cons.mp hnd).1 (he ▸ hb)
    rw [declareLocals_cons, ih _ hrest (List.nodup_cons.mp hnd).2, hloc]
    simp

theorem findIdx_nodup_prefix : ∀ (l rest : List String) (i : Nat) (hi : i < l.length),
    l.Nodup → (l ++ rest).findIdx (fun x => x == l.get ⟨i, hi⟩) = i := by
  intro l
  induction l with
  | nil => intro rest i hi; simp at hi
  | cons a t ih =>
    intro rest i hi hnd
    cases i with
    | zero => simp [List.findIdx_cons]
    | succ k =>
      have hk : k < t.length := by simpa using hi
      have hx : (a :: t).get ⟨k + 1, hi⟩ = t.get ⟨k, hk⟩ := rfl
      have hne : (a == t.get ⟨k, hk⟩) = false := by
        have hmem : a ∉ t := (List.nodup_cons.mp hnd).1
        by_cases he : a = t.get ⟨k, hk⟩
        · exact absurd (he ▸ List.get_mem t k hk) hmem
        · simpa using he
      rw [hx]
      simp only [List.cons_append, List.findIdx_cons, hne, cond_false]
      rw [ih rest k hk (List.nodup_cons.mp hnd).2]

/-- In a context whose local table starts with the distinct names `args`,
`create_local` of the `i`-th of them resolves to slot `i`. -/
theorem createLocal_prefix_idx (args rest : List String) (c : Ctx) (i : Nat)
    (hi : i < args.length) (hnd : args.Nodup) (hloc : c.locals = args ++ rest) :
    (createLocal c (args.get ⟨i, hi⟩)).2 = i := by
  unfold createLocal
  have hmem : args.get ⟨i, hi⟩ ∈ c.locals := by
    rw [hloc]
    exact List.mem_append_left _ (List.get_mem args i hi)
  rw [if_pos (by simpa using hmem), hloc]
  exact findIdx_nodup_prefix args rest i hi hnd

theorem emitI_instrs (c : Ctx) (op : Op) (a : List Nat) :
    (emitI c op a).instrs = c.instrs ++ [⟨op, a⟩] := rfl

theorem emitI_consts (c : Ctx) (op : Op) (a : List Nat) :
    (emitI c op a).consts = c.consts := rfl

theorem emitI_symbols (c : Ctx) (op : Op) (a : List Nat) :
    (emitI c op a).symbols = c.symbols := rfl

theorem emitI_locals (c : Ctx) (op : Op) (a : List Nat) :
    (emitI c op a).locals = c.locals := rfl

theorem createConst_fst_instrs (c : Ctx) (v : Const) :
    (createConst c v).1.instrs = c.instrs := rfl

theorem createConst_fst_consts (c : Ctx) (v : Const) :
    (createConst c v).1.consts = c.consts ++ [v] := rfl

theorem createConst_fst_symbols (c : Ctx) (v : Const) :
    (createConst c v).1.symbols = c.symbols := rfl

theorem createConst_snd (c : Ctx) (v : Const) :
    (createConst c v).2 = c.consts.length := rfl

/-- Claim C5 (amended): `Function.compile` builds a fresh nested context,
declares one local slot per parameter by first occurrence before compiling
the body — so that with pairwise distinct parameter names `p₁ … pN`, `pᵢ`
occupies slot `i − 1` and later body locals get slots `≥ N` — always
appends a `RETURN` to the nested unit (even for an empty body), and in the
enclosing unit emits `LOAD_SELF`, a load of the method-name symbol, a load
of the assembled bytecode constant, and `DEFINE_FUNCTION`. -/
theorem function_compile (name : String) (args : List String) (body : Node) (ctx ctx' : Ctx)
    (h : compile (.function name args body) ctx = some ctx') :
    ∃ fctx, compile body (declareLocals args emptyCtx) = some fctx ∧
      (args.Nodup → (declareLocals args emptyCtx).locals = args) ∧
      (∃ extra, fctx.locals = (declareLocals args emptyCtx).locals ++ extra) ∧
      (args.Nodup → ∀ (i : Nat) (hi : i < args.length) (c : Ctx) (rest : List String),
        c.locals = args ++ rest → (createLocal c (args.get ⟨i, hi⟩)).2 = i) ∧
      ctx'.instrs = ctx.instrs ++
        [⟨.LOAD_SELF, []⟩,
         ⟨.LOAD_CONST, [(createSymbolConst (emitI ctx .LOAD_SELF []) name).2]⟩,
         ⟨.LOAD_CONST, [ctx.consts.length]⟩,
         ⟨.DEFINE_FUNCTION, []⟩] ∧
      ctx'.consts = ctx.consts ++
        [.code (fctx.instrs ++ [⟨.RETURN, []⟩]) fctx.consts fctx.symbols
          fctx.locals.length] ∧
      ctx'.symbols.getD (createSymbolConst (emitI ctx .LOAD_SELF []) name).2 "" = name := by
  simp only [compile, Option.bind_eq_bind] at h
  cases hb : compile body (declareLocals args emptyCtx) with
  | none => rw [hb] at h; simp at h
  | some f1 =>
    rw [hb] at h; simp only [Option.some_bind, Option.some_inj] at h
    obtain ⟨hsym, hinstr, hconsts, _⟩ := createSymbolConst_spec (emitI ctx .LOAD_SELF []) name
    refine ⟨f1, rfl, ?_, ?_, ?_, ?_, ?_, ?_⟩
    · intro hnd
      have := declareLocals_locals args emptyCtx (by simp [emptyCtx]) hnd
      simpa [emptyCtx] using this
    · exact (compile_extends body _ f1 hb).2.2.2
    · intro hnd i hi c rest hloc
      exact createLocal_prefix_idx args rest c i hi hnd hloc
    · rw [← h]
      simp only [emitI_instrs, createConst_fst_instrs, hinstr, createConst_snd, hconsts,
        emitI_consts]
      simp [List.append_assoc]
    · rw [← h]
      simp only [emitI_consts, createConst_fst_consts, hconsts, createBytecode, emitI_instrs,
        emitI_symbols, emitI_locals]
    · rw [← h]
      simp only [emitI_symbols, createConst_fst_symbols]
      exact hsym

/-- Claim C5, as stated, is false for duplicate parameter names:
`Function("f", ["a", "a"], …)` allocates one slot, not two — the second
parameter resolves to slot 0, not slot 1, because `create_local` returns
the existing slot for an already-declared name. -/
theorem function_duplicate_param_counterexample :
    compile (.function "f" ["a", "a"] (.block [.statement (.variable "a") true])) emptyCtx =
      some ⟨[⟨.LOAD_SELF, []⟩, ⟨.LOAD_CONST, [0]⟩, ⟨.LOAD_CONST, [0]⟩,
             ⟨.DEFINE_FUNCTION, []⟩],
        [.code [⟨.LOAD_LOCAL, [0]⟩, ⟨.RETURN, []⟩] [] [] 1], ["f"], []⟩ ∧
    (declareLocals ["a", "a"] emptyCtx).locals = ["a"] ∧
    (createLocal (declareLocals ["a", "a"] emptyCtx) "a").2 = 0 ∧
    ¬ ((declareLocals ["a", "a"] emptyCtx).locals.getD 1 "" = "a") := by
  refine ⟨rfl, rfl, rfl, ?_⟩
  intro hcl
  simp [declareLocals, createLocal, emptyCtx] at hcl

/-- Witness for `function_compile` at `Function("f", ["a", "b"], body)`
where the body reads parameter `"a"`. -/
theorem function_compile_witness :
    (["a", "b"] : List String).Nodup ∧
    ∃ fctx, compile (.block [.statement (.variable "a") true])
        (declareLocals ["a", "b"] emptyCtx) = some fctx ∧
      ((["a", "b"] : List String).Nodup → (declareLocals ["a", "b"] emptyCtx).locals = ["a", "b"]) ∧
      (∃ extra, fctx.locals = (declareLocals ["a", "b"] emptyCtx).locals ++ extra) ∧
      ((["a", "b"] : List String).Nodup → ∀ (i : Nat) (hi : i < (["a", "b"] : List String).length)
        (c : Ctx) (rest : List String),
        c.locals = ["a", "b"] ++ rest → (createLocal c ((["a", "b"] : List String).get ⟨i, hi⟩)).2 = i) ∧
      (⟨[⟨.LOAD_SELF, []⟩, ⟨.LOAD_CONST, [0]⟩, ⟨.LOAD_CONST, [0]⟩, ⟨.DEFINE_FUNCTION, []⟩],
          [.code [⟨.LOAD_LOCAL, [0]⟩, ⟨.RETURN, []⟩] [] [] 2], ["f"], []⟩ : Ctx).instrs =
        emptyCtx.instrs ++
          [⟨.LOAD_SELF, []⟩,
           ⟨.LOAD_CONST, [(createSymbolConst (emitI emptyCtx .LOAD_SELF []) "f").2]⟩,
           ⟨.LOAD_CONST, [emptyCtx.consts.length]⟩,
           ⟨.DEFINE_FUNCTION, []⟩] ∧
      (⟨[⟨.LOAD_SELF, []⟩, ⟨.LOAD_CONST, [0]⟩, ⟨.LOAD_CONST, [0]⟩, ⟨.DEFINE_FUNCTION, []⟩],
          [.code [⟨.LOAD_LOCAL, [0]⟩, ⟨.RETURN, []⟩] [] [] 2], ["f"], []⟩ : Ctx).consts =
        emptyCtx.consts ++
          [.code (fctx.instrs ++ [⟨.RETURN, []⟩]) fctx.consts fctx.symbols fctx.locals.length] ∧
      (⟨[⟨.LOAD_SELF, []⟩, ⟨.LOAD_CONST, [0]⟩, ⟨.LOAD_CONST, [0]⟩, ⟨.DEFINE_FUNCTION, []⟩],
          [.code [⟨.LOAD_LOCAL, [0]⟩, ⟨.RETURN, []⟩] [] [] 2], ["f"], []⟩ : Ctx).symbols.getD
        (createSymbolConst (emitI emptyCtx .LOAD_SELF []) "f").2 "" = "f" :=
  ⟨by decide,
    function_compile "f" ["a", "b"] (.block [.statement (.variable "a") true]) emptyCtx
      ⟨[⟨.LOAD_SELF, []⟩, ⟨.LOAD_CONST, [0]⟩, ⟨.LOAD_CONST, [0]⟩, ⟨.DEFINE_FUNCTION, []⟩],
        [.code [⟨.LOAD_LOCAL, [0]⟩, ⟨.RETURN, []⟩] [] [] 2], ["f"], []⟩ rfl⟩

/-! ## A fragment of the target machine (claims C6 and C7)

The VM itself is an external collaborator; to state what the compiled
`If`/`While` glue does at runtime, this fragment gives small-step meaning
to exactly the opcodes those nodes emit themselves — constant loads,
stack discard and the two jumps — over configurations of program counter
and evaluation stack. Runs of the compiled condition and body enter the
theorems as hypotheses (they are arbitrary sub-programs). -/

/-- Ruby truthiness: only `false` and `nil` are falsy. -/
def falsy : Const → Bool
  | .wFalse => true
  | .wNil => true
  | _ => false

/-- One step of the machine fragment on program `code` with constant pool
`consts`: configurations are (program counter, evaluation stack). -/
inductive Step (code : List Instr) (consts : List Const) :
    Nat × List Const → Nat × List Const → Prop where
  | load_const {pc i : Nat} {S : List Const} :
      code.getD pc default = ⟨.LOAD_CONST, [i]⟩ →
      Step code consts (pc, S) (pc + 1, consts.getD i .wNil :: S)
  | discard {pc : Nat} {v : Const} {S : List Const} :
      code.getD pc default = ⟨.DISCARD_TOP, []⟩ →
      Step code consts (pc, v :: S) (pc + 1, S)
  | jump {pc t : Nat} {S : List Const} :
      code.getD pc default = ⟨.JUMP, [t]⟩ →
      Step code consts (pc, S) (t, S)
  | jif_fall {pc t : Nat} {v : Const} {S : List Const} :
      code.getD pc default = ⟨.JUMP_IF_FALSE, [t]⟩ → falsy v = false →
      Step code consts (pc, v :: S) (pc + 1, S)
  | jif_jump {pc t : Nat} {v : Const} {S : List Const} :
      code.getD pc default = ⟨.JUMP_IF_FALSE, [t]⟩ → falsy v = true →
      Step code consts (pc, v :: S) (t, S)

/-- Zero or more steps. -/
def Exec (code : List Instr) (consts : List Const)
    (x y : Nat × List Const) : Prop :=
  Relation.ReflTransGen (Step code consts) x y

/-- Claim C6: the shape of `If.compile`'s output — condition, a
`JUMP_IF_FALSE` patched to the nil load, body, a `JUMP` patched past the
nil load, the nil load — and its consequence: a falsy condition value
yields the nil singleton, a truthy one yields exactly the body's value,
one value on the stack either way. -/
theorem if_compile_correct (cnd b : Node) (ctx ctx' : Ctx)
    (h : compile (.ifNode cnd b) ctx = some ctx') :
    ∃ c1 c3 Ic Ib,
      compile cnd ctx = some c1 ∧ c1.instrs = ctx.instrs ++ Ic ∧
      compile b (emitI c1 .JUMP_IF_FALSE [0]) = some c3 ∧
      c3.instrs = ctx.instrs ++ Ic ++ [⟨.JUMP_IF_FALSE, [0]⟩] ++ Ib ∧
      ctx'.instrs = ctx.instrs ++ Ic
        ++ [⟨.JUMP_IF_FALSE, [ctx.instrs.length + Ic.length + Ib.length + 2]⟩]
        ++ Ib ++ [⟨.JUMP, [ctx.instrs.length + Ic.length + Ib.length + 3]⟩,
                  ⟨.LOAD_CONST, [c3.consts.length]⟩] ∧
      ctx'.consts = c3.consts ++ [.wNil] ∧
      ctx'.instrs.length = ctx.instrs.length + Ic.length + Ib.length + 3 ∧
      (∀ (S : List Const) (v : Const),
        Exec ctx'.instrs ctx'.consts (ctx.instrs.length, S)
          (ctx.instrs.length + Ic.length, v :: S) →
        (falsy v = true →
          Exec ctx'.instrs ctx'.consts (ctx.instrs.length, S)
            (ctx'.instrs.length, .wNil :: S)) ∧
        (falsy v = false → ∀ w : Const,
          Exec ctx'.instrs ctx'.consts (ctx.instrs.length + Ic.length + 1, S)
            (ctx.instrs.length + Ic.length + 1 + Ib.length, w :: S) →
          Exec ctx'.instrs ctx'.consts (ctx.instrs.length, S)
            (ctx'.instrs.length, w :: S))) := by
  obtain ⟨c1, c3, Ic, Ib, hc, hIc, hb, hIb, hinstr, hconsts, hsym, hloc⟩ :=
    if_shape cnd b ctx ctx' h
  have hlen : ctx'.instrs.length = ctx.instrs.length + Ic.length + Ib.length + 3 := by
    rw [hinstr]; simp; omega
  refine ⟨c1, c3, Ic, Ib, hc, hIc, hb, hIb, hinstr, hconsts, hlen, ?_⟩
  intro S v hcond
  have hJIF : ctx'.instrs.getD (ctx.instrs.length + Ic.length) default =
      ⟨.JUMP_IF_FALSE, [ctx.instrs.length + Ic.length + Ib.length + 2]⟩ := by
    rw [hinstr]
    rw [show ctx.instrs ++ Ic
        ++ [⟨Op.JUMP_IF_FALSE, [ctx.instrs.length + Ic.length + Ib.length + 2]⟩]
        ++ Ib ++ [⟨Op.JUMP, [ctx.instrs.length + Ic.length + Ib.length + 3]⟩,
                  ⟨Op.LOAD_CONST, [c3.consts.length]⟩] =
      (ctx.instrs ++ Ic)
        ++ (⟨Op.JUMP_IF_FALSE, [ctx.instrs.length + Ic.length + Ib.length + 2]⟩
          :: (Ib ++ [⟨Op.JUMP, [ctx.instrs.length + Ic.length + Ib.length + 3]⟩,
                  ⟨Op.LOAD_CONST, [c3.consts.length]⟩])) from by simp]
    rw [getD_append_ge _ _ _ _ (by simp)]
    simp
  have hJUMP : ctx'.instrs.getD (ctx.instrs.length + Ic.length + 1 + Ib.length) default =
      ⟨.JUMP, [ctx.instrs.length + Ic.length + Ib.length + 3]⟩ := by
    rw [hinstr]
    rw [show ctx.instrs ++ Ic
        ++ [⟨Op.JUMP_IF_FALSE, [ctx.instrs.length + Ic.length + Ib.length + 2]⟩]
        ++ Ib ++ [⟨Op.JUMP, [ctx.instrs.length + Ic.length + Ib.length + 3]⟩,
                  ⟨Op.LOAD_CONST, [c3.consts.length]⟩] =
      (ctx.instrs ++ Ic
        ++ [⟨Op.JUMP_IF_FALSE, [ctx.instrs.length + Ic.length + Ib.length + 2]⟩] ++ Ib)
        ++ (⟨Op.JUMP, [ctx.instrs.length + Ic.length + Ib.length + 3]⟩
          :: [⟨Op.LOAD_CONST, [c3.consts.length]⟩]) from by simp]
    rw [getD_append_ge _ _ _ _ (by simp; omega)]
    have : ctx.instrs.length + Ic.length + 1 + Ib.length -
        (ctx.instrs ++ Ic
          ++ ([⟨Op.JUMP_IF_FALSE, [ctx.instrs.length + Ic.length + Ib.length + 2]⟩] : List Instr)
          ++ Ib).length = 0 := by
      simp; omega
    rw [this]
    simp
  have hLC : ctx'.instrs.getD (ctx.instrs.length + Ic.length + Ib.length + 2) default =
      ⟨.LOAD_CONST, [c3.consts.length]⟩ := by
    rw [hinstr]
    rw [show ctx.instrs ++ Ic
        ++ [⟨Op.JUMP_IF_FALSE, [ctx.instrs.length + Ic.length + Ib.length + 2]⟩]
        ++ Ib ++ [⟨Op.JUMP, [ctx.instrs.length + Ic.length + Ib.length + 3]⟩,
                  ⟨Op.LOAD_CONST, [c3.consts.length]⟩] =
      (ctx.instrs ++ Ic
        ++ [⟨Op.JUMP_IF_FALSE, [ctx.instrs.length + Ic.length + Ib.length + 2]⟩] ++ Ib
        ++ [⟨Op.JUMP, [ctx.instrs.length + Ic.length + Ib.length + 3]⟩])
        ++ [⟨Op.LOAD_CONST, [c3.consts.length]⟩] from by simp]
    rw [getD_append_ge _ _ _ _ (by simp; omega)]
    have : ctx.instrs.length + Ic.length + Ib.length + 2 -
        (ctx.instrs ++ Ic
          ++ ([⟨Op.JUMP_IF_FALSE, [ctx.instrs.length + Ic.length + Ib.length + 2]⟩] : List Instr)
          ++ Ib
          ++ ([⟨Op.JUMP, [ctx.instrs.length + Ic.length + Ib.length + 3]⟩] : List Instr)).length
          = 0 := by
      simp; omega
    rw [this]
    simp
  have hnil : ctx'.consts.getD c3.consts.length .wNil = .wNil := by
    rw [hconsts, getD_append_ge _ _ _ _ (Nat.le_refl _)]
    simp
  constructor
  · intro hfalsy
    have s1 : Step ctx'.instrs ctx'.consts
        (ctx.instrs.length + Ic.length, v :: S)
        (ctx.instrs.length + Ic.length + Ib.length + 2, S) :=
      Step.jif_jump hJIF hfalsy
    have s2 : Step ctx'.instrs ctx'.consts
        (ctx.instrs.length + Ic.length + Ib.length + 2, S)
        (ctx.instrs.length + Ic.length + Ib.length + 2 + 1,
          ctx'.consts.getD c3.consts.length .wNil :: S) :=
      Step.load_const hLC
    rw [hnil] at s2
    have : Exec ctx'.instrs ctx'.consts (ctx.instrs.length, S)
        (ctx.instrs.length + Ic.length + Ib.length + 2 + 1, .wNil :: S) :=
      Relation.ReflTransGen.tail (Relation.ReflTransGen.tail hcond s1) s2
    rw [hlen]
    have harith : ctx.instrs.length + Ic.length + Ib.length + 2 + 1 =
        ctx.instrs.length + Ic.length + Ib.length + 3 := by omega
    rwa [harith] at this
  · intro hfalsy w hbody
    have s1 : Step ctx'.instrs ctx'.consts
        (ctx.instrs.length + Ic.length, v :: S)
        (ctx.instrs.length + Ic.length + 1, S) :=
      Step.jif_fall hJIF hfalsy
    have s2 : Step ctx'.instrs ctx'.consts
        (ctx.instrs.length + Ic.length + 1 + Ib.length, w :: S)
        (ctx.instrs.length + Ic.length + Ib.length + 3, w :: S) :=
      Step.jump hJUMP
    rw [hlen]
    exact Relation.ReflTransGen.tail
      (Relation.ReflTransGen.trans (Relation.ReflTransGen.tail hcond s1) hbody) s2

/-- Witness for `if_compile_correct`: `If(nil, true)` compiled from an
empty context; running the compiled code on an empty stack yields the nil
singleton (the condition is falsy). -/
theorem if_compile_correct_witness :
    compile (.ifNode (.variable "nil") (.variable "true")) emptyCtx =
      some ⟨[⟨.LOAD_CONST, [0]⟩, ⟨.JUMP_IF_FALSE, [4]⟩, ⟨.LOAD_CONST, [1]⟩,
             ⟨.JUMP, [5]⟩, ⟨.LOAD_CONST, [2]⟩], [.wNil, .wTrue, .wNil], [], []⟩ ∧
    Exec [⟨.LOAD_CONST, [0]⟩, ⟨.JUMP_IF_FALSE, [4]⟩, ⟨.LOAD_CONST, [1]⟩,
          ⟨.JUMP, [5]⟩, ⟨.LOAD_CONST, [2]⟩] [.wNil, .wTrue, .wNil]
      (0, []) (5, [.wNil]) := by
  refine ⟨rfl, ?_⟩
  obtain ⟨c1, c3, Ic, Ib, hc, hIc, hb, hIb, hinstr, hconsts, hlen, hsem⟩ :=
    if_compile_correct (.variable "nil") (.variable "true") emptyCtx
      ⟨[⟨.LOAD_CONST, [0]⟩, ⟨.JUMP_IF_FALSE, [4]⟩, ⟨.LOAD_CONST, [1]⟩,
        ⟨.JUMP, [5]⟩, ⟨.LOAD_CONST, [2]⟩], [.wNil, .wTrue, .wNil], [], []⟩ rfl
  have hc1 : c1 = ⟨[⟨.LOAD_CONST, [0]⟩], [.wNil], [], []⟩ :=
    Option.some.inj (hc.symm.trans rfl)
  subst hc1
  have hIcv : Ic = [⟨.LOAD_CONST, [0]⟩] := by simpa using hIc.symm
  subst hIcv
  have hcond : Exec [⟨.LOAD_CONST, [0]⟩, ⟨.JUMP_IF_FALSE, [4]⟩, ⟨.LOAD_CONST, [1]⟩,
      ⟨.JUMP, [5]⟩, ⟨.LOAD_CONST, [2]⟩] [.wNil, .wTrue, .wNil]
      (0, []) (1, [.wNil]) :=
    Relation.ReflTransGen.single
      (@Step.load_const [⟨.LOAD_CONST, [0]⟩, ⟨.JUMP_IF_FALSE, [4]⟩, ⟨.LOAD_CONST, [1]⟩,
        ⟨.JUMP, [5]⟩, ⟨.LOAD_CONST, [2]⟩] [.wNil, .wTrue, .wNil] 0 0 [] rfl)
  exact (hsem [] .wNil hcond).1 rfl

theorem getD_at_append (pre : List Instr) (x : Instr) (post : List Instr) (i : Nat)
    (hi : i = pre.length) : (pre ++ x :: post).getD i default = x := by
  subst hi
  rw [getD_append_ge _ _ _ _ (Nat.le_refl _)]
  simp

/-- Claim C7: the shape of `While.compile`'s output — condition at the
start position, a `JUMP_IF_FALSE` patched to the loop exit, body followed
by a `DISCARD_TOP`, a `JUMP` back to the start position, and a final nil
load — and its consequence: however many iterations run before the
condition turns falsy (including zero), the loop expression's value is the
nil singleton. -/
theorem while_compile_correct (cnd b : Node) (ctx ctx' : Ctx)
    (h : compile (.whileNode cnd b) ctx = some ctx') :
    ∃ c1 c3 Ic Ib,
      compile cnd ctx = some c1 ∧ c1.instrs = ctx.instrs ++ Ic ∧
      compile b (emitI c1 .JUMP_IF_FALSE [0]) = some c3 ∧
      c3.instrs = ctx.instrs ++ Ic ++ [⟨.JUMP_IF_FALSE, [0]⟩] ++ Ib ∧
      ctx'.instrs = ctx.instrs ++ Ic
        ++ [⟨.JUMP_IF_FALSE, [ctx.instrs.length + Ic.length + Ib.length + 3]⟩]
        ++ Ib ++ [⟨.DISCARD_TOP, []⟩, ⟨.JUMP, [ctx.instrs.length]⟩,
                  ⟨.LOAD_CONST, [c3.consts.length]⟩] ∧
      ctx'.consts = c3.consts ++ [.wNil] ∧
      ctx'.instrs.length = ctx.instrs.length + Ic.length + Ib.length + 4 ∧
      (∀ (S : List Const) (niter : Nat) (v : Nat → Const) (w : Nat → Const),
        (∀ i, i < niter →
          Exec ctx'.instrs ctx'.consts (ctx.instrs.length, S)
            (ctx.instrs.length + Ic.length, v i :: S) ∧
          falsy (v i) = false ∧
          Exec ctx'.instrs ctx'.consts (ctx.instrs.length + Ic.length + 1, S)
            (ctx.instrs.length + Ic.length + 1 + Ib.length, w i :: S)) →
        Exec ctx'.instrs ctx'.consts (ctx.instrs.length, S)
          (ctx.instrs.length + Ic.length, v niter :: S) →
        falsy (v niter) = true →
        Exec ctx'.instrs ctx'.consts (ctx.instrs.length, S)
          (ctx'.instrs.length, .wNil :: S)) := by
  obtain ⟨c1, c3, Ic, Ib, hc, hIc, hb, hIb, hinstr, hconsts, hsym, hloc⟩ :=
    while_shape cnd b ctx ctx' h
  have hlen : ctx'.instrs.length = ctx.instrs.length + Ic.length + Ib.length + 4 := by
    rw [hinstr]; simp; omega
  refine ⟨c1, c3, Ic, Ib, hc, hIc, hb, hIb, hinstr, hconsts, hlen, ?_⟩
  have hJIF : ctx'.instrs.getD (ctx.instrs.length + Ic.length) default =
      ⟨.JUMP_IF_FALSE, [ctx.instrs.length + Ic.length + Ib.length + 3]⟩ := by
    rw [hinstr,
      show ctx.instrs ++ Ic
        ++ [⟨Op.JUMP_IF_FALSE, [ctx.instrs.length + Ic.length + Ib.length + 3]⟩]
        ++ Ib ++ [⟨Op.DISCARD_TOP, []⟩, ⟨Op.JUMP, [ctx.instrs.length]⟩,
                  ⟨Op.LOAD_CONST, [c3.consts.length]⟩] =
      (ctx.instrs ++ Ic)
        ++ (⟨Op.JUMP_IF_FALSE, [ctx.instrs.length + Ic.length + Ib.length + 3]⟩
          :: (Ib ++ [⟨Op.DISCARD_TOP, []⟩, ⟨Op.JUMP, [ctx.instrs.length]⟩,
                  ⟨Op.LOAD_CONST, [c3.consts.length]⟩])) from by simp]
    exact getD_at_append _ _ _ _ (by simp)
  have hDISC : ctx'.instrs.getD (ctx.instrs.length + Ic.length + 1 + Ib.length) default =
      ⟨.DISCARD_TOP, []⟩ := by
    rw [hinstr,
      show ctx.instrs ++ Ic
        ++ [⟨Op.JUMP_IF_FALSE, [ctx.instrs.length + Ic.length + Ib.length + 3]⟩]
        ++ Ib ++ [⟨Op.DISCARD_TOP, []⟩, ⟨Op.JUMP, [ctx.instrs.length]⟩,
                  ⟨Op.LOAD_CONST, [c3.consts.length]⟩] =
      (ctx.instrs ++ Ic
        ++ [⟨Op.JUMP_IF_FALSE, [ctx.instrs.length + Ic.length + Ib.length + 3]⟩] ++ Ib)
        ++ (⟨Op.DISCARD_TOP, []⟩ :: [⟨Op.JUMP, [ctx.instrs.length]⟩,
                  ⟨Op.LOAD_CONST, [c3.consts.length]⟩]) from by simp]
    exact getD_at_append _ _ _ _ (by simp; omega)
  have hJUMP : ctx'.instrs.getD (ctx.instrs.length + Ic.length + Ib.length + 2) default =
      ⟨.JUMP, [ctx.instrs.length]⟩ := by
    rw [hinstr,
      show ctx.instrs ++ Ic
        ++ [⟨Op.JUMP_IF_FALSE, [ctx.instrs.length + Ic.length + Ib.length + 3]⟩]
        ++ Ib ++ [⟨Op.DISCARD_TOP, []⟩, ⟨Op.JUMP, [ctx.instrs.length]⟩,
                  ⟨Op.LOAD_CONST, [c3.consts.length]⟩] =
      (ctx.instrs ++ Ic
        ++ [⟨Op.JUMP_IF_FALSE, [ctx.instrs.length + Ic.length + Ib.length + 3]⟩] ++ Ib
        ++ [⟨Op.DISCARD_TOP, []⟩])
        ++ (⟨Op.JUMP, [ctx.instrs.length]⟩
          :: [⟨Op.LOAD_CONST, [c3.consts.length]⟩]) from by simp]
    exact getD_at_append _ _ _ _ (by simp; omega)
  have hLC : ctx'.instrs.getD (ctx.instrs.length + Ic.length + Ib.length + 3) default =
      ⟨.LOAD_CONST, [c3.consts.length]⟩ := by
    rw [hinstr,
      show ctx.instrs ++ Ic
        ++ [⟨Op.JUMP_IF_FALSE, [ctx.instrs.length + Ic.length + Ib.length + 3]⟩]
        ++ Ib ++ [⟨Op.DISCARD_TOP, []⟩, ⟨Op.JUMP, [ctx.instrs.length]⟩,
                  ⟨Op.LOAD_CONST, [c3.consts.length]⟩] =
      (ctx.instrs ++ Ic
        ++ [⟨Op.JUMP_IF_FALSE, [ctx.instrs.length + Ic.length + Ib.length + 3]⟩] ++ Ib
        ++ [⟨Op.DISCARD_TOP, []⟩] ++ [⟨Op.JUMP, [ctx.instrs.length]⟩])
        ++ (⟨Op.LOAD_CONST, [c3.consts.length]⟩ :: []) from by simp]
    exact getD_at_append _ _ _ _ (by simp; omega)
  have hnil : ctx'.consts.getD c3.consts.length .wNil = .wNil := by
    rw [hconsts, getD_append_ge _ _ _ _ (Nat.le_refl _)]
    simp
  intro S niter
  induction niter with
  | zero =>
    intro v w _ hfin hfalsy
    have s1 : Step ctx'.instrs ctx'.consts
        (ctx.instrs.length + Ic.length, v 0 :: S)
        (ctx.instrs.length + Ic.length + Ib.length + 3, S) :=
      Step.jif_jump hJIF hfalsy
    have s2 : Step ctx'.instrs ctx'.consts
        (ctx.instrs.length + Ic.length + Ib.length + 3, S)
        (ctx.instrs.length + Ic.length + Ib.length + 3 + 1,
          ctx'.consts.getD c3.consts.length .wNil :: S) :=
      Step.load_const hLC
    rw [hnil] at s2
    have hend : ctx.instrs.length + Ic.length + Ib.length + 3 + 1 = ctx'.instrs.length := by
      omega
    rw [hend] at s2
    exact Relation.ReflTransGen.tail (Relation.ReflTransGen.tail hfin s1) s2
  | succ k IH =>
    intro v w hfam hfin hfalsy
    have h0 := hfam 0 (Nat.succ_pos k)
    have loop : Exec ctx'.instrs ctx'.consts (ctx.instrs.length, S) (ctx.instrs.length, S) := by
      have t1 := Relation.ReflTransGen.tail h0.1 (Step.jif_fall hJIF h0.2.1)
      have t2 := Relation.ReflTransGen.trans t1 h0.2.2
      have t3 := Relation.ReflTransGen.tail t2 (Step.discard hDISC)
      have harith : ctx.instrs.length + Ic.length + 1 + Ib.length + 1 =
          ctx.instrs.length + Ic.length + Ib.length + 2 := by omega
      rw [harith] at t3
      exact Relation.ReflTransGen.tail t3 (Step.jump hJUMP)
    exact Relation.ReflTransGen.trans loop
      (IH (fun i => v (i + 1)) (fun i => w (i + 1))
        (fun i hi => hfam (i + 1) (Nat.succ_lt_succ hi)) hfin hfalsy)

/-- Witness for `while_compile_correct`: `While(nil, true)` compiled from
an empty context; with a falsy condition the loop exits after zero
iterations and leaves the nil singleton. -/
theorem while_compile_correct_witness :
    compile (.whileNode (.variable "nil") (.variable "true")) emptyCtx =
      some ⟨[⟨.LOAD_CONST, [0]⟩, ⟨.JUMP_IF_FALSE, [5]⟩, ⟨.LOAD_CONST, [1]⟩,
             ⟨.DISCARD_TOP, []⟩, ⟨.JUMP, [0]⟩, ⟨.LOAD_CONST, [2]⟩],
        [.wNil, .wTrue, .wNil], [], []⟩ ∧
    Exec [⟨.LOAD_CONST, [0]⟩, ⟨.JUMP_IF_FALSE, [5]⟩, ⟨.LOAD_CONST, [1]⟩,
          ⟨.DISCARD_TOP, []⟩, ⟨.JUMP, [0]⟩, ⟨.LOAD_CONST, [2]⟩]
      [.wNil, .wTrue, .wNil] (0, []) (6, [.wNil]) := by
  refine ⟨rfl, ?_⟩
  obtain ⟨c1, c3, Ic, Ib, hc, hIc, hb, hIb, hinstr, hconsts, hlen, hsem⟩ :=
    while_compile_correct (.variable "nil") (.variable "true") emptyCtx
      ⟨[⟨.LOAD_CONST, [0]⟩, ⟨.JUMP_IF_FALSE, [5]⟩, ⟨.LOAD_CONST, [1]⟩,
        ⟨.DISCARD_TOP, []⟩, ⟨.JUMP, [0]⟩, ⟨.LOAD_CONST, [2]⟩],
        [.wNil, .wTrue, .wNil], [], []⟩ rfl
  have hc1 : c1 = ⟨[⟨.LOAD_CONST, [0]⟩], [.wNil], [], []⟩ :=
    Option.some.inj (hc.symm.trans rfl)
  subst hc1
  have hIcv : Ic = [⟨.LOAD_CONST, [0]⟩] := by simpa using hIc.symm
  subst hIcv
  have hcond : Exec [⟨.LOAD_CONST, [0]⟩, ⟨.JUMP_IF_FALSE, [5]⟩, ⟨.LOAD_CONST, [1]⟩,
      ⟨.DISCARD_TOP, []⟩, ⟨.JUMP, [0]⟩, ⟨.LOAD_CONST, [2]⟩]
      [.wNil, .wTrue, .wNil] (0, []) (1, [.wNil]) :=
    Relation.ReflTransGen.single
      (@Step.load_const [⟨.LOAD_CONST, [0]⟩, ⟨.JUMP_IF_FALSE, [5]⟩, ⟨.LOAD_CONST, [1]⟩,
        ⟨.DISCARD_TOP, []⟩, ⟨.JUMP, [0]⟩, ⟨.LOAD_CONST, [2]⟩]
        [.wNil, .wTrue, .wNil] 0 0 [] rfl)
  exact hsem [] 0 (fun _ => .wNil) (fun _ => .wTrue)
    (fun i hi => absurd hi (Nat.not_lt_zero i)) hcond rfl

/-! ## Stack effects and depth labellings (claim C1)

The standard stack-effect model of the opcode catalogue (spec sections 4.1
and 6): each opcode pops its inputs and pushes its result. Stores leave
the stored value on the stack (an assignment's net result is the assigned
value), `STORE_INSTANCE_VAR` additionally pops the receiver,
`LOAD_INSTANCE_VAR` replaces the receiver by the slot value, `SEND` pops
the receiver and `n` arguments and pushes one result, `BUILD_ARRAY` packs
`n` elements into one, `BUILD_CLASS` consumes receiver, name, superclass
placeholder and body code, `DEFINE_FUNCTION` consumes receiver, name and
code. `JUMP_IF_FALSE` pops the tested value.

For code with branches, "net stack effect" is expressed the way bytecode
verifiers do: a depth labelling `D` assigns to every position its stack
depth relative to entry, each instruction takes `D i` to `D (i + 1)` by
its effect, a jump's target must carry the depth the jump leaves, and
`RETURN` hands the value being returned to the caller and constrains no
successor (nothing falls through it). -/

/-- Stack effect of one instruction under the catalogue's model. -/
def stackEffect (ins : Instr) : Int :=
  match ins.op, ins.args with
  | .DISCARD_TOP, _ => -1
  | .LOAD_CONST, _ => 1
  | .LOAD_SELF, _ => 1
  | .LOAD_LOCAL, _ => 1
  | .LOAD_CONSTANT, _ => 1
  | .LOAD_INSTANCE_VAR, _ => 0
  | .STORE_LOCAL, _ => 0
  | .STORE_CONSTANT, _ => 0
  | .STORE_INSTANCE_VAR, _ => -1
  | .JUMP, _ => 0
  | .JUMP_IF_FALSE, _ => -1
  | .SEND, [_, n] => -(n : Int)
  | .SEND, _ => 0
  | .BUILD_ARRAY, [n] => 1 - (n : Int)
  | .BUILD_ARRAY, _ => 0
  | .BUILD_CLASS, _ => -3
  | .DEFINE_FUNCTION, _ => -2
  | .COPY_STRING, _ => 0
  | .RETURN, _ => 0

/-- The jump targets an instruction can transfer control to. -/
def jumpTargets (ins : Instr) : List Nat :=
  match ins.op, ins.args with
  | .JUMP, [t] => [t]
  | .JUMP_IF_FALSE, [t] => [t]
  | _, _ => []

/-- Straight-line instructions: everything except jumps and `RETURN`. -/
def plainInstr (ins : Instr) : Bool :=
  match ins.op with
  | .JUMP => false
  | .JUMP_IF_FALSE => false
  | .RETURN => false
  | _ => true

/-- The depth constraint one instruction at position `i` imposes on a
labelling `D`. -/
def instrConstraint (ins : Instr) (D : Nat → Int) (i : Nat) : Prop :=
  match ins with
  | ⟨.JUMP, [t]⟩ => D t = D i
  | ⟨.JUMP_IF_FALSE, [t]⟩ => D t = D i - 1 ∧ D (i + 1) = D i - 1
  | ⟨.RETURN, _⟩ => True
  | ins => D (i + 1) = D i + stackEffect ins

/-- `D` is a consistent depth labelling of `code` over `[a, b)`. -/
def DOk (code : List Instr) (a b : Nat) (D : Nat → Int) : Prop :=
  ∀ i, a ≤ i → i < b → instrConstraint (code.getD i default) D i

/-- Every jump in `[a, b)` targets a position in `[a, b]`. -/
def TgtOk (code : List Instr) (a b : Nat) : Prop :=
  ∀ i, a ≤ i → i < b → ∀ t ∈ jumpTargets (code.getD i default), a ≤ t ∧ t ≤ b

theorem jumpTargets_plain (ins : Instr) (hp : plainInstr ins = true) :
    jumpTargets ins = [] := by
  obtain ⟨op, args⟩ := ins
  cases op <;> simp_all [plainInstr, jumpTargets]

theorem instrConstraint_plain (ins : Instr) (hp : plainInstr ins = true)
    (D : Nat → Int) (i : Nat) :
    instrConstraint ins D i ↔ D (i + 1) = D i + stackEffect ins := by
  obtain ⟨op, args⟩ := ins
  cases op <;> rcases args with _ | ⟨t, _ | ⟨u, rest⟩⟩ <;>
    simp_all [plainInstr, instrConstraint]

theorem instrConstraint_agree (ins : Instr) (D D' : Nat → Int) (i : Nat)
    (hi : D' i = D i) (hsucc : D' (i + 1) = D (i + 1))
    (htgt : ∀ t ∈ jumpTargets ins, D' t = D t)
    (h : instrConstraint ins D i) : instrConstraint ins D' i := by
  obtain ⟨op, args⟩ := ins
  cases op <;> rcases args with _ | ⟨t, _ | ⟨u, rest⟩⟩ <;>
    simp_all [instrConstraint, jumpTargets, stackEffect]

/-- A region together with a labelling: entry depth `d`, exit depth `e`. -/
def RegionNet (code : List Instr) (a b : Nat) (d e : Int) : Prop :=
  a ≤ b ∧ TgtOk code a b ∧
    ∃ D, DOk code a b D ∧ D a = d ∧ D b = e

theorem RegionNet.empty (code : List Instr) (a : Nat) (d : Int) :
    RegionNet code a a d d :=
  ⟨Nat.le_refl a, fun i h1 h2 => absurd h2 (by omega),
    fun _ => d, fun i h1 h2 => absurd h2 (by omega), rfl, rfl⟩

theorem RegionNet.transfer {code code' : List Instr} {a b : Nat} {d e : Int}
    (hag : ∀ i, a ≤ i → i < b → code'.getD i default = code.getD i default)
    (h : RegionNet code a b d e) : RegionNet code' a b d e := by
  obtain ⟨hab, ht, D, hD, ha, hb⟩ := h
  exact ⟨hab, fun i h1 h2 => (hag i h1 h2) ▸ ht i h1 h2,
    D, fun i h1 h2 => (hag i h1 h2) ▸ hD i h1 h2, ha, hb⟩

/-- A region of `code` is also a region of `code ++ tail`. -/
theorem RegionNet.extend_code (tail : List Instr) {code : List Instr} {a b : Nat}
    {d e : Int} (h : RegionNet code a b d e) (hb : b ≤ code.length) :
    RegionNet (code ++ tail) a b d e :=
  RegionNet.transfer (fun i _ h2 => getD_append_lt _ _ _ _ (by omega)) h

/-- Append one plain instruction to a region. -/
theorem RegionNet.snoc_plain {code : List Instr} {a m : Nat} {d e : Int}
    (h : RegionNet code a m d e) {ins : Instr}
    (hc : code.getD m default = ins) (hp : plainInstr ins = true) :
    RegionNet code a (m + 1) d (e + stackEffect ins) := by
  obtain ⟨ham, ht, D, hD, ha, hm⟩ := h
  refine ⟨by omega, ?_, fun i => if i ≤ m then D i else D m + stackEffect ins, ?_, ?_, ?_⟩
  · intro i h1 h2 t htt
    by_cases him : i < m
    · have := ht i h1 him t htt
      exact ⟨this.1, by omega⟩
    · have : i = m := by omega
      subst this
      rw [hc, jumpTargets_plain ins hp] at htt
      simp at htt
  · intro i h1 h2
    by_cases him : i < m
    · refine instrConstraint_agree _ D _ i (by simp [Nat.le_of_lt him]) ?_ ?_ (hD i h1 him)
      · simp [show i + 1 ≤ m from him]
      · intro t htt
        have := ht i h1 him t htt
        simp [this.2]
    · have : i = m := by omega
      subst this
      rw [hc, instrConstraint_plain ins hp]
      simp
  · simp [ham, ha]
  · simp [hm]

/-- Append a `RETURN` to a region: since nothing falls through it, the
labelling may end at any depth (the returned value is handed to the
caller). -/
theorem RegionNet.snoc_ret {code : List Instr} {a m : Nat} {d e : Int}
    (h : RegionNet code a m d e)
    (hc : code.getD m default = ⟨.RETURN, []⟩) (v : Int) :
    RegionNet code a (m + 1) d v := by
  obtain ⟨ham, ht, D, hD, ha, hm⟩ := h
  refine ⟨by omega, ?_, fun i => if i ≤ m then D i else v, ?_, ?_, ?_⟩
  · intro i h1 h2 t htt
    by_cases him : i < m
    · have := ht i h1 him t htt
      exact ⟨this.1, by omega⟩
    · have : i = m := by omega
      subst this
      rw [hc] at htt
      simp [jumpTargets] at htt
  · intro i h1 h2
    by_cases him : i < m
    · refine instrConstraint_agree _ D _ i (by simp [Nat.le_of_lt him]) ?_ ?_ (hD i h1 him)
      · simp [show i + 1 ≤ m from him]
      · intro t htt
        have := ht i h1 him t htt
        simp [this.2]
    · have : i = m := by omega
      subst this
      rw [hc]
      simp [instrConstraint]
  · simp [ham, ha]
  · simp

/-- Glue two adjacent regions whose labellings meet at the seam. -/
theorem RegionNet.glue {code : List Instr} {a m b : Nat} {d e f : Int}
    (h1 : RegionNet code a m d e) (h2 : RegionNet code m b e f) :
    RegionNet code a b d f := by
  obtain ⟨ham, t1, D1, hD1, ha1, hm1⟩ := h1
  obtain ⟨hmb, t2, D2, hD2, hm2, hb2⟩ := h2
  refine ⟨by omega, ?_, fun i => if i < m then D1 i else D2 i, ?_, ?_, ?_⟩
  · intro i hi1 hi2 t htt
    by_cases him : i < m
    · have := t1 i hi1 him t htt
      exact ⟨this.1, by omega⟩
    · have := t2 i (by omega) hi2 t htt
      exact ⟨by omega, this.2⟩
  · intro i hi1 hi2
    by_cases him : i < m
    · refine instrConstraint_agree _ D1 _ i (by simp [him]) ?_ ?_ (hD1 i hi1 him)
      · by_cases hs : i + 1 < m
        · simp [hs]
        · have : i + 1 = m := by omega
          simp [this, hm2, hm1]
      · intro t htt
        have := t1 i hi1 him t htt
        by_cases htm : t < m
        · simp [htm]
        · have : t = m := by omega
          simp [this, hm2, hm1]
    · refine instrConstraint_agree _ D2 _ i (by simp [him]) ?_ ?_ (hD2 i (by omega) hi2)
      · have : ¬ (i + 1 < m) := by omega
        simp [this]
      · intro t htt
        have := t2 i (by omega) hi2 t htt
        have : ¬ (t < m) := by omega
        simp [this]
  · by_cases ham' : a < m
    · simp [ham', ha1]
    · have heq : a = m := by omega
      subst heq
      have hde : d = e := ha1.symm.trans hm1
      simp [hm2, hde]
  · have : ¬ (b < m) := by omega
    simp [this, hb2]

/-- A non-final block element must be a `Statement` whose result is
popped. -/
def nonFinalOk : Node → Bool
  | .statement _ dp => !dp
  | _ => false

/-- Statements proper: the `BaseStatement` subclasses of `ast.py`. -/
def isStmtLike : Node → Bool
  | .statement _ _ => true
  | .ret _ => true
  | _ => false

/-- Net stack effect of one element of a block's statement list: a
`Statement` nets one value exactly when its result is not popped. -/
def stmtNet : Node → Int
  | .statement _ dp => if dp then 1 else 0
  | _ => 1

/-- The claimed net stack effect of a node: one value for every node,
except a `Statement` whose result is popped (zero) and a `Block`, whose
net effect is that of its final statement. -/
def nodeNet : Node → Int
  | .statement _ dp => if dp then 1 else 0
  | .block stmts => (stmts.getLast?).elim 0 stmtNet
  | _ => 1

mutual

/-- Grammatically well-formed trees, as the parser produces them: every
expression position holds a node of net effect one, a block's statements
are `Statement`/`Return` nodes, blocks are never empty (normalized at
construction), and only the final statement of a block carries
`dont_pop`. Function and class bodies compile into fresh contexts, so
nothing is required of them here. -/
def wf : Node → Bool
  | .main b => wf b && (nodeNet b == 1)
  | .block stmts => wfStmts stmts
  | .statement e _ => wf e && (nodeNet e == 1)
  | .assignment _ v => wf v && (nodeNet v == 1)
  | .instanceVariableAssignment _ v => wf v && (nodeNet v == 1)
  | .ifNode c b => (wf c && (nodeNet c == 1)) && (wf b && (nodeNet b == 1))
  | .whileNode c b => (wf c && (nodeNet c == 1)) && (wf b && (nodeNet b == 1))
  | .classNode _ _ _ => true
  | .function _ _ _ => true
  | .ret e => wf e && (nodeNet e == 1)
  | .binOp _ l r => (wf l && (nodeNet l == 1)) && (wf r && (nodeNet r == 1))
  | .send r _ args => (wf r && (nodeNet r == 1)) && wfArgs args
  | .self => true
  | .variable _ => true
  | .instanceVariable _ => true
  | .array items => wfArgs items
  | .constantInt _ => true
  | .constantString _ => true

def wfStmts : List Node → Bool
  | [] => false
  | [s] => isStmtLike s && wf s
  | s :: rest => nonFinalOk s && wf s && wfStmts rest

def wfArgs : List Node → Bool
  | [] => true
  | a :: rest => (wf a && (nodeNet a == 1)) && wfArgs rest

end

theorem stmtNet_eq_nodeNet {s : Node} (h : isStmtLike s = true) :
    stmtNet s = nodeNet s := by
  cases s <;> simp_all [isStmtLike, stmtNet, nodeNet]

/-- The statement of claim C1 for one node, with the entry depth
generalized so regions compose. -/
def Pstack (n : Node) : Prop :=
  ∀ (c c' : Ctx) (d : Int), compile n c = some c' → wf n = true →
    c.instrs.length < c'.instrs.length ∧
    RegionNet c'.instrs c.instrs.length c'.instrs.length d (d + nodeNet n)

theorem getD_agree_prefix (l t : List Instr) :
    ∀ i, i < l.length → (l ++ t).getD i default = l.getD i default :=
  fun i hi => getD_append_lt _ _ _ _ hi

theorem compileList_stmts_region (l : List Node) (IH : ∀ s ∈ l, Pstack s) :
    ∀ (c c' : Ctx) (d : Int), compileList l c = some c' → wfStmts l = true →
    c.instrs.length < c'.instrs.length ∧
    RegionNet c'.instrs c.instrs.length c'.instrs.length d
      (d + (l.getLast?).elim 0 stmtNet) := by
  induction l with
  | nil => intro c c' d h hwf; simp [wfStmts] at hwf
  | cons s rest ih =>
    intro c c' d h hwf
    cases rest with
    | nil =>
      simp only [wfStmts, Bool.and_eq_true] at hwf
      simp only [compileList, Option.bind_eq_bind] at h
      cases hs : compile s c with
      | none => rw [hs] at h; simp at h
      | some c1 =>
        rw [hs] at h; simp [compileList] at h; subst h
        have hP := IH s (by simp) c c1 d hs hwf.2
        refine ⟨hP.1, ?_⟩
        simpa [stmtNet_eq_nodeNet hwf.1] using hP.2
    | cons s2 rest2 =>
      have hwfd : (nonFinalOk s && wf s && wfStmts (s2 :: rest2)) = true := hwf
      simp only [Bool.and_eq_true] at hwfd
      obtain ⟨⟨hnf, hwfs⟩, hrest⟩ := hwfd
      simp only [compileList, Option.bind_eq_bind] at h
      cases hs : compile s c with
      | none => rw [hs] at h; simp at h
      | some c1 =>
        rw [hs] at h; simp only [Option.some_bind] at h
        have hs0 : nodeNet s = 0 := by
          cases s <;> simp_all [nodeNet, nonFinalOk]
        have r1 := IH s (by simp) c c1 d hs hwfs
        have r2 := ih (fun x hx => IH x (by simp [hx])) c1 c' d h hrest
        obtain ⟨t, htail⟩ :=
          (compileList_extends (s2 :: rest2)
            (fun x hx cc cc' hcc => compile_extends x cc cc' hcc) c1 c' h).1
        have r1' : RegionNet c'.instrs c.instrs.length c1.instrs.length d d := by
          have := r1.2
          rw [hs0, add_zero] at this
          refine RegionNet.transfer ?_ this
          intro i h1 h2
          rw [htail]
          exact getD_agree_prefix _ _ i h2
        refine ⟨by omega, ?_⟩
        have hglue := RegionNet.glue r1' r2.2
        have hlast : ((s :: s2 :: rest2).getLast?).elim 0 stmtNet =
            ((s2 :: rest2).getLast?).elim 0 stmtNet := by
          rw [List.getLast?_cons_cons]
        rwa [hlast]

theorem compileList_args_region (l : List Node) (IH : ∀ s ∈ l, Pstack s) :
    ∀ (c c' : Ctx) (d : Int), compileList l c = some c' → wfArgs l = true →
    RegionNet c'.instrs c.instrs.length c'.instrs.length d (d + l.length) := by
  induction l with
  | nil =>
    intro c c' d h _
    simp [compileList] at h; subst h
    simpa using RegionNet.empty c.instrs c.instrs.length d
  | cons a rest ih =>
    intro c c' d h hwf
    simp only [wfArgs, Bool.and_eq_true] at hwf
    simp only [compileList, Option.bind_eq_bind] at h
    cases ha : compile a c with
    | none => rw [ha] at h; simp at h
    | some c1 =>
      rw [ha] at h; simp only [Option.some_bind] at h
      have r1 := IH a (by simp) c c1 d ha hwf.1.1
      have r2 := ih (fun x hx => IH x (by simp [hx])) c1 c' (d + 1) h hwf.2
      obtain ⟨t, htail⟩ :=
        (compileList_extends rest
          (fun x hx cc cc' hcc => compile_extends x cc cc' hcc) c1 c' h).1
      have hone : nodeNet a = 1 := by simpa using hwf.1.2
      have r1' : RegionNet c'.instrs c.instrs.length c1.instrs.length d (d + 1) := by
        have := r1.2
        rw [hone] at this
        refine RegionNet.transfer ?_ this
        intro i h1 h2
        rw [htail]
        exact getD_agree_prefix _ _ i h2
      have hglue := RegionNet.glue r1' r2
      have : d + 1 + (rest.length : Int) = d + ((a :: rest).length : Int) := by
        simp
        omega
      rwa [this] at hglue

theorem compileRev_args_region (l : List Node) (IH : ∀ s ∈ l, Pstack s) :
    ∀ (c c' : Ctx) (d : Int), compileRev l c = some c' → wfArgs l = true →
    RegionNet c'.instrs c.instrs.length c'.instrs.length d (d + l.length) := by
  induction l with
  | nil =>
    intro c c' d h _
    simp [compileRev] at h; subst h
    simpa using RegionNet.empty c.instrs c.instrs.length d
  | cons a rest ih =>
    intro c c' d h hwf
    simp only [wfArgs, Bool.and_eq_true] at hwf
    simp only [compileRev, Option.bind_eq_bind] at h
    cases ht : compileRev rest c with
    | none => rw [ht] at h; simp at h
    | some c1 =>
      rw [ht] at h; simp only [Option.some_bind] at h
      have r1 := ih (fun x hx => IH x (by simp [hx])) c c1 d ht hwf.2
      have r2 := IH a (by simp) c1 c' (d + rest.length) h hwf.1.1
      obtain ⟨t, htail⟩ := (compile_extends a c1 c' h).1
      have hone : nodeNet a = 1 := by simpa using hwf.1.2
      have r1' : RegionNet c'.instrs c.instrs.length c1.instrs.length d
          (d + rest.length) := by
        refine RegionNet.transfer ?_ r1
        intro i h1 h2
        rw [htail]
        exact getD_agree_prefix _ _ i h2
      have hglue := RegionNet.glue r1' (by rw [hone] at r2; exact r2.2)
      have : d + (rest.length : Int) + 1 = d + ((a :: rest).length : Int) := by
        simp
        omega
      rwa [this] at hglue

theorem getD_at_of_eq {code pre : List Instr} {x : Instr} {post : List Instr}
    (hcode : code = pre ++ x :: post) {i : Nat} (hi : i = pre.length) :
    code.getD i default = x := by
  subst hcode
  exact getD_at_append _ _ _ _ hi

/-- The depth labelling used for a compiled `If`: condition labelling up
to the `JUMP_IF_FALSE` at `p`, body labelling up to the `JUMP` at `q`,
entry depth `d` at the nil load `q + 1`, `d + 1` past it. -/
def ifLabel (Dc Db : Nat → Int) (p q : Nat) (d : Int) : Nat → Int :=
  fun i => if i ≤ p then Dc i else if i ≤ q then Db i
    else if i = q + 1 then d else d + 1

theorem Pstack_if (cnd b : Node) (ihc : Pstack cnd) (ihb : Pstack b) :
    Pstack (.ifNode cnd b) := by
  intro c c' d h hwf
  have hwfd : ((wf cnd && (nodeNet cnd == 1)) && (wf b && (nodeNet b == 1))) = true := hwf
  simp only [Bool.and_eq_true, beq_iff_eq] at hwfd
  obtain ⟨⟨hwc, hnc⟩, hwb, hnb⟩ := hwfd
  obtain ⟨c1, c3, Ic, Ib, hc, hIc, hb, hIb, hinstr, hconsts, hsym, hloc⟩ :=
    if_shape cnd b c c' h
  have rc := ihc c c1 d hc hwc
  have rb := ihb (emitI c1 .JUMP_IF_FALSE [0]) c3 d hb hwb
  have hlic : c1.instrs.length = c.instrs.length + Ic.length := by rw [hIc]; simp
  have hlenJ : (emitI c1 .JUMP_IF_FALSE [0]).instrs.length =
      c.instrs.length + Ic.length + 1 := by
    rw [emitI_instrs]; simp [hlic]
  have hlc3 : c3.instrs.length = c.instrs.length + Ic.length + 1 + Ib.length := by
    rw [hIb]; simp; omega
  have hib1 : 1 ≤ Ib.length := by
    have := rb.1
    omega
  have hlen' : c'.instrs.length = c.instrs.length + Ic.length + Ib.length + 3 := by
    rw [hinstr]; simp; omega
  have hJIFg : c'.instrs.getD (c.instrs.length + Ic.length) default =
      ⟨.JUMP_IF_FALSE, [c.instrs.length + Ic.length + Ib.length + 2]⟩ :=
    getD_at_of_eq
      (show c'.instrs = (c.instrs ++ Ic)
          ++ ⟨Op.JUMP_IF_FALSE, [c.instrs.length + Ic.length + Ib.length + 2]⟩
            :: (Ib ++ [⟨Op.JUMP, [c.instrs.length + Ic.length + Ib.length + 3]⟩,
                ⟨Op.LOAD_CONST, [c3.consts.length]⟩]) by rw [hinstr]; try simp)
      (by simp)
  have hJUMPg : c'.instrs.getD (c.instrs.length + Ic.length + 1 + Ib.length) default =
      ⟨.JUMP, [c.instrs.length + Ic.length + Ib.length + 3]⟩ :=
    getD_at_of_eq
      (show c'.instrs = (c.instrs ++ Ic
          ++ [⟨Op.JUMP_IF_FALSE, [c.instrs.length + Ic.length + Ib.length + 2]⟩] ++ Ib)
          ++ ⟨Op.JUMP, [c.instrs.length + Ic.length + Ib.length + 3]⟩
            :: [⟨Op.LOAD_CONST, [c3.consts.length]⟩] by rw [hinstr]; try simp)
      (by simp; try omega)
  have hLCg : c'.instrs.getD (c.instrs.length + Ic.length + 1 + Ib.length + 1) default =
      ⟨.LOAD_CONST, [c3.consts.length]⟩ :=
    getD_at_of_eq
      (show c'.instrs = (c.instrs ++ Ic
          ++ [⟨Op.JUMP_IF_FALSE, [c.instrs.length + Ic.length + Ib.length + 2]⟩] ++ Ib
          ++ [⟨Op.JUMP, [c.instrs.length + Ic.length + Ib.length + 3]⟩])
          ++ ⟨Op.LOAD_CONST, [c3.consts.length]⟩ :: [] by rw [hinstr]; try simp)
      (by simp; try omega)
  have rc' : RegionNet c'.instrs c.instrs.length (c.instrs.length + Ic.length)
      d (d + 1) := by
    have hr := rc.2
    rw [hnc, hlic] at hr
    refine RegionNet.transfer ?_ hr
    intro i h1 h2
    have hform : c'.instrs = c1.instrs
        ++ ([⟨Op.JUMP_IF_FALSE, [c.instrs.length + Ic.length + Ib.length + 2]⟩] ++ Ib
          ++ [⟨Op.JUMP, [c.instrs.length + Ic.length + Ib.length + 3]⟩,
              ⟨Op.LOAD_CONST, [c3.consts.length]⟩]) := by
      rw [hinstr, hIc]; simp
    rw [hform]
    exact getD_agree_prefix _ _ i (by omega)
  have rb' : RegionNet c'.instrs (c.instrs.length + Ic.length + 1)
      (c.instrs.length + Ic.length + 1 + Ib.length) d (d + 1) := by
    have hr := rb.2
    rw [hnb, hlenJ, hlc3] at hr
    refine RegionNet.transfer ?_ hr
    intro i h1 h2
    have hj : i - (c.instrs.length + Ic.length + 1) < Ib.length := by omega
    have e1 : c'.instrs.getD i default =
        Ib.getD (i - (c.instrs.length + Ic.length + 1)) default := by
      rw [hinstr,
        show c.instrs ++ Ic
            ++ [⟨Op.JUMP_IF_FALSE, [c.instrs.length + Ic.length + Ib.length + 2]⟩]
            ++ Ib ++ [⟨Op.JUMP, [c.instrs.length + Ic.length + Ib.length + 3]⟩,
                      ⟨Op.LOAD_CONST, [c3.consts.length]⟩] =
          (c.instrs ++ Ic
            ++ [⟨Op.JUMP_IF_FALSE, [c.instrs.length + Ic.length + Ib.length + 2]⟩])
            ++ (Ib ++ [⟨Op.JUMP, [c.instrs.length + Ic.length + Ib.length + 3]⟩,
                      ⟨Op.LOAD_CONST, [c3.consts.length]⟩]) from by simp]
      rw [getD_append_ge _ _ _ _ (by simp; omega)]
      rw [show i - (c.instrs ++ Ic
          ++ ([⟨Op.JUMP_IF_FALSE, [c.instrs.length + Ic.length + Ib.length + 2]⟩] :
            List Instr)).length =
        i - (c.instrs.length + Ic.length + 1) from by simp; omega]
      exact getD_append_lt _ _ _ _ hj
    have e2 : c3.instrs.getD i default =
        Ib.getD (i - (c.instrs.length + Ic.length + 1)) default := by
      rw [hIb,
        show c.instrs ++ Ic ++ [⟨Op.JUMP_IF_FALSE, [0]⟩] ++ Ib =
          (c.instrs ++ Ic ++ [⟨Op.JUMP_IF_FALSE, [0]⟩]) ++ Ib from by simp]
      rw [getD_append_ge _ _ _ _ (by simp; omega)]
      rw [show i - (c.instrs ++ Ic ++ ([⟨Op.JUMP_IF_FALSE, [0]⟩] : List Instr)).length =
        i - (c.instrs.length + Ic.length + 1) from by simp; omega]
    rw [e1, e2]
  obtain ⟨_, tc, Dc, hDc, hca, hcp⟩ := rc'
  obtain ⟨_, tb, Db, hDb, hbp1, hbq⟩ := rb'
  refine ⟨by omega, by omega, ?_, ?_⟩
  · intro i h1 h2 t ht
    rcases Nat.lt_or_ge i (c.instrs.length + Ic.length) with him | him
    · have := tc i h1 him t ht
      exact ⟨this.1, by omega⟩
    · rcases Nat.eq_or_lt_of_le him with him' | him'
      · rw [← him', hJIFg] at ht
        simp [jumpTargets] at ht
        omega
      · rcases Nat.lt_or_ge i (c.instrs.length + Ic.length + 1 + Ib.length) with hiq | hiq
        · have := tb i (by omega) hiq t ht
          exact ⟨by omega, by omega⟩
        · rcases Nat.eq_or_lt_of_le hiq with hiq' | hiq'
          · rw [← hiq', hJUMPg] at ht
            simp [jumpTargets] at ht
            omega
          · have hieq : i = c.instrs.length + Ic.length + 1 + Ib.length + 1 := by omega
            rw [hieq, hLCg] at ht
            simp [jumpTargets] at ht
  · refine ⟨ifLabel Dc Db (c.instrs.length + Ic.length)
      (c.instrs.length + Ic.length + 1 + Ib.length) d, ?_, ?_, ?_⟩
    case _ =>
      have hv_c : ∀ x, x ≤ c.instrs.length + Ic.length →
          ifLabel Dc Db (c.instrs.length + Ic.length)
            (c.instrs.length + Ic.length + 1 + Ib.length) d x = Dc x := by
        intro x hx
        simp only [ifLabel]
        rw [if_pos hx]
      have hv_b : ∀ x, c.instrs.length + Ic.length < x →
          x ≤ c.instrs.length + Ic.length + 1 + Ib.length →
          ifLabel Dc Db (c.instrs.length + Ic.length)
            (c.instrs.length + Ic.length + 1 + Ib.length) d x = Db x := by
        intro x hx1 hx2
        simp only [ifLabel]
        rw [if_neg (by omega), if_pos hx2]
      have hv_nil : ifLabel Dc Db (c.instrs.length + Ic.length)
          (c.instrs.length + Ic.length + 1 + Ib.length) d
          (c.instrs.length + Ic.length + 1 + Ib.length + 1) = d := by
        simp only [ifLabel]
        rw [if_neg (by omega), if_neg (by omega)]
        simp
      have hv_end : ∀ x, c.instrs.length + Ic.length + 1 + Ib.length + 1 < x →
          ifLabel Dc Db (c.instrs.length + Ic.length)
            (c.instrs.length + Ic.length + 1 + Ib.length) d x = d + 1 := by
        intro x hx
        simp only [ifLabel]
        rw [if_neg (by omega), if_neg (by omega), if_neg (by omega)]
      intro i h1 h2
      rcases Nat.lt_or_ge i (c.instrs.length + Ic.length) with him | him
      · refine instrConstraint_agree _ Dc _ i (hv_c i (by omega))
          (hv_c (i + 1) (by omega)) ?_ (hDc i h1 him)
        intro t ht
        have := tc i h1 him t ht
        exact hv_c t (by omega)
      · rcases Nat.eq_or_lt_of_le him with him' | him'
        · have hieq : i = c.instrs.length + Ic.length := him'.symm
          subst hieq
          rw [hJIFg]
          simp only [instrConstraint]
          constructor
          · have e1 : ifLabel Dc Db (c.instrs.length + Ic.length)
                (c.instrs.length + Ic.length + 1 + Ib.length) d
                (c.instrs.length + Ic.length + Ib.length + 2) = d := by
              rw [show c.instrs.length + Ic.length + Ib.length + 2 =
                c.instrs.length + Ic.length + 1 + Ib.length + 1 from by omega]
              exact hv_nil
            have e2 : ifLabel Dc Db (c.instrs.length + Ic.length)
                (c.instrs.length + Ic.length + 1 + Ib.length) d
                (c.instrs.length + Ic.length) = d + 1 := by
              rw [hv_c _ (Nat.le_refl _), hcp]
            rw [e1, e2]
            omega
          · have e3 : ifLabel Dc Db (c.instrs.length + Ic.length)
                (c.instrs.length + Ic.length + 1 + Ib.length) d
                (c.instrs.length + Ic.length + 1) = d := by
              rw [hv_b _ (by omega) (by omega), hbp1]
            have e2 : ifLabel Dc Db (c.instrs.length + Ic.length)
                (c.instrs.length + Ic.length + 1 + Ib.length) d
                (c.instrs.length + Ic.length) = d + 1 := by
              rw [hv_c _ (Nat.le_refl _), hcp]
            rw [e3, e2]
            omega
        · rcases Nat.lt_or_ge i (c.instrs.length + Ic.length + 1 + Ib.length) with hiq | hiq
          · refine instrConstraint_agree _ Db _ i (hv_b i (by omega) (by omega))
              (hv_b (i + 1) (by omega) (by omega)) ?_ (hDb i (by omega) hiq)
            intro t ht
            have := tb i (by omega) hiq t ht
            exact hv_b t (by omega) (by omega)
          · rcases Nat.eq_or_lt_of_le hiq with hiq' | hiq'
            · have hieq : i = c.instrs.length + Ic.length + 1 + Ib.length := hiq'.symm
              subst hieq
              rw [hJUMPg]
              simp only [instrConstraint]
              have e4 : ifLabel Dc Db (c.instrs.length + Ic.length)
                  (c.instrs.length + Ic.length + 1 + Ib.length) d
                  (c.instrs.length + Ic.length + Ib.length + 3) = d + 1 := by
                exact hv_end _ (by omega)
              have e5 : ifLabel Dc Db (c.instrs.length + Ic.length)
                  (c.instrs.length + Ic.length + 1 + Ib.length) d
                  (c.instrs.length + Ic.length + 1 + Ib.length) = d + 1 := by
                rw [hv_b _ (by omega) (Nat.le_refl _), hbq]
              rw [e4, e5]
            · have hieq : i = c.instrs.length + Ic.length + 1 + Ib.length + 1 := by omega
              subst hieq
              rw [hLCg]
              simp only [instrConstraint]
              rw [hv_end _ (by omega), hv_nil]
              simp [stackEffect]
    case _ =>
      simp only [ifLabel]
      rw [if_pos (by omega)]
      exact hca
    case _ =>
      rw [hlen']
      simp only [ifLabel]
      rw [if_neg (by omega), if_neg (by omega), if_neg (by omega)]
      simp [nodeNet]

/-- The depth labelling used for a compiled `While`: condition labelling
up to the `JUMP_IF_FALSE` at `p`, body labelling up to the `DISCARD_TOP`
at `q0`, entry depth `d` at the back-`JUMP` and at the nil load, `d + 1`
past the nil load. -/
def whileLabel (Dc Db : Nat → Int) (p q0 : Nat) (d : Int) : Nat → Int :=
  fun i => if i ≤ p then Dc i else if i ≤ q0 then Db i
    else if i = q0 + 1 then d else if i = q0 + 2 then d else d + 1

theorem Pstack_while (cnd b : Node) (ihc : Pstack cnd) (ihb : Pstack b) :
    Pstack (.whileNode cnd b) := by
  intro c c' d h hwf
  have hwfd : ((wf cnd && (nodeNet cnd == 1)) && (wf b && (nodeNet b == 1))) = true := hwf
  simp only [Bool.and_eq_true, beq_iff_eq] at hwfd
  obtain ⟨⟨hwc, hnc⟩, hwb, hnb⟩ := hwfd
  obtain ⟨c1, c3, Ic, Ib, hc, hIc, hb, hIb, hinstr, hconsts, hsym, hloc⟩ :=
    while_shape cnd b c c' h
  have rc := ihc c c1 d hc hwc
  have rb := ihb (emitI c1 .JUMP_IF_FALSE [0]) c3 d hb hwb
  have hlic : c1.instrs.length = c.instrs.length + Ic.length := by rw [hIc]; simp
  have hlenJ : (emitI c1 .JUMP_IF_FALSE [0]).instrs.length =
      c.instrs.length + Ic.length + 1 := by
    rw [emitI_instrs]; simp [hlic]
  have hlc3 : c3.instrs.length = c.instrs.length + Ic.length + 1 + Ib.length := by
    rw [hIb]; simp; omega
  have hib1 : 1 ≤ Ib.length := by
    have := rb.1
    omega
  have hlen' : c'.instrs.length = c.instrs.length + Ic.length + Ib.length + 4 := by
    rw [hinstr]; simp; omega
  have hJIFg : c'.instrs.getD (c.instrs.length + Ic.length) default =
      ⟨.JUMP_IF_FALSE, [c.instrs.length + Ic.length + Ib.length + 3]⟩ :=
    getD_at_of_eq
      (show c'.instrs = (c.instrs ++ Ic)
          ++ ⟨Op.JUMP_IF_FALSE, [c.instrs.length + Ic.length + Ib.length + 3]⟩
            :: (Ib ++ [⟨Op.DISCARD_TOP, []⟩, ⟨Op.JUMP, [c.instrs.length]⟩,
                ⟨Op.LOAD_CONST, [c3.consts.length]⟩]) by rw [hinstr]; try simp)
      (by simp)
  have hDISCg : c'.instrs.getD (c.instrs.length + Ic.length + 1 + Ib.length) default =
      ⟨.DISCARD_TOP, []⟩ :=
    getD_at_of_eq
      (show c'.instrs = (c.instrs ++ Ic
          ++ [⟨Op.JUMP_IF_FALSE, [c.instrs.length + Ic.length + Ib.length + 3]⟩] ++ Ib)
          ++ ⟨Op.DISCARD_TOP, []⟩ :: [⟨Op.JUMP, [c.instrs.length]⟩,
              ⟨Op.LOAD_CONST, [c3.consts.length]⟩] by rw [hinstr]; try simp)
      (by simp; try omega)
  have hJUMPg : c'.instrs.getD (c.instrs.length + Ic.length + 1 + Ib.length + 1) default =
      ⟨.JUMP, [c.instrs.length]⟩ :=
    getD_at_of_eq
      (show c'.instrs = (c.instrs ++ Ic
          ++ [⟨Op.JUMP_IF_FALSE, [c.instrs.length + Ic.length + Ib.length + 3]⟩] ++ Ib
          ++ [⟨Op.DISCARD_TOP, []⟩])
          ++ ⟨Op.JUMP, [c.instrs.length]⟩
            :: [⟨Op.LOAD_CONST, [c3.consts.length]⟩] by rw [hinstr]; try simp)
      (by simp; try omega)
  have hLCg : c'.instrs.getD (c.instrs.length + Ic.length + 1 + Ib.length + 2) default =
      ⟨.LOAD_CONST, [c3.consts.length]⟩ :=
    getD_at_of_eq
      (show c'.instrs = (c.instrs ++ Ic
          ++ [⟨Op.JUMP_IF_FALSE, [c.instrs.length + Ic.length + Ib.length + 3]⟩] ++ Ib
          ++ [⟨Op.DISCARD_TOP, []⟩] ++ [⟨Op.JUMP, [c.instrs.length]⟩])
          ++ ⟨Op.LOAD_CONST, [c3.consts.length]⟩ :: [] by rw [hinstr]; try simp)
      (by simp; try omega)
  have rc' : RegionNet c'.instrs c.instrs.length (c.instrs.length + Ic.length)
      d (d + 1) := by
    have hr := rc.2
    rw [hnc, hlic] at hr
    refine RegionNet.transfer ?_ hr
    intro i h1 h2
    have hform : c'.instrs = c1.instrs
        ++ ([⟨Op.JUMP_IF_FALSE, [c.instrs.length + Ic.length + Ib.length + 3]⟩] ++ Ib
          ++ [⟨Op.DISCARD_TOP, []⟩, ⟨Op.JUMP, [c.instrs.length]⟩,
              ⟨Op.LOAD_CONST, [c3.consts.length]⟩]) := by
      rw [hinstr, hIc]; simp
    rw [hform]
    exact getD_agree_prefix _ _ i (by omega)
  have rb' : RegionNet c'.instrs (c.instrs.length + Ic.length + 1)
      (c.instrs.length + Ic.length + 1 + Ib.length) d (d + 1) := by
    have hr := rb.2
    rw [hnb, hlenJ, hlc3] at hr
    refine RegionNet.transfer ?_ hr
    intro i h1 h2
    have hj : i - (c.instrs.length + Ic.length + 1) < Ib.length := by omega
    have e1 : c'.instrs.getD i default =
        Ib.getD (i - (c.instrs.length + Ic.length + 1)) default := by
      rw [hinstr,
        show c.instrs ++ Ic
            ++ [⟨Op.JUMP_IF_FALSE, [c.instrs.length + Ic.length + Ib.length + 3]⟩]
            ++ Ib ++ [⟨Op.DISCARD_TOP, []⟩, ⟨Op.JUMP, [c.instrs.length]⟩,
                      ⟨Op.LOAD_CONST, [c3.consts.length]⟩] =
          (c.instrs ++ Ic
            ++ [⟨Op.JUMP_IF_FALSE, [c.instrs.length + Ic.length + Ib.length + 3]⟩])
            ++ (Ib ++ [⟨Op.DISCARD_TOP, []⟩, ⟨Op.JUMP, [c.instrs.length]⟩,
                      ⟨Op.LOAD_CONST, [c3.consts.length]⟩]) from by simp]
      rw [getD_append_ge _ _ _ _ (by simp; omega)]
      rw [show i - (c.instrs ++ Ic
          ++ ([⟨Op.JUMP_IF_FALSE, [c.instrs.length + Ic.length + Ib.length + 3]⟩] :
            List Instr)).length =
        i - (c.instrs.length + Ic.length + 1) from by simp; omega]
      exact getD_append_lt _ _ _ _ hj
    have e2 : c3.instrs.getD i default =
        Ib.getD (i - (c.instrs.length + Ic.length + 1)) default := by
      rw [hIb,
        show c.instrs ++ Ic ++ [⟨Op.JUMP_IF_FALSE, [0]⟩] ++ Ib =
          (c.instrs ++ Ic ++ [⟨Op.JUMP_IF_FALSE, [0]⟩]) ++ Ib from by simp]
      rw [getD_append_ge _ _ _ _ (by simp; omega)]
      rw [show i - (c.instrs ++ Ic ++ ([⟨Op.JUMP_IF_FALSE, [0]⟩] : List Instr)).length =
        i - (c.instrs.length + Ic.length + 1) from by simp; omega]
    rw [e1, e2]
  obtain ⟨_, tc, Dc, hDc, hca, hcp⟩ := rc'
  obtain ⟨_, tb, Db, hDb, hbp1, hbq⟩ := rb'
  refine ⟨by omega, by omega, ?_, ?_⟩
  · intro i h1 h2 t ht
    rcases Nat.lt_or_ge i (c.instrs.length + Ic.length) with him | him
    · have := tc i h1 him t ht
      exact ⟨this.1, by omega⟩
    · rcases Nat.eq_or_lt_of_le him with him' | him'
      · rw [← him', hJIFg] at ht
        simp [jumpTargets] at ht
        omega
      · rcases Nat.lt_or_ge i (c.instrs.length + Ic.length + 1 + Ib.length) with hiq | hiq
        · have := tb i (by omega) hiq t ht
          exact ⟨by omega, by omega⟩
        · rcases Nat.eq_or_lt_of_le hiq with hiq' | hiq'
          · rw [← hiq', hDISCg] at ht
            simp [jumpTargets] at ht
          · rcases Nat.eq_or_lt_of_le (show c.instrs.length + Ic.length + 1 + Ib.length + 1 ≤ i
              from by omega) with hiq2 | hiq2
            · rw [← hiq2, hJUMPg] at ht
              simp [jumpTargets] at ht
              omega
            · have hieq : i = c.instrs.length + Ic.length + 1 + Ib.length + 2 := by omega
              rw [hieq, hLCg] at ht
              simp [jumpTargets] at ht
  · refine ⟨whileLabel Dc Db (c.instrs.length + Ic.length)
      (c.instrs.length + Ic.length + 1 + Ib.length) d, ?_, ?_, ?_⟩
    case _ =>
      have hv_c : ∀ x, x ≤ c.instrs.length + Ic.length →
          whileLabel Dc Db (c.instrs.length + Ic.length)
            (c.instrs.length + Ic.length + 1 + Ib.length) d x = Dc x := by
        intro x hx
        simp only [whileLabel]
        rw [if_pos hx]
      have hv_b : ∀ x, c.instrs.length + Ic.length < x →
          x ≤ c.instrs.length + Ic.length + 1 + Ib.length →
          whileLabel Dc Db (c.instrs.length + Ic.length)
            (c.instrs.length + Ic.length + 1 + Ib.length) d x = Db x := by
        intro x hx1 hx2
        simp only [whileLabel]
        rw [if_neg (by omega), if_pos hx2]
      have hv_j : whileLabel Dc Db (c.instrs.length + Ic.length)
          (c.instrs.length + Ic.length + 1 + Ib.length) d
          (c.instrs.length + Ic.length + 1 + Ib.length + 1) = d := by
        simp only [whileLabel]
        rw [if_neg (by omega), if_neg (by omega)]
        simp
      have hv_nil : whileLabel Dc Db (c.instrs.length + Ic.length)
          (c.instrs.length + Ic.length + 1 + Ib.length) d
          (c.instrs.length + Ic.length + 1 + Ib.length + 2) = d := by
        simp only [whileLabel]
        rw [if_neg (by omega), if_neg (by omega), if_neg (by omega)]
        simp
      have hv_end : ∀ x, c.instrs.length + Ic.length + 1 + Ib.length + 2 < x →
          whileLabel Dc Db (c.instrs.length + Ic.length)
            (c.instrs.length + Ic.length + 1 + Ib.length) d x = d + 1 := by
        intro x hx
        simp only [whileLabel]
        rw [if_neg (by omega), if_neg (by omega), if_neg (by omega), if_neg (by omega)]
      intro i h1 h2
      rcases Nat.lt_or_ge i (c.instrs.length + Ic.length) with him | him
      · refine instrConstraint_agree _ Dc _ i (hv_c i (by omega))
          (hv_c (i + 1) (by omega)) ?_ (hDc i h1 him)
        intro t ht
        have := tc i h1 him t ht
        exact hv_c t (by omega)
      · rcases Nat.eq_or_lt_of_le him with him' | him'
        · have hieq : i = c.instrs.length + Ic.length := him'.symm
          subst hieq
          rw [hJIFg]
          simp only [instrConstraint]
          constructor
          · have e1 : whileLabel Dc Db (c.instrs.length + Ic.length)
                (c.instrs.length + Ic.length + 1 + Ib.length) d
                (c.instrs.length + Ic.length + Ib.length + 3) = d := by
              rw [show c.instrs.length + Ic.length + Ib.length + 3 =
                c.instrs.length + Ic.length + 1 + Ib.length + 2 from by omega]
              exact hv_nil
            have e2 : whileLabel Dc Db (c.instrs.length + Ic.length)
                (c.instrs.length + Ic.length + 1 + Ib.length) d
                (c.instrs.length + Ic.length) = d + 1 := by
              rw [hv_c _ (Nat.le_refl _), hcp]
            rw [e1, e2]
            omega
          · have e3 : whileLabel Dc Db (c.instrs.length + Ic.length)
                (c.instrs.length + Ic.length + 1 + Ib.length) d
                (c.instrs.length + Ic.length + 1) = d := by
              rw [hv_b _ (by omega) (by omega), hbp1]
            have e2 : whileLabel Dc Db (c.instrs.length + Ic.length)
                (c.instrs.length + Ic.length + 1 + Ib.length) d
                (c.instrs.length + Ic.length) = d + 1 := by
              rw [hv_c _ (Nat.le_refl _), hcp]
            rw [e3, e2]
            omega
        · rcases Nat.lt_or_ge i (c.instrs.length + Ic.length + 1 + Ib.length) with hiq | hiq
          · refine instrConstraint_agree _ Db _ i (hv_b i (by omega) (by omega))
              (hv_b (i + 1) (by omega) (by omega)) ?_ (hDb i (by omega) hiq)
            intro t ht
            have := tb i (by omega) hiq t ht
            exact hv_b t (by omega) (by omega)
          · rcases Nat.eq_or_lt_of_le hiq with hiq' | hiq'
            · have hieq : i = c.instrs.length + Ic.length + 1 + Ib.length := hiq'.symm
              subst hieq
              rw [hDISCg]
              simp only [instrConstraint]
              rw [hv_j, hv_b _ (by omega) (Nat.le_refl _), hbq]
              simp [stackEffect]
            · rcases Nat.eq_or_lt_of_le (show c.instrs.length + Ic.length + 1 + Ib.length + 1 ≤ i
                from by omega) with hiq2 | hiq2
              · have hieq : i = c.instrs.length + Ic.length + 1 + Ib.length + 1 := hiq2.symm
                subst hieq
                rw [hJUMPg]
                simp only [instrConstraint]
                rw [hv_j, hv_c _ (by omega), hca]
              · have hieq : i = c.instrs.length + Ic.length + 1 + Ib.length + 2 := by omega
                subst hieq
                rw [hLCg]
                simp only [instrConstraint]
                rw [hv_end _ (by omega), hv_nil]
                simp [stackEffect]
    case _ =>
      simp only [whileLabel]
      rw [if_pos (by omega)]
      exact hca
    case _ =>
      rw [hlen']
      simp only [whileLabel]
      rw [show c.instrs.length + Ic.length + Ib.length + 4 =
        c.instrs.length + Ic.length + 1 + Ib.length + 3 from by omega]
      rw [if_neg (by omega), if_neg (by omega), if_neg (by omega), if_neg (by omega)]
      simp [nodeNet]

theorem createLocal_instrs (c : Ctx) (s : String) :
    (createLocal c s).1.instrs = c.instrs := by
  unfold createLocal
  split <;> rfl

/-- Append a straight-line run of instructions to a region; the exit depth
moves by the sum of their effects. -/
theorem RegionNet.snoc_list {code : List Instr} {a : Nat} {d : Int} :
    ∀ (tail base rest : List Instr) (e : Int), code = base ++ tail ++ rest →
    RegionNet code a base.length d e → tail.all plainInstr = true →
    RegionNet code a (base.length + tail.length) d
      (e + ((tail.map stackEffect).sum)) := by
  intro tail
  induction tail with
  | nil => intro base rest e hcode h _; simpa using h
  | cons x rest' ih =>
    intro base rest e hcode h hall
    simp only [List.all_cons, Bool.and_eq_true] at hall
    have hx : code.getD base.length default = x :=
      getD_at_of_eq (show code = base ++ x :: (rest' ++ rest) by rw [hcode]; simp) rfl
    have h1 := h.snoc_plain hx hall.1
    have h2 := ih (base ++ [x]) rest (e + stackEffect x)
      (by rw [hcode]; simp) (by simpa using h1) hall.2
    have harith : (base ++ [x]).length + rest'.length = base.length + (x :: rest').length := by
      simp; omega
    have hsum : e + stackEffect x + ((rest'.map stackEffect).sum) =
        e + (((x :: rest').map stackEffect).sum) := by
      simp
      ring
    rw [harith, hsum] at h2
    exact h2

/-- The symbol table update of `create_symbol_const` never touches the
instruction stream. -/
theorem createSymbolConst_instrs (c : Ctx) (s : String) :
    (createSymbolConst c s).1.instrs = c.instrs :=
  (createSymbolConst_spec c s).2.1

/-- The length and depth region of a lone `LOAD_CONST` of a fresh
constant, shared by the literal-keyword branches of `Variable.compile`
and by `ConstantInt.compile`. -/
theorem Pstack_load_const (c : Ctx) (v : Const) (d : Int) :
    (emitI (createConst c v).1 Op.LOAD_CONST [(createConst c v).2]).instrs.length =
      c.instrs.length + 1 ∧
    RegionNet (emitI (createConst c v).1 Op.LOAD_CONST [(createConst c v).2]).instrs
      c.instrs.length (c.instrs.length + 1) d (d + 1) := by
  have hshape : (emitI (createConst c v).1 Op.LOAD_CONST
      [(createConst c v).2]).instrs =
      c.instrs ++ [⟨.LOAD_CONST, [(createConst c v).2]⟩] := by
    rw [emitI_instrs, createConst_fst_instrs]
  have r2 := (RegionNet.empty (emitI (createConst c v).1 Op.LOAD_CONST
      [(createConst c v).2]).instrs c.instrs.length d).snoc_list
    [⟨.LOAD_CONST, [(createConst c v).2]⟩] c.instrs [] d
    (hshape.trans (by simp)) (by rfl)
  have harith : d + (([⟨Op.LOAD_CONST,
      [(createConst c v).2]⟩].map stackEffect).sum) = d + 1 := by
    simp [stackEffect]
  rw [harith] at r2
  exact ⟨by rw [hshape]; simp, by simpa using r2⟩


/-- Closing a region with a straight-line suffix that runs to the end of
the code: the exit depth moves by the suffix's summed effect. -/
theorem RegionNet.append_plain {code base tail : List Instr} {a : Nat} {d e f : Int}
    (hcode : code = base ++ tail)
    (h : RegionNet code a base.length d e)
    (hall : tail.all plainInstr = true)
    (hsum : e + ((tail.map stackEffect).sum) = f) :
    RegionNet code a code.length d f := by
  subst hcode hsum
  have r := h.snoc_list tail base [] e (by simp) hall
  have hl : (base ++ tail).length = base.length + tail.length := by simp
  rw [hl]
  exact r

/-- Claim C1, node by node: whenever `compile` succeeds, the instructions
it appended carry a consistent depth labelling whose net is `nodeNet`. -/
theorem Pstack_all : ∀ n, Pstack n := by
  intro n
  induction n using Node.inductionOn with
  | hmain b ih =>
    intro c c' d h hwf
    have hwfd : (wf b && (nodeNet b == 1)) = true := hwf
    simp only [Bool.and_eq_true, beq_iff_eq] at hwfd
    simp only [compile, Option.bind_eq_bind] at h
    cases hb : compile b c with
    | none => rw [hb] at h; simp at h
    | some c1 =>
      rw [hb] at h; simp at h; subst h
      have r1 := ih c c1 d hb hwfd.1
      have hshape : (emitI (emitI (createConst (emitI c1 Op.DISCARD_TOP []) Const.wTrue).1
          Op.LOAD_CONST [(createConst (emitI c1 Op.DISCARD_TOP []) Const.wTrue).2])
          Op.RETURN []).instrs =
          c1.instrs ++ [⟨.DISCARD_TOP, []⟩,
            ⟨.LOAD_CONST, [(createConst (emitI c1 Op.DISCARD_TOP []) Const.wTrue).2]⟩,
            ⟨.RETURN, []⟩] := by
        rw [emitI_instrs, emitI_instrs, createConst_fst_instrs, emitI_instrs]
        simp
      have r1' := RegionNet.extend_code [⟨.DISCARD_TOP, []⟩,
          ⟨.LOAD_CONST, [(createConst (emitI c1 Op.DISCARD_TOP []) Const.wTrue).2]⟩,
          ⟨.RETURN, []⟩] r1.2 (Nat.le_refl _)
      rw [← hshape] at r1'
      rw [hwfd.2] at r1'
      have r2 := r1'.snoc_list [⟨.DISCARD_TOP, []⟩,
          ⟨.LOAD_CONST, [(createConst (emitI c1 Op.DISCARD_TOP []) Const.wTrue).2]⟩]
        c1.instrs [⟨.RETURN, []⟩] (d + 1)
        (by rw [hshape]; simp) (by rfl)
      have hret : (emitI (emitI (createConst (emitI c1 Op.DISCARD_TOP []) Const.wTrue).1
          Op.LOAD_CONST [(createConst (emitI c1 Op.DISCARD_TOP []) Const.wTrue).2])
          Op.RETURN []).instrs.getD (c1.instrs.length + 2) default = ⟨.RETURN, []⟩ :=
        getD_at_of_eq (show _ = (c1.instrs ++ [⟨Op.DISCARD_TOP, []⟩,
            ⟨Op.LOAD_CONST, [(createConst (emitI c1 Op.DISCARD_TOP []) Const.wTrue).2]⟩])
            ++ ⟨Op.RETURN, []⟩ :: [] by rw [hshape]; simp) (by simp)
      have r3 := (by simpa using r2 : RegionNet _ c.instrs.length (c1.instrs.length + 2) d
        (d + 1 + (stackEffect ⟨.DISCARD_TOP, []⟩ + (stackEffect
          ⟨.LOAD_CONST, [(createConst (emitI c1 Op.DISCARD_TOP []) Const.wTrue).2]⟩ + 0)))
        ).snoc_ret hret (d + 1)
      have hlen : (emitI (emitI (createConst (emitI c1 Op.DISCARD_TOP []) Const.wTrue).1
          Op.LOAD_CONST [(createConst (emitI c1 Op.DISCARD_TOP []) Const.wTrue).2])
          Op.RETURN []).instrs.length = c1.instrs.length + 3 := by
        rw [hshape]; simp
      refine ⟨by rw [hlen]; omega, ?_⟩
      rw [hlen, show nodeNet (Node.main b) = 1 from rfl]
      have : c1.instrs.length + 2 + 1 = c1.instrs.length + 3 := by omega
      rw [this] at r3
      exact r3
  | hblock stmts ih =>
    intro c c' d h hwf
    have h2 := compileList_stmts_region stmts ih c c' d h hwf
    refine ⟨h2.1, ?_⟩
    exact h2.2
  | hstatement e dp ih =>
    intro c c' d h hwf
    have hwfd : (wf e && (nodeNet e == 1)) = true := hwf
    simp only [Bool.and_eq_true, beq_iff_eq] at hwfd
    simp only [compile, Option.bind_eq_bind] at h
    cases he : compile e c with
    | none => rw [he] at h; simp at h
    | some c1 =>
      rw [he] at h
      have r1 := ih c c1 d he hwfd.1
      cases dp with
      | true =>
        simp at h; subst h
        refine ⟨r1.1, ?_⟩
        rw [show nodeNet (Node.statement e true) = 1 from rfl]
        rw [hwfd.2] at r1
        exact r1.2
      | false =>
        simp at h; subst h
        have hshape : (emitI c1 Op.DISCARD_TOP []).instrs =
            c1.instrs ++ [⟨.DISCARD_TOP, []⟩] := emitI_instrs ..
        have r1' := RegionNet.extend_code [⟨.DISCARD_TOP, []⟩] r1.2 (Nat.le_refl _)
        rw [← hshape] at r1'
        rw [hwfd.2] at r1'
        have r2 := r1'.snoc_list [⟨.DISCARD_TOP, []⟩] c1.instrs [] (d + 1)
          (by rw [hshape]; simp) (by rfl)
        have hlen : (emitI c1 Op.DISCARD_TOP []).instrs.length = c1.instrs.length + 1 := by
          rw [hshape]; simp
        refine ⟨by rw [hlen]; omega, ?_⟩
        rw [hlen, show nodeNet (Node.statement e false) = 0 from rfl]
        have harith : d + 1 + (([⟨Op.DISCARD_TOP, ([] : List Nat)⟩].map stackEffect).sum) =
            d + 0 := by
          simp [stackEffect]
        rw [harith] at r2
        exact r2
  | hassignment t v ih =>
    intro c c' d h hwf
    have hwfd : (wf v && (nodeNet v == 1)) = true := hwf
    simp only [Bool.and_eq_true, beq_iff_eq] at hwfd
    simp only [compile] at h
    cases ht : t.data with
    | nil => rw [ht] at h; simp at h
    | cons ch rest =>
      rw [ht] at h
      by_cases hu : ch.isUpper
      · simp only [hu, if_true, Option.bind_eq_bind] at h
        cases hv : compile v c with
        | none => rw [hv] at h; simp at h
        | some c1 =>
          rw [hv] at h; simp at h; subst h
          have r1 := ih c c1 d hv hwfd.1
          have hshape : (emitI (createSymbolConst c1 t).1 Op.STORE_CONSTANT
              [(createSymbolConst c1 t).2]).instrs =
              c1.instrs ++ [⟨.STORE_CONSTANT, [(createSymbolConst c1 t).2]⟩] := by
            rw [emitI_instrs, (createSymbolConst_spec c1 t).2.1]
          have r1' := RegionNet.extend_code
            [⟨.STORE_CONSTANT, [(createSymbolConst c1 t).2]⟩] r1.2 (Nat.le_refl _)
          rw [← hshape] at r1'
          rw [hwfd.2] at r1'
          have r2 := r1'.snoc_list [⟨.STORE_CONSTANT, [(createSymbolConst c1 t).2]⟩]
            c1.instrs [] (d + 1) (by rw [hshape]; simp) (by rfl)
          have hlen : (emitI (createSymbolConst c1 t).1 Op.STORE_CONSTANT
              [(createSymbolConst c1 t).2]).instrs.length = c1.instrs.length + 1 := by
            rw [hshape]; simp
          refine ⟨by rw [hlen]; omega, ?_⟩
          rw [hlen, show nodeNet (Node.assignment t v) = 1 from rfl]
          have harith : d + 1 + (([⟨Op.STORE_CONSTANT,
              [(createSymbolConst c1 t).2]⟩].map stackEffect).sum) = d + 1 := by
            simp [stackEffect]
          rw [harith] at r2
          exact r2
      · simp only [hu, if_false, Option.bind_eq_bind] at h
        cases hv : compile v (createLocal c t).1 with
        | none => rw [hv] at h; simp at h
        | some c1 =>
          rw [hv] at h; simp at h; subst h
          have r1 := ih (createLocal c t).1 c1 d hv hwfd.1
          rw [createLocal_instrs] at r1
          have hshape : (emitI c1 Op.STORE_LOCAL [(createLocal c t).2]).instrs =
              c1.instrs ++ [⟨.STORE_LOCAL, [(createLocal c t).2]⟩] := emitI_instrs ..
          have r1' := RegionNet.extend_code
            [⟨.STORE_LOCAL, [(createLocal c t).2]⟩] r1.2 (Nat.le_refl _)
          rw [← hshape] at r1'
          rw [hwfd.2] at r1'
          have r2 := r1'.snoc_list [⟨.STORE_LOCAL, [(createLocal c t).2]⟩]
            c1.instrs [] (d + 1) (by rw [hshape]; simp) (by rfl)
          have hlen : (emitI c1 Op.STORE_LOCAL [(createLocal c t).2]).instrs.length =
              c1.instrs.length + 1 := by
            rw [hshape]; simp
          refine ⟨by rw [hlen]; omega, ?_⟩
          rw [hlen, show nodeNet (Node.assignment t v) = 1 from rfl]
          have harith : d + 1 + (([⟨Op.STORE_LOCAL,
              [(createLocal c t).2]⟩].map stackEffect).sum) = d + 1 := by
            simp [stackEffect]
          rw [harith] at r2
          exact r2
  | hivasgn nm v ih =>
    intro c c' d h hwf
    have hwfd : (wf v && (nodeNet v == 1)) = true := hwf
    simp only [Bool.and_eq_true, beq_iff_eq] at hwfd
    simp only [compile, Option.bind_eq_bind] at h
    cases hv : compile v c with
    | none => rw [hv] at h; simp at h
    | some c1 =>
      rw [hv] at h; simp at h; subst h
      have r1 := ih c c1 d hv hwfd.1
      have hshape : (emitI (createSymbolConst (emitI c1 Op.LOAD_SELF []) nm).1
          Op.STORE_INSTANCE_VAR
          [(createSymbolConst (emitI c1 Op.LOAD_SELF []) nm).2]).instrs =
          c1.instrs ++ [⟨.LOAD_SELF, []⟩, ⟨.STORE_INSTANCE_VAR,
            [(createSymbolConst (emitI c1 Op.LOAD_SELF []) nm).2]⟩] := by
        rw [emitI_instrs, (createSymbolConst_spec _ nm).2.1, emitI_instrs]
        simp
      have r1' := RegionNet.extend_code [⟨.LOAD_SELF, []⟩, ⟨.STORE_INSTANCE_VAR,
          [(createSymbolConst (emitI c1 Op.LOAD_SELF []) nm).2]⟩] r1.2 (Nat.le_refl _)
      rw [← hshape] at r1'
      rw [hwfd.2] at r1'
      have r2 := r1'.snoc_list [⟨.LOAD_SELF, []⟩, ⟨.STORE_INSTANCE_VAR,
          [(createSymbolConst (emitI c1 Op.LOAD_SELF []) nm).2]⟩]
        c1.instrs [] (d + 1) (by rw [hshape]; simp) (by rfl)
      have hlen : (emitI (createSymbolConst (emitI c1 Op.LOAD_SELF []) nm).1
          Op.STORE_INSTANCE_VAR
          [(createSymbolConst (emitI c1 Op.LOAD_SELF []) nm).2]).instrs.length =
          c1.instrs.length + 2 := by
        rw [hshape]; simp
      refine ⟨by rw [hlen]; omega, ?_⟩
      rw [hlen, show nodeNet (Node.instanceVariableAssignment nm v) = 1 from rfl]
      have harith : d + 1 + (([⟨Op.LOAD_SELF, ([] : List Nat)⟩, ⟨Op.STORE_INSTANCE_VAR,
          [(createSymbolConst (emitI c1 Op.LOAD_SELF []) nm).2]⟩].map stackEffect).sum) =
          d + 1 := by
        simp [stackEffect]
      rw [harith] at r2
      simpa using r2
  | hif cnd b ihc ihb => exact Pstack_if cnd b ihc ihb
  | hwhile cnd b ihc ihb => exact Pstack_while cnd b ihc ihb
  | hret e ih =>
    intro c c' d h hwf
    have hwfd : (wf e && (nodeNet e == 1)) = true := hwf
    simp only [Bool.and_eq_true, beq_iff_eq] at hwfd
    simp only [compile, Option.bind_eq_bind] at h
    cases he : compile e c with
    | none => rw [he] at h; simp at h
    | some c1 =>
      rw [he] at h; simp at h; subst h
      have r1 := ih c c1 d he hwfd.1
      have hshape : (emitI c1 Op.RETURN []).instrs =
          c1.instrs ++ [⟨.RETURN, []⟩] := emitI_instrs ..
      have r1' := RegionNet.extend_code [⟨.RETURN, []⟩] r1.2 (Nat.le_refl _)
      rw [← hshape] at r1'
      rw [hwfd.2] at r1'
      have hret : (emitI c1 Op.RETURN []).instrs.getD c1.instrs.length default =
          ⟨.RETURN, []⟩ :=
        getD_at_of_eq (show _ = c1.instrs ++ ⟨Op.RETURN, []⟩ :: [] by rw [hshape]) rfl
      have r2 := r1'.snoc_ret hret (d + 1)
      have hlen : (emitI c1 Op.RETURN []).instrs.length = c1.instrs.length + 1 := by
        rw [hshape]; simp
      refine ⟨by rw [hlen]; omega, ?_⟩
      rw [hlen, show nodeNet (Node.ret e) = 1 from rfl]
      exact r2
  | hself =>
    intro c c' d h hwf
    simp only [compile, Option.some.injEq] at h; subst h
    have hshape : (emitI c Op.LOAD_SELF []).instrs =
        c.instrs ++ [⟨.LOAD_SELF, []⟩] := emitI_instrs ..
    have r2 := (RegionNet.empty (emitI c Op.LOAD_SELF []).instrs c.instrs.length d).snoc_list
      [⟨.LOAD_SELF, []⟩] c.instrs [] d (by rw [hshape]; simp) (by rfl)
    have hlen : (emitI c Op.LOAD_SELF []).instrs.length = c.instrs.length + 1 := by
      rw [hshape]; simp
    refine ⟨by rw [hlen]; omega, ?_⟩
    rw [hlen, show nodeNet Node.self = 1 from rfl]
    have harith : d + (([⟨Op.LOAD_SELF, ([] : List Nat)⟩].map stackEffect).sum) = d + 1 := by
      simp [stackEffect]
    rw [harith] at r2
    exact r2
  | hint n =>
    intro c c' d h hwf
    simp only [compile] at h; simp at h; subst h
    have hshape : (emitI (createConst c (Const.int n)).1 Op.LOAD_CONST
        [(createConst c (Const.int n)).2]).instrs =
        c.instrs ++ [⟨.LOAD_CONST, [(createConst c (Const.int n)).2]⟩] := by
      rw [emitI_instrs, createConst_fst_instrs]
    have r2 := (RegionNet.empty _ c.instrs.length d).snoc_list
      [⟨.LOAD_CONST, [(createConst c (Const.int n)).2]⟩] c.instrs [] d
      (hshape.trans (by simp)) (by rfl)
    have hlen : (emitI (createConst c (Const.int n)).1 Op.LOAD_CONST
        [(createConst c (Const.int n)).2]).instrs.length = c.instrs.length + 1 := by
      rw [hshape]; simp
    refine ⟨by rw [hlen]; omega, ?_⟩
    rw [hlen, show nodeNet (Node.constantInt n) = 1 from rfl]
    have harith : d + (([⟨Op.LOAD_CONST,
        [(createConst c (Const.int n)).2]⟩].map stackEffect).sum) = d + 1 := by
      simp [stackEffect]
    rw [harith] at r2
    exact r2
  | hstr sv =>
    intro c c' d h hwf
    simp only [compile] at h; simp at h; subst h
    have hshape : (emitI (emitI (createConst c (Const.str sv)).1 Op.LOAD_CONST
        [(createConst c (Const.str sv)).2]) Op.COPY_STRING []).instrs =
        c.instrs ++ [⟨.LOAD_CONST, [(createConst c (Const.str sv)).2]⟩,
          ⟨.COPY_STRING, []⟩] := by
      rw [emitI_instrs, emitI_instrs, createConst_fst_instrs]
      simp
    have r2 := (RegionNet.empty _ c.instrs.length d).snoc_list
      [⟨.LOAD_CONST, [(createConst c (Const.str sv)).2]⟩, ⟨.COPY_STRING, []⟩]
      c.instrs [] d (hshape.trans (by simp)) (by rfl)
    have hlen : (emitI (emitI (createConst c (Const.str sv)).1 Op.LOAD_CONST
        [(createConst c (Const.str sv)).2]) Op.COPY_STRING []).instrs.length =
        c.instrs.length + 2 := by
      rw [hshape]; simp
    refine ⟨by rw [hlen]; omega, ?_⟩
    rw [hlen, show nodeNet (Node.constantString sv) = 1 from rfl]
    have harith : d + (([⟨Op.LOAD_CONST, [(createConst c (Const.str sv)).2]⟩,
        ⟨Op.COPY_STRING, ([] : List Nat)⟩].map stackEffect).sum) = d + 1 := by
      simp [stackEffect]
    rw [harith] at r2
    simpa using r2
  | hivar nm =>
    intro c c' d h hwf
    simp only [compile] at h; simp at h; subst h
    have hshape : (emitI (createSymbolConst (emitI c Op.LOAD_SELF []) nm).1
        Op.LOAD_INSTANCE_VAR
        [(createSymbolConst (emitI c Op.LOAD_SELF []) nm).2]).instrs =
        c.instrs ++ [⟨.LOAD_SELF, []⟩, ⟨.LOAD_INSTANCE_VAR,
          [(createSymbolConst (emitI c Op.LOAD_SELF []) nm).2]⟩] := by
      rw [emitI_instrs, (createSymbolConst_spec _ nm).2.1, emitI_instrs]
      simp
    have r2 := (RegionNet.empty _ c.instrs.length d).snoc_list
      [⟨.LOAD_SELF, []⟩, ⟨.LOAD_INSTANCE_VAR,
        [(createSymbolConst (emitI c Op.LOAD_SELF []) nm).2]⟩]
      c.instrs [] d (hshape.trans (by simp)) (by rfl)
    have hlen : (emitI (createSymbolConst (emitI c Op.LOAD_SELF []) nm).1
        Op.LOAD_INSTANCE_VAR
        [(createSymbolConst (emitI c Op.LOAD_SELF []) nm).2]).instrs.length =
        c.instrs.length + 2 := by
      rw [hshape]; simp
    refine ⟨by rw [hlen]; omega, ?_⟩
    rw [hlen, show nodeNet (Node.instanceVariable nm) = 1 from rfl]
    have harith : d + (([⟨Op.LOAD_SELF, ([] : List Nat)⟩, ⟨Op.LOAD_INSTANCE_VAR,
        [(createSymbolConst (emitI c Op.LOAD_SELF []) nm).2]⟩].map stackEffect).sum) =
        d + 1 := by
      simp [stackEffect]
    rw [harith] at r2
    simpa using r2
  | hclass n sc b _ihb =>
    intro c c' d h _hwf
    simp only [compile, Option.bind_eq_bind] at h
    cases hb1 : compile b emptyCtx with
    | none => rw [hb1] at h; simp at h
    | some b1 =>
      rw [hb1] at h
      simp at h
      have hshape := congrArg Ctx.instrs h.symm
      simp only [emitI_instrs, createConst_fst_instrs, createSymbolConst_instrs,
        List.append_assoc, List.singleton_append, List.cons_append,
        List.nil_append] at hshape
      have hlen : c'.instrs.length = c.instrs.length + 5 := by rw [hshape]; simp
      refine ⟨by omega, ?_⟩
      rw [show nodeNet (Node.classNode n sc b) = 1 from rfl]
      exact RegionNet.append_plain hshape
        (RegionNet.empty c'.instrs c.instrs.length d) (by simp [plainInstr])
        (by simp [stackEffect])
  | hfunction n as b _ihb =>
    intro c c' d h _hwf
    simp only [compile, Option.bind_eq_bind] at h
    cases hb1 : compile b (declareLocals as emptyCtx) with
    | none => rw [hb1] at h; simp at h
    | some f1 =>
      rw [hb1] at h
      simp at h
      have hshape := congrArg Ctx.instrs h.symm
      simp only [emitI_instrs, createConst_fst_instrs, createSymbolConst_instrs,
        List.append_assoc, List.singleton_append, List.cons_append,
        List.nil_append] at hshape
      have hlen : c'.instrs.length = c.instrs.length + 4 := by rw [hshape]; simp
      refine ⟨by omega, ?_⟩
      rw [show nodeNet (Node.function n as b) = 1 from rfl]
      exact RegionNet.append_plain hshape
        (RegionNet.empty c'.instrs c.instrs.length d) (by simp [plainInstr])
        (by simp [stackEffect])
  | hbinop o l r ihl ihr =>
    intro c c' d h hwf
    have hwfd : ((wf l && (nodeNet l == 1)) && (wf r && (nodeNet r == 1))) = true := hwf
    simp only [Bool.and_eq_true, beq_iff_eq] at hwfd
    simp only [compile, Option.bind_eq_bind] at h
    cases hl : compile l c with
    | none => rw [hl] at h; simp at h
    | some c1 =>
      rw [hl] at h
      simp only [Option.some_bind] at h
      cases hr : compile r c1 with
      | none => rw [hr] at h; simp at h
      | some c2 =>
        rw [hr] at h
        simp at h
        have r1 := ihl c c1 d hl hwfd.1.1
        have r2 := ihr c1 c2 (d + 1) hr hwfd.2.1
        rw [hwfd.1.2] at r1
        rw [hwfd.2.2] at r2
        have hshape := congrArg Ctx.instrs h.symm
        simp only [emitI_instrs, createSymbolConst_instrs] at hshape
        obtain ⟨t2, ht2⟩ := (compile_extends r c1 c2 hr).1
        have r1' : RegionNet c2.instrs c.instrs.length c1.instrs.length d (d + 1) := by
          refine RegionNet.transfer ?_ r1.2
          intro i h1 h2
          rw [ht2]
          exact getD_agree_prefix _ _ i h2
        have hglue := RegionNet.glue r1' r2.2
        have hglue' : RegionNet c'.instrs c.instrs.length c2.instrs.length d
            (d + 1 + 1) := by
          refine RegionNet.transfer ?_ hglue
          intro i h1 h2
          rw [hshape]
          exact getD_agree_prefix _ _ i h2
        have ha1 := r1.1
        have ha2 := r2.1
        have hlen : c'.instrs.length = c2.instrs.length + 1 := by rw [hshape]; simp
        refine ⟨by omega, ?_⟩
        rw [show nodeNet (Node.binOp o l r) = 1 from rfl]
        exact RegionNet.append_plain hshape hglue' (by simp [plainInstr])
          (by simp [stackEffect]; try omega)
  | hsend rcv m as ihr ihas =>
    intro c c' d h hwf
    have hwfd : ((wf rcv && (nodeNet rcv == 1)) && wfArgs as) = true := hwf
    simp only [Bool.and_eq_true, beq_iff_eq] at hwfd
    simp only [compile, Option.bind_eq_bind] at h
    cases hl : compile rcv c with
    | none => rw [hl] at h; simp at h
    | some c1 =>
      rw [hl] at h
      simp only [Option.some_bind] at h
      cases ha : compileRev as c1 with
      | none => rw [ha] at h; simp at h
      | some c2 =>
        rw [ha] at h
        simp at h
        have r1 := ihr c c1 d hl hwfd.1.1
        rw [hwfd.1.2] at r1
        have r2 := compileRev_args_region as ihas c1 c2 (d + 1) ha hwfd.2
        have hshape := congrArg Ctx.instrs h.symm
        simp only [emitI_instrs, createSymbolConst_instrs] at hshape
        obtain ⟨t2, ht2⟩ := (compileRev_extends as
          (fun x hx cc cc' hcc => compile_extends x cc cc' hcc) c1 c2 ha).1
        have hlen12 : c2.instrs.length = c1.instrs.length + t2.length := by
          rw [ht2]; simp
        have r1' : RegionNet c2.instrs c.instrs.length c1.instrs.length d (d + 1) := by
          refine RegionNet.transfer ?_ r1.2
          intro i h1 h2
          rw [ht2]
          exact getD_agree_prefix _ _ i h2
        have hglue := RegionNet.glue r1' r2
        have hglue' : RegionNet c'.instrs c.instrs.length c2.instrs.length d
            (d + 1 + as.length) := by
          refine RegionNet.transfer ?_ hglue
          intro i h1 h2
          rw [hshape]
          exact getD_agree_prefix _ _ i h2
        have ha1 := r1.1
        have hlen : c'.instrs.length = c2.instrs.length + 1 := by rw [hshape]; simp
        refine ⟨by omega, ?_⟩
        rw [show nodeNet (Node.send rcv m as) = 1 from rfl]
        exact RegionNet.append_plain hshape hglue' (by simp [plainInstr])
          (by simp [stackEffect]; try omega)
  | harray items ih =>
    intro c c' d h hwf
    have hwf' : wfArgs items = true := hwf
    simp only [compile, Option.bind_eq_bind] at h
    cases hl : compileList items c with
    | none => rw [hl] at h; simp at h
    | some c1 =>
      rw [hl] at h
      simp at h
      have r1 := compileList_args_region items ih c c1 d hl hwf'
      have hshape := congrArg Ctx.instrs h.symm
      simp only [emitI_instrs] at hshape
      obtain ⟨t1, ht1⟩ := (compileList_extends items
        (fun x hx cc cc' hcc => compile_extends x cc cc' hcc) c c1 hl).1
      have hlen1 : c1.instrs.length = c.instrs.length + t1.length := by
        rw [ht1]; simp
      have r1' : RegionNet c'.instrs c.instrs.length c1.instrs.length d
          (d + items.length) := by
        refine RegionNet.transfer ?_ r1
        intro i h1 h2
        rw [hshape]
        exact getD_agree_prefix _ _ i h2
      have hlen : c'.instrs.length = c1.instrs.length + 1 := by rw [hshape]; simp
      refine ⟨by omega, ?_⟩
      rw [show nodeNet (Node.array items) = 1 from rfl]
      exact RegionNet.append_plain hshape r1' (by simp [plainInstr])
        (by simp [stackEffect]; try omega)
  | hvariable nm =>
    intro c c' d hcm _hwf
    by_cases h1 : nm = "true"
    · simp [compile, h1] at hcm
      have hshape := congrArg Ctx.instrs hcm.symm
      simp only [emitI_instrs, createConst_fst_instrs] at hshape
      have hlen : c'.instrs.length = c.instrs.length + 1 := by rw [hshape]; simp
      refine ⟨by omega, ?_⟩
      rw [show nodeNet (Node.variable nm) = 1 from rfl]
      exact RegionNet.append_plain hshape
        (RegionNet.empty c'.instrs c.instrs.length d) (by simp [plainInstr])
        (by simp [stackEffect])
    by_cases h2 : nm = "false"
    · simp [compile, h1, h2] at hcm
      have hshape := congrArg Ctx.instrs hcm.symm
      simp only [emitI_instrs, createConst_fst_instrs] at hshape
      have hlen : c'.instrs.length = c.instrs.length + 1 := by rw [hshape]; simp
      refine ⟨by omega, ?_⟩
      rw [show nodeNet (Node.variable nm) = 1 from rfl]
      exact RegionNet.append_plain hshape
        (RegionNet.empty c'.instrs c.instrs.length d) (by simp [plainInstr])
        (by simp [stackEffect])
    by_cases h3 : nm = "nil"
    · simp [compile, h1, h2, h3] at hcm
      have hshape := congrArg Ctx.instrs hcm.symm
      simp only [emitI_instrs, createConst_fst_instrs] at hshape
      have hlen : c'.instrs.length = c.instrs.length + 1 := by rw [hshape]; simp
      refine ⟨by omega, ?_⟩
      rw [show nodeNet (Node.variable nm) = 1 from rfl]
      exact RegionNet.append_plain hshape
        (RegionNet.empty c'.instrs c.instrs.length d) (by simp [plainInstr])
        (by simp [stackEffect])
    by_cases h4 : nm = "self"
    · simp [compile, h1, h2, h3, h4] at hcm
      have hshape := congrArg Ctx.instrs hcm.symm
      simp only [emitI_instrs] at hshape
      have hlen : c'.instrs.length = c.instrs.length + 1 := by rw [hshape]; simp
      refine ⟨by omega, ?_⟩
      rw [show nodeNet (Node.variable nm) = 1 from rfl]
      exact RegionNet.append_plain hshape
        (RegionNet.empty c'.instrs c.instrs.length d) (by simp [plainInstr])
        (by simp [stackEffect])
    by_cases h5 : localDefined c nm = true
    · simp [compile, h1, h2, h3, h4, h5] at hcm
      have hshape := congrArg Ctx.instrs hcm.symm
      simp only [emitI_instrs, createLocal_instrs] at hshape
      have hlen : c'.instrs.length = c.instrs.length + 1 := by rw [hshape]; simp
      refine ⟨by omega, ?_⟩
      rw [show nodeNet (Node.variable nm) = 1 from rfl]
      exact RegionNet.append_plain hshape
        (RegionNet.empty c'.instrs c.instrs.length d) (by simp [plainInstr])
        (by simp [stackEffect])
    cases hd : nm.data with
    | nil => simp [compile, h1, h2, h3, h4, h5, hd] at hcm
    | cons ch rest =>
      by_cases hu : ch.isUpper = true
      · simp [compile, h1, h2, h3, h4, h5, hd, hu] at hcm
        have hshape := congrArg Ctx.instrs hcm.symm
        simp only [emitI_instrs, createSymbolConst_instrs] at hshape
        have hlen : c'.instrs.length = c.instrs.length + 1 := by rw [hshape]; simp
        refine ⟨by omega, ?_⟩
        rw [show nodeNet (Node.variable nm) = 1 from rfl]
        exact RegionNet.append_plain hshape
          (RegionNet.empty c'.instrs c.instrs.length d) (by simp [plainInstr])
          (by simp [stackEffect])
      · simp [compile, h1, h2, h3, h4, h5, hd, hu] at hcm
        have hshape := congrArg Ctx.instrs hcm.symm
        simp only [emitI_instrs, createSymbolConst_instrs, List.append_assoc,
          List.singleton_append, List.cons_append, List.nil_append] at hshape
        have hlen : c'.instrs.length = c.instrs.length + 2 := by rw [hshape]; simp
        refine ⟨by omega, ?_⟩
        rw [show nodeNet (Node.variable nm) = 1 from rfl]
        exact RegionNet.append_plain hshape
          (RegionNet.empty c'.instrs c.instrs.length d) (by simp [plainInstr])
          (by simp [stackEffect])

/-! ## Net stack effect of every compiled node (claim C1) -/

/-- Claim C1: for every grammatically well-formed node, a successful
`compile` strictly extends the instruction stream, and the appended run
carries a consistent depth labelling: every straight-line instruction
moves the depth by its catalogued stack effect, both arms of a
`JUMP_IF_FALSE` and the target of a `JUMP` agree, and every jump stays
inside the run. The labelling enters at depth 0 and exits at
`nodeNet n`: net `+1` for every node except a `Statement` whose result
is popped (net `0`, via its `DISCARD_TOP`) and a `Block`, whose net is
that of its final statement. -/
theorem compile_stack_effect (n : Node) (c c' : Ctx)
    (hwf : wf n = true) (h : compile n c = some c') :
    c.instrs.length < c'.instrs.length ∧
    TgtOk c'.instrs c.instrs.length c'.instrs.length ∧
    ∃ D, DOk c'.instrs c.instrs.length c'.instrs.length D ∧
      D c.instrs.length = 0 ∧ D c'.instrs.length = nodeNet n := by
  have hp := Pstack_all n c c' 0 h hwf
  obtain ⟨hlt, _, htgt, D, hD, ha, hb⟩ := hp
  exact ⟨hlt, htgt, D, hD, ha, by rw [hb]; omega⟩

/-- Witness for `compile_stack_effect`: a two-statement block whose
first statement is popped (net 0) and whose final statement survives,
giving net 1 for the block. -/
theorem compile_stack_effect_witness :
    wf (Node.block [.statement (.constantInt 1) false,
      .statement (.constantInt 2) true]) = true ∧
    compile (Node.block [.statement (.constantInt 1) false,
        .statement (.constantInt 2) true]) emptyCtx =
      some ⟨[⟨.LOAD_CONST, [0]⟩, ⟨.DISCARD_TOP, []⟩, ⟨.LOAD_CONST, [1]⟩],
        [.int 1, .int 2], [], []⟩ ∧
    (emptyCtx.instrs.length <
      (⟨[⟨.LOAD_CONST, [0]⟩, ⟨.DISCARD_TOP, []⟩, ⟨.LOAD_CONST, [1]⟩],
        [.int 1, .int 2], [], []⟩ : Ctx).instrs.length ∧
    TgtOk (⟨[⟨.LOAD_CONST, [0]⟩, ⟨.DISCARD_TOP, []⟩, ⟨.LOAD_CONST, [1]⟩],
        [.int 1, .int 2], [], []⟩ : Ctx).instrs emptyCtx.instrs.length
      (⟨[⟨.LOAD_CONST, [0]⟩, ⟨.DISCARD_TOP, []⟩, ⟨.LOAD_CONST, [1]⟩],
        [.int 1, .int 2], [], []⟩ : Ctx).instrs.length ∧
    ∃ D, DOk (⟨[⟨.LOAD_CONST, [0]⟩, ⟨.DISCARD_TOP, []⟩, ⟨.LOAD_CONST, [1]⟩],
        [.int 1, .int 2], [], []⟩ : Ctx).instrs emptyCtx.instrs.length
      (⟨[⟨.LOAD_CONST, [0]⟩, ⟨.DISCARD_TOP, []⟩, ⟨.LOAD_CONST, [1]⟩],
        [.int 1, .int 2], [], []⟩ : Ctx).instrs.length D ∧
      D emptyCtx.instrs.length = 0 ∧
      D (⟨[⟨.LOAD_CONST, [0]⟩, ⟨.DISCARD_TOP, []⟩, ⟨.LOAD_CONST, [1]⟩],
        [.int 1, .int 2], [], []⟩ : Ctx).instrs.length =
        nodeNet (Node.block [.statement (.constantInt 1) false,
          .statement (.constantInt 2) true])) :=
  ⟨rfl, rfl, compile_stack_effect _ emptyCtx _ rfl rfl⟩

/-! ## Structural equality of nodes (claim C9) -/

mutual

/-- Translation of `Node.__eq__` restricted to two nodes:
`type(self) is type(other) and self.__dict__ == other.__dict__`. Type
identity is constructor identity; the field dictionaries compare
value-wise, recursing through node fields, node-list fields and the
optional superclass field. -/
def nodeEqB : Node → Node → Bool
  | .main b1, y =>
      match y with
      | .main b2 => nodeEqB b1 b2
      | _ => false
  | .block s1, y =>
      match y with
      | .block s2 => nodeListEqB s1 s2
      | _ => false
  | .statement e1 d1, y =>
      match y with
      | .statement e2 d2 => nodeEqB e1 e2 && (d1 == d2)
      | _ => false
  | .assignment t1 v1, y =>
      match y with
      | .assignment t2 v2 => (t1 == t2) && nodeEqB v1 v2
      | _ => false
  | .instanceVariableAssignment n1 v1, y =>
      match y with
      | .instanceVariableAssignment n2 v2 => (n1 == n2) && nodeEqB v1 v2
      | _ => false
  | .ifNode c1 b1, y =>
      match y with
      | .ifNode c2 b2 => nodeEqB c1 c2 && nodeEqB b1 b2
      | _ => false
  | .whileNode c1 b1, y =>
      match y with
      | .whileNode c2 b2 => nodeEqB c1 c2 && nodeEqB b1 b2
      | _ => false
  | .classNode n1 sc1 b1, y =>
      match y with
      | .classNode n2 sc2 b2 => (n1 == n2) && nodeOptEqB sc1 sc2 && nodeEqB b1 b2
      | _ => false
  | .function n1 a1 b1, y =>
      match y with
      | .function n2 a2 b2 => (n1 == n2) && (a1 == a2) && nodeEqB b1 b2
      | _ => false
  | .ret e1, y =>
      match y with
      | .ret e2 => nodeEqB e1 e2
      | _ => false
  | .binOp o1 l1 r1, y =>
      match y with
      | .binOp o2 l2 r2 => (o1 == o2) && nodeEqB l1 l2 && nodeEqB r1 r2
      | _ => false
  | .send r1 m1 a1, y =>
      match y with
      | .send r2 m2 a2 => nodeEqB r1 r2 && (m1 == m2) && nodeListEqB a1 a2
      | _ => false
  | .self, y =>
      match y with
      | .self => true
      | _ => false
  | .variable n1, y =>
      match y with
      | .variable n2 => n1 == n2
      | _ => false
  | .instanceVariable n1, y =>
      match y with
      | .instanceVariable n2 => n1 == n2
      | _ => false
  | .array i1, y =>
      match y with
      | .array i2 => nodeListEqB i1 i2
      | _ => false
  | .constantInt n1, y =>
      match y with
      | .constantInt n2 => n1 == n2
      | _ => false
  | .constantString s1, y =>
      match y with
      | .constantString s2 => s1 == s2
      | _ => false

/-- Python `list.__eq__`, element-wise over node lists. -/
def nodeListEqB : List Node → List Node → Bool
  | [], [] => true
  | x :: xs, y :: ys => nodeEqB x y && nodeListEqB xs ys
  | _, _ => false

/-- Comparison of the optional superclass field: `None` equals only
`None`, two present nodes compare recursively. -/
def nodeOptEqB : Option Node → Option Node → Bool
  | none, none => true
  | some x, some y => nodeEqB x y
  | _, _ => false

end

/-- A Python operand of `==` as `Node.__eq__` sees it: either another
node or an object of any other class. -/
inductive PyObj where
  | ofNode (n : Node) : PyObj
  | foreign (tag : String) : PyObj

/-- Full translation of `Node.__eq__`: `none` models the
`NotImplemented` return for a non-`Node` operand, `some b` the boolean
verdict for a `Node` operand. -/
def eqPy : Node → PyObj → Option Bool
  | x, .ofNode y => some (nodeEqB x y)
  | _, .foreign _ => none

theorem nodeListEqB_iff (l : List Node)
    (IH : ∀ x ∈ l, ∀ y, nodeEqB x y = true ↔ x = y) :
    ∀ l2, nodeListEqB l l2 = true ↔ l = l2 := by
  induction l with
  | nil => intro l2; cases l2 <;> simp [nodeListEqB]
  | cons x xs ih =>
    intro l2
    cases l2 with
    | nil => simp [nodeListEqB]
    | cons y ys =>
      simp [nodeListEqB, IH x (by simp) y,
        ih (fun a ha y2 => IH a (by simp [ha]) y2) ys]

theorem nodeOptEqB_iff (o : Option Node)
    (IH : ∀ x, o = some x → ∀ y, nodeEqB x y = true ↔ x = y) :
    ∀ o2, nodeOptEqB o o2 = true ↔ o = o2 := by
  intro o2
  cases o with
  | none => cases o2 <;> simp [nodeOptEqB]
  | some x =>
    cases o2 with
    | none => simp [nodeOptEqB]
    | some y => simp [nodeOptEqB, IH x rfl y]

theorem nodeEqB_iff : ∀ x y : Node, nodeEqB x y = true ↔ x = y := by
  intro x
  induction x using Node.inductionOn with
  | hmain b ih => intro y; cases y <;> simp [nodeEqB, ih]
  | hblock stmts ih =>
    intro y; cases y <;> simp [nodeEqB, nodeListEqB_iff stmts ih]
  | hstatement e dp ih => intro y; cases y <;> simp [nodeEqB, ih]
  | hassignment t v ih => intro y; cases y <;> simp [nodeEqB, ih]
  | hivasgn n v ih => intro y; cases y <;> simp [nodeEqB, ih]
  | hif c b ihc ihb => intro y; cases y <;> simp [nodeEqB, ihc, ihb]
  | hwhile c b ihc ihb => intro y; cases y <;> simp [nodeEqB, ihc, ihb]
  | hclass n sc b ihb ihsc =>
    intro y; cases y <;> simp [nodeEqB, ihb, nodeOptEqB_iff sc ihsc, and_assoc]
  | hfunction n as b ihb => intro y; cases y <;> simp [nodeEqB, ihb, and_assoc]
  | hret e ih => intro y; cases y <;> simp [nodeEqB, ih]
  | hbinop o l r ihl ihr => intro y; cases y <;> simp [nodeEqB, ihl, ihr, and_assoc]
  | hsend r m as ihr ihas =>
    intro y; cases y <;> simp [nodeEqB, ihr, nodeListEqB_iff as ihas, and_assoc]
  | hself => intro y; cases y <;> simp [nodeEqB]
  | hvariable n => intro y; cases y <;> simp [nodeEqB]
  | hivar n => intro y; cases y <;> simp [nodeEqB]
  | harray items ih =>
    intro y; cases y <;> simp [nodeEqB, nodeListEqB_iff items ih]
  | hint n => intro y; cases y <;> simp [nodeEqB]
  | hstr s => intro y; cases y <;> simp [nodeEqB]

/-- Claim C9: `Node.__eq__` is structural. Against another node it
answers `True` exactly when the two are the same tree (same dynamic
type and equal fields, recursively); against a non-node it returns
`NotImplemented` (modelled `none`) rather than `False`; and on nodes
the relation is reflexive and symmetric. -/
theorem node_eq_structural :
    (∀ x y : Node, eqPy x (.ofNode y) = some true ↔ x = y) ∧
    (∀ (x : Node) (t : String), eqPy x (.foreign t) = none) ∧
    (∀ x : Node, nodeEqB x x = true) ∧
    (∀ x y : Node, nodeEqB x y = nodeEqB y x) :=
  ⟨fun x y => by
      rw [show eqPy x (.ofNode y) = some (nodeEqB x y) from rfl]
      simp [nodeEqB_iff x y],
    fun _ _ => rfl,
    fun x => (nodeEqB_iff x x).2 rfl,
    fun x y => by
      by_cases h : x = y
      · subst h; rfl
      · have h1 : nodeEqB x y = false := by
          cases hxy : nodeEqB x y
          · rfl
          · exact absurd ((nodeEqB_iff x y).1 hxy) h
        have h2 : nodeEqB y x = false := by
          cases hyx : nodeEqB y x
          · rfl
          · exact absurd ((nodeEqB_iff y x).1 hyx).symm h
        rw [h1, h2]⟩

/-! ## Mutation performed by `Block.__init__` (claim C10) -/

/-- A `Statement` object as `Block.__init__` sees it: its two fields.
Statement objects live in a store and are handled by reference, so a
field written through one reference is visible through every other. -/
structure PyStatement where
  expr : Node
  dont_pop : Bool

/-- Translation of `Statement.__init__`: records the expression and
clears `dont_pop`. -/
def statementInit (e : Node) : PyStatement :=
  { expr := e, dont_pop := false }

/-- A fixed placeholder returned by lookups outside the store. -/
def defaultStmt : PyStatement :=
  { expr := .self, dont_pop := false }

/-- Translation of `Block.__init__` over an explicit store: `store` is
the heap of `Statement` objects and `ids` the caller's list of
references into it. An empty list is replaced by a fresh one-element
list holding `Statement(Variable("nil"))`; afterwards the statement the
last entry references has its `dont_pop` field overwritten in place.
The result is the store after construction and the list the block keeps
as `self.stmts`. -/
def blockInit (store : List PyStatement) (ids : List Nat) :
    List PyStatement × List Nat :=
  match ids with
  | [] =>
      (store ++ [{ statementInit (.variable "nil") with dont_pop := true }],
        [store.length])
  | i :: rest =>
      let last := (i :: rest).getLast (by simp)
      (store.set last { store.getD last defaultStmt with dont_pop := true },
        i :: rest)

theorem getD_set_eq {α : Type} : ∀ (l : List α) (i : Nat) (a d : α),
    i < l.length → (l.set i a).getD i d = a := by
  intro l
  induction l with
  | nil => intro i a d h; simp at h
  | cons x t ih =>
    intro i a d h
    cases i with
    | zero => rfl
    | succ j => simpa using ih j a d (by simpa using h)

theorem getD_set_ne {α : Type} : ∀ (l : List α) (i j : Nat) (a d : α),
    j ≠ i → (l.set i a).getD j d = l.getD j d := by
  intro l
  induction l with
  | nil => intro i j a d _; rfl
  | cons x t ih =>
    intro i j a d h
    cases i with
    | zero =>
      cases j with
      | zero => exact absurd rfl h
      | succ k => rfl
    | succ i2 =>
      cases j with
      | zero => rfl
      | succ k => simpa using ih i2 k a d (by omega)

/-- Claim C10: constructing a `Block` mutates its argument.
`Statement.__init__` always starts a statement with `dont_pop = false`;
`Block.__init__` replaces an empty statement list by a fresh
nil-statement singleton already flagged `dont_pop`; and for a non-empty
list it keeps the caller's list itself while setting `dont_pop` on the
statement its last entry references — in the shared store, hence
observable through every other reference to that statement — leaving
the statement's expression and every other statement untouched. -/
theorem block_init_frame :
    (∀ e, statementInit e = { expr := e, dont_pop := false }) ∧
    (∀ st : List PyStatement, blockInit st [] =
      (st ++ [{ expr := .variable "nil", dont_pop := true }], [st.length])) ∧
    (∀ (store : List PyStatement) (ids : List Nat) (last : Nat),
      ids ≠ [] → ids.getLast? = some last → last < store.length →
      (blockInit store ids).2 = ids ∧
      (blockInit store ids).1.length = store.length ∧
      (blockInit store ids).1.getD last defaultStmt =
        { store.getD last defaultStmt with dont_pop := true } ∧
      (∀ j, j ≠ last →
        (blockInit store ids).1.getD j defaultStmt =
          store.getD j defaultStmt)) := by
  refine ⟨fun e => rfl, fun st => rfl, ?_⟩
  intro store ids last hne hlast hlt
  cases ids with
  | nil => exact absurd rfl hne
  | cons i rest =>
    have hgl : (i :: rest).getLast (by simp) = last := by
      rw [List.getLast?_eq_getLast (i :: rest) (by simp)] at hlast
      exact Option.some.inj hlast
    refine ⟨rfl, ?_, ?_, ?_⟩
    · simp [blockInit]
    · simp only [blockInit]
      rw [hgl]
      exact getD_set_eq store last _ defaultStmt hlt
    · intro j hj
      simp only [blockInit]
      rw [hgl]
      exact getD_set_ne store last j _ defaultStmt hj

/-- Witness for `block_init_frame`: a two-statement store, with the
caller's list referencing both; constructing the block flags the second
statement and leaves the first untouched. -/
theorem block_init_frame_witness :
    (([0, 1] : List Nat) ≠ [] ∧
      ([0, 1] : List Nat).getLast? = some 1 ∧
      1 < ([{ expr := .constantInt 1, dont_pop := false },
            { expr := .constantInt 2, dont_pop := false }] : List PyStatement).length) ∧
    ((blockInit [{ expr := .constantInt 1, dont_pop := false },
        { expr := .constantInt 2, dont_pop := false }] [0, 1]).2 = [0, 1] ∧
      (blockInit [{ expr := .constantInt 1, dont_pop := false },
        { expr := .constantInt 2, dont_pop := false }] [0, 1]).1.length =
        ([{ expr := .constantInt 1, dont_pop := false },
          { expr := .constantInt 2, dont_pop := false }] : List PyStatement).length ∧
      (blockInit [{ expr := .constantInt 1, dont_pop := false },
        { expr := .constantInt 2, dont_pop := false }] [0, 1]).1.getD 1 defaultStmt =
        { ([{ expr := .constantInt 1, dont_pop := false },
            { expr := .constantInt 2, dont_pop := false }] : List PyStatement).getD 1
            defaultStmt with dont_pop := true } ∧
      (∀ j, j ≠ 1 →
        (blockInit [{ expr := .constantInt 1, dont_pop := false },
          { expr := .constantInt 2, dont_pop := false }] [0, 1]).1.getD j defaultStmt =
          ([{ expr := .constantInt 1, dont_pop := false },
            { expr := .constantInt 2, dont_pop := false }] : List PyStatement).getD j
            defaultStmt)) :=
  ⟨⟨by simp, rfl, by simp⟩,
    block_init_frame.2.2 _ [0, 1] 1 (by simp) rfl (by simp)⟩
